import Mathlib

/-! ## PoDoFo `PdfMemDocument::DeduplicateObjects`

A shallow embedding of the object de-duplication of
`src/podofo/main/PdfMemDocument.cpp`:

* `getObjectContent` (lines 381-464), the content fingerprint of an object,
* `updateObjectReferencesRecursive` / `updateObjectReferences` (lines 466-520),
  the in-place rewrite of reference values, as a function returning the
  rewritten object,
* `DeduplicateObjects` (lines 331-379), the five steps of the operation.

C++ `std::string` is embedded as `String`, `int64_t` / `uint32_t` / `uint16_t`
as `Int` / `Nat` (only their decimal rendering is used), the two
`std::unordered_map`s and the `std::unordered_set` as association lists and
lists.  Their iteration order, which C++ leaves open, is taken to be the
insertion order; `find_eq_canonicalReference_of_perm`,
`mem_objectsToRemove_of_perm` and `foldl_RemoveObject` show that the
operation does not depend on it.
-/

namespace PoDoFo

/-! ## Data model -/

/-- Modelled from the spec: `PdfReference` is declared outside the sources at
hand; an indirect reference is an (object number, generation number) pair,
equal by the value of the pair (`ObjectNumber()`, `GenerationNumber()`). -/
structure PdfReference where
  ObjectNumber : Nat
  GenerationNumber : Nat
  deriving DecidableEq, Repr

/-- An IEEE-754 binary64 value, the result of `PdfObject::GetReal()`, given by
its three bit fields: sign, biased exponent (11 bits) and fraction (52 bits). -/
structure Double where
  sign : Bool
  exponent : Nat
  fraction : Nat
  deriving DecidableEq, Repr

/-- Modelled from the spec: `PdfObject` is declared outside the sources at
hand; a node is a tagged variant over Null, Boolean, Integer, Real, String,
Name, Array (ordered sequence of nodes), Dictionary (from names to nodes, in
its iteration order), Reference, and a Dictionary with an attached byte
payload.  The constructors are the cases of `switch (obj.GetDataType())`;
`Unknown` and `RawData` are the data types the source sends to `default:`.
`stream` is the decoded content of the attached stream (`HasStream()`,
`GetOrCreateStream().CopyTo(buffer)`). -/
inductive PdfObject where
  | Unknown
  | RawData (data : String)
  | Null
  | Boolean (b : Bool)
  | Number (v : Int)
  | Real (v : Double)
  | String (s : String)
  | Name (s : String)
  | Array (arr : List PdfObject)
  | Dictionary (dict : List (String × PdfObject)) (stream : Option String)
  | Reference (ref : PdfReference)

/-- An object owned by the object table, with its `GetIndirectReference()`. -/
structure PdfIndirectObject where
  IndirectReference : PdfReference
  Object : PdfObject

/-- Modelled from the spec: `PdfIndirectObjectList` is declared outside the
sources at hand; the object table enumerates its objects in a stable order.
A slot is `none` for the null pointer that the loops of the source skip. -/
abbrev PdfIndirectObjectList := List (Option PdfIndirectObject)

/-- The state of a `PdfMemDocument` that de-duplication reads and writes: the
object table `GetObjects()` and the trailer, which the document holds outside
the object table. -/
structure PdfMemDocument where
  Objects : PdfIndirectObjectList
  Trailer : PdfObject

/-- The objects of the table in enumeration order, null slots skipped. -/
def liveObjects (objects : PdfIndirectObjectList) : List PdfIndirectObject :=
  objects.filterMap id

/-- Modelled from the spec: `PdfIndirectObjectList::GetSize()` is outside the
sources at hand; the object count is the number of slots of the table. -/
def GetSize (objects : PdfIndirectObjectList) : Nat :=
  objects.length

/-- The references under which the table holds an object. -/
def presentReferences (objects : PdfIndirectObjectList) : List PdfReference :=
  (liveObjects objects).map PdfIndirectObject.IndirectReference

/-- The table is keyed by reference: no two objects share their indirect
reference. -/
def DistinctReferences (objects : PdfIndirectObjectList) : Prop :=
  (presentReferences objects).Nodup

instance (objects : PdfIndirectObjectList) : Decidable (DistinctReferences objects) :=
  inferInstanceAs (Decidable (presentReferences objects).Nodup)

/-! ## Stream insertion of a `double`

`ss << obj.GetReal()` on a default-constructed `std::stringstream` formats as
`printf("%g")` does: six significant digits, the exact binary value rounded
half to even, trailing zeros removed, scientific notation when the decimal
exponent is below `-4` or at least `6`. -/

/-- Magnitude of a finite double as a fraction `(num, den)`. -/
def magnitude (v : Double) : Nat × Nat :=
  if v.exponent = 0 then (v.fraction, 2 ^ 1074)
  else if 1075 ≤ v.exponent then ((2 ^ 52 + v.fraction) * 2 ^ (v.exponent - 1075), 1)
  else (2 ^ 52 + v.fraction, 2 ^ (1075 - v.exponent))

/-- The fraction `num / den * 10 ^ (5 - x)`. -/
def scaleTo (num den : Nat) (x : Int) : Nat × Nat :=
  if x ≤ 5 then (num * 10 ^ (5 - x).toNat, den) else (num, den * 10 ^ (x - 5).toNat)

/-- The largest decimal exponent `x`, searched downwards, at which
`num / den * 10 ^ (5 - x)` has six integer digits. -/
def decimalExponent (num den : Nat) : Nat → Int → Int
  | 0, x => x
  | fuel + 1, x =>
    let s := scaleTo num den x
    if 10 ^ 5 ≤ s.1 / s.2 then x else decimalExponent num den fuel (x - 1)

/-- The fraction `num / den` rounded to the nearest integer, ties to even. -/
def roundHalfEven (num den : Nat) : Nat :=
  let q := num / den
  let r := num % den
  if 2 * r < den then q else if den < 2 * r then q + 1 else if q % 2 = 0 then q else q + 1

/-- Removal of the trailing zeros of a digit sequence. -/
def stripTrailingZeros (ds : List Char) : List Char :=
  (ds.reverse.dropWhile (· = '0')).reverse

/-- Integer digits, then a point and the fraction digits when any is left
after the trailing zeros are removed. -/
def withPoint (intPart fracPart : List Char) : List Char :=
  match stripTrailingZeros fracPart with
  | [] => intPart
  | fs => intPart ++ '.' :: fs

/-- The `%g` rendering of the positive fraction `num / den`. -/
def formatMagnitude (num den : Nat) : List Char :=
  let x := decimalExponent num den 700 330
  let s := scaleTo num den x
  let d := roundHalfEven s.1 s.2
  let (digits, X) :=
    if d = 10 ^ 6 then (Nat.toDigits 10 (10 ^ 5), x + 1) else (Nat.toDigits 10 d, x)
  if X < -4 ∨ 6 ≤ X then
    withPoint (digits.take 1) (digits.drop 1) ++ 'e' :: (if X < 0 then '-' else '+') ::
      (if X.natAbs < 10 then '0' :: Nat.toDigits 10 X.natAbs else Nat.toDigits 10 X.natAbs)
  else if 0 ≤ X then
    withPoint (digits.take (X.toNat + 1)) (digits.drop (X.toNat + 1))
  else
    withPoint ['0'] (List.replicate ((-X).toNat - 1) '0' ++ digits)

/-- The text `std::ostream::operator<<(double)` writes with default flags. -/
def formatDouble (v : Double) : String :=
  String.mk ((if v.sign then ['-'] else []) ++
    (if v.exponent = 2047 then (if v.fraction = 0 then "inf".data else "nan".data)
     else if v.exponent = 0 ∧ v.fraction = 0 then ['0']
     else formatMagnitude (magnitude v).1 (magnitude v).2))

/-! ## Content fingerprint -/

/-- Modelled from the spec: `PdfObject::IsNumber()` is declared outside the
sources at hand; an object answers true exactly when its data type is
`Number`. -/
def IsNumber : PdfObject → Bool
  | .Number _ => true
  | _ => false

mutual
/-- The function `PdfMemDocument::getObjectContent`: the content string of an
object in the given mode. -/
def getObjectContent : PdfObject → Bool → String
  | .Null, _ => "null"
  | .Boolean b, _ => "bool:" ++ (if b then "true" else "false")
  | .Number v, _ =>
      if IsNumber (.Number v) then "num:" ++ toString v else "int:" ++ toString v
  | .Real v, _ => "real:" ++ formatDouble v
  | .String s, _ => "str:" ++ s
  | .Name s, _ => "name:" ++ s
  | .Array arr, aggressive => "array:[" ++ arrayContent arr aggressive true ++ "]"
  | .Dictionary dict stream, aggressive =>
      "dict:\x7b" ++ dictionaryContent dict aggressive true ++ "\x7d" ++
        (match aggressive, stream with
         | true, some buffer => "stream:" ++ buffer
         | _, _ => "")
  | .Reference ref, _ =>
      "ref:" ++ toString ref.ObjectNumber ++ ":" ++ toString ref.GenerationNumber
  | .Unknown, _ => "unknown"
  | .RawData _, _ => "unknown"
/-- The loop over the elements of an array (`if (i > 0) ss << ","`);
`first` says that no element has been written yet. -/
def arrayContent : List PdfObject → Bool → Bool → String
  | [], _, _ => ""
  | child :: rest, aggressive, first =>
      (if first then "" else ",") ++ getObjectContent child aggressive ++
        arrayContent rest aggressive false
/-- The loop over the entries of a dictionary (`if (!first) ss << ","`). -/
def dictionaryContent : List (String × PdfObject) → Bool → Bool → String
  | [], _, _ => ""
  | (key, value) :: rest, aggressive, first =>
      (if first then "" else ",") ++ key ++ ":" ++ getObjectContent value aggressive ++
        dictionaryContent rest aggressive false
end

/-! ## Reference rewriting -/

/-- The replacement map `std::unordered_map<PdfReference, PdfReference>`. -/
abbrev ReplacementMap := List (PdfReference × PdfReference)

/-- Lookup `replacementMap.find(ref)`. -/
def ReplacementMap.find (replacementMap : ReplacementMap) (ref : PdfReference) :
    Option PdfReference :=
  match replacementMap with
  | [] => none
  | (key, value) :: rest => if key = ref then some value else ReplacementMap.find rest ref

/-- Insert-or-overwrite `replacementMap[key] = value`. -/
def ReplacementMap.assign (replacementMap : ReplacementMap) (key value : PdfReference) :
    ReplacementMap :=
  match replacementMap with
  | [] => [(key, value)]
  | (k, v) :: rest =>
      if k = key then (k, value) :: rest else (k, v) :: ReplacementMap.assign rest key value

mutual
/-- The function `PdfMemDocument::updateObjectReferencesRecursive`, returning
the object it leaves in place of `obj`. -/
def updateObjectReferencesRecursive : PdfObject → ReplacementMap → PdfObject
  | .Reference ref, replacementMap =>
      match replacementMap.find ref with
      | some second => .Reference second
      | none => .Reference ref
  | .Array arr, replacementMap => .Array (updateArray arr replacementMap)
  | .Dictionary dict stream, replacementMap =>
      .Dictionary (updateDictionary dict replacementMap) stream
  | .Unknown, _ => .Unknown
  | .RawData data, _ => .RawData data
  | .Null, _ => .Null
  | .Boolean b, _ => .Boolean b
  | .Number v, _ => .Number v
  | .Real v, _ => .Real v
  | .String s, _ => .String s
  | .Name s, _ => .Name s
/-- The loop `for (auto& child : arr)`. -/
def updateArray : List PdfObject → ReplacementMap → List PdfObject
  | [], _ => []
  | child :: rest, replacementMap =>
      updateObjectReferencesRecursive child replacementMap :: updateArray rest replacementMap
/-- The loop `for (auto& pair : dict)`, which rewrites `pair.second` only. -/
def updateDictionary : List (String × PdfObject) → ReplacementMap → List (String × PdfObject)
  | [], _ => []
  | (key, value) :: rest, replacementMap =>
      (key, updateObjectReferencesRecursive value replacementMap) ::
        updateDictionary rest replacementMap
end

/-- The function `PdfMemDocument::updateObjectReferences`: nothing is done for
an empty map; otherwise every object of the table is rewritten, keeping its
indirect reference. -/
def updateObjectReferences (objects : PdfIndirectObjectList)
    (replacementMap : ReplacementMap) : PdfIndirectObjectList :=
  if replacementMap.isEmpty then objects
  else objects.map fun slot =>
    match slot with
    | none => none
    | some obj =>
        some { obj with Object := updateObjectReferencesRecursive obj.Object replacementMap }

/-! ## Object table operations used by the operation -/

/-- Modelled from the spec: `PdfIndirectObjectList::RemoveObject` is not in
the sources at hand; the spec gives `remove(Reference)`, a no-op if absent.
The object held under `ref` leaves the table. -/
def RemoveObject (objects : PdfIndirectObjectList) (ref : PdfReference) :
    PdfIndirectObjectList :=
  objects.filter fun slot =>
    match slot with
    | none => true
    | some obj => decide (obj.IndirectReference ≠ ref)

mutual
/-- The reference values held in the owned substructure of an object, in
traversal order. -/
def referencesOf : PdfObject → List PdfReference
  | .Reference ref => [ref]
  | .Array arr => referencesOfArray arr
  | .Dictionary dict _ => referencesOfDictionary dict
  | _ => []
/-- The reference values held in the elements of an array. -/
def referencesOfArray : List PdfObject → List PdfReference
  | [] => []
  | child :: rest => referencesOf child ++ referencesOfArray rest
/-- The reference values held in the values of a dictionary. -/
def referencesOfDictionary : List (String × PdfObject) → List PdfReference
  | [] => []
  | (_, value) :: rest => referencesOf value ++ referencesOfDictionary rest
end

/-- Modelled from the spec: `PdfIndirectObjectList::GetObject` is outside the
sources at hand; `get(Reference)` gives the node held under the reference, or
nothing. -/
def GetObject (objects : PdfIndirectObjectList) (ref : PdfReference) :
    Option PdfIndirectObject :=
  (liveObjects objects).find? fun obj => decide (obj.IndirectReference = ref)

/-- One round of the reachability sweep: the marked references, followed by
every reference that an object held under a marked reference contains, that
resolves in the table and is not marked yet. -/
def markStep (objects : PdfIndirectObjectList) (marked : List PdfReference) :
    List PdfReference :=
  marked ++
    (((((liveObjects objects).filter fun obj => decide (obj.IndirectReference ∈ marked)).flatMap
        fun obj => referencesOf obj.Object).filter
      fun ref => decide (ref ∈ presentReferences objects ∧ ref ∉ marked)).dedup)

/-- The references marked after `fuel` rounds. -/
def markRounds (objects : PdfIndirectObjectList) : Nat → List PdfReference → List PdfReference
  | 0, marked => marked
  | fuel + 1, marked => markRounds objects fuel (markStep objects marked)

/-- The references reachable from the trailer: as many rounds as the table
has slots, started from the references of the trailer that resolve. -/
def reachableReferences (objects : PdfIndirectObjectList) (trailer : PdfObject) :
    List PdfReference :=
  markRounds objects objects.length
    (((referencesOf trailer).filter fun ref => decide (ref ∈ presentReferences objects)).dedup)

/-- Modelled from the spec: `PdfDocument::CollectGarbage` is not in the
sources at hand; the spec gives `collectGarbage()` as a reachability sweep
from the document root that removes every unreachable node.  The table keeps
the objects whose reference is reachable from the trailer. -/
def CollectGarbage (objects : PdfIndirectObjectList) (trailer : PdfObject) :
    PdfIndirectObjectList :=
  objects.filter fun slot =>
    match slot with
    | none => false
    | some obj => decide (obj.IndirectReference ∈ reachableReferences objects trailer)

/-! ## The operation -/

/-- The content map `std::unordered_map<std::string, std::vector<PdfReference>>`. -/
abbrev ContentMap := List (String × List PdfReference)

/-- The statement `contentMap[content].push_back(ref)`. -/
def ContentMap.pushBack (contentMap : ContentMap) (content : String) (ref : PdfReference) :
    ContentMap :=
  match contentMap with
  | [] => [(content, [ref])]
  | (key, refs) :: rest =>
      if key = content then (key, refs ++ [ref]) :: rest
      else (key, refs) :: ContentMap.pushBack rest content ref

/-- The value `contentMap[content]`, empty when the key is absent. -/
def ContentMap.refs (contentMap : ContentMap) (content : String) : List PdfReference :=
  match contentMap with
  | [] => []
  | (key, refs) :: rest => if key = content then refs else ContentMap.refs rest content

/-- Step 1 of `DeduplicateObjects`: the content map of the table.  (The map
`objectContent` that the source fills next to it is never read.) -/
def buildContentMap (objects : PdfIndirectObjectList) (aggressive : Bool) : ContentMap :=
  objects.foldl
    (fun contentMap slot =>
      match slot with
      | none => contentMap
      | some obj =>
          contentMap.pushBack (getObjectContent obj.Object aggressive) obj.IndirectReference)
    []

/-- Insertion `objectsToRemove.insert(ref)` into the `std::unordered_set`. -/
def insertReference (objectsToRemove : List PdfReference) (ref : PdfReference) :
    List PdfReference :=
  if ref ∈ objectsToRemove then objectsToRemove else objectsToRemove ++ [ref]

/-- The inner loop of step 2 over `refs[1..]`. -/
def replaceOthers (keepRef : PdfReference) (others : List PdfReference)
    (state : ReplacementMap × List PdfReference) : ReplacementMap × List PdfReference :=
  others.foldl (fun st ref => (st.1.assign ref keepRef, insertReference st.2 ref)) state

/-- Step 2 of `DeduplicateObjects`: the replacement map and the set
`objectsToRemove`, from the buckets with `refs.size() > 1`. -/
def identifyDuplicates (contentMap : ContentMap) : ReplacementMap × List PdfReference :=
  contentMap.foldl
    (fun state pair =>
      match pair.2 with
      | keepRef :: other :: others => replaceOthers keepRef (other :: others) state
      | _ => state)
    ([], [])

/-- Steps 1 to 4 of `DeduplicateObjects`: the object table as it stands
before garbage collection. -/
def removeDuplicates (objects : PdfIndirectObjectList) (aggressive : Bool) :
    PdfIndirectObjectList :=
  let contentMap := buildContentMap objects aggressive
  let (replacementMap, objectsToRemove) := identifyDuplicates contentMap
  let updated := updateObjectReferences objects replacementMap
  objectsToRemove.foldl RemoveObject updated

/-- The operation `PdfMemDocument::DeduplicateObjects(aggressive)`. -/
def DeduplicateObjects (doc : PdfMemDocument) (aggressive : Bool) : PdfMemDocument :=
  { doc with Objects := CollectGarbage (removeDuplicates doc.Objects aggressive) doc.Trailer }

/-! ## Specification-level notions -/

/-- The content string of a table object in the given mode. -/
def contentOf (aggressive : Bool) (obj : PdfIndirectObject) : String :=
  getObjectContent obj.Object aggressive

/-- The reference of the first object in enumeration order with the content
of the object held under `ref`; `ref` itself when the table holds no object
under it. -/
def canonicalReference (objects : PdfIndirectObjectList) (aggressive : Bool)
    (ref : PdfReference) : PdfReference :=
  match GetObject objects ref with
  | none => ref
  | some obj =>
      match (liveObjects objects).find?
          fun other => decide (contentOf aggressive other = contentOf aggressive obj) with
      | none => ref
      | some first => first.IndirectReference

/-- The objects of a list whose content is not in `seen` and not the content
of an earlier object of the list. -/
def firstOfEachContent (aggressive : Bool) :
    List String → List PdfIndirectObject → List PdfIndirectObject
  | _, [] => []
  | seen, obj :: rest =>
      if contentOf aggressive obj ∈ seen then firstOfEachContent aggressive seen rest
      else obj :: firstOfEachContent aggressive (contentOf aggressive obj :: seen) rest

/-- Closure of a set of references under the references of the objects held
under its members that resolve in the table. -/
def ReferenceClosed (objects : PdfIndirectObjectList) (marked : List PdfReference) : Prop :=
  ∀ obj ∈ liveObjects objects, obj.IndirectReference ∈ marked →
    ∀ ref ∈ referencesOf obj.Object, ref ∈ presentReferences objects → ref ∈ marked

/-- Reachability from the trailer: a reference is reachable when it resolves
in the table and is held by the trailer or by an object that the table holds
under a reachable reference. -/
inductive Reachable (objects : PdfIndirectObjectList) (trailer : PdfObject) :
    PdfReference → Prop where
  | root (ref : PdfReference) (held : ref ∈ referencesOf trailer)
      (present : ref ∈ presentReferences objects) : Reachable objects trailer ref
  | step (obj : PdfIndirectObject) (ref : PdfReference) (live : obj ∈ liveObjects objects)
      (reached : Reachable objects trailer obj.IndirectReference)
      (held : ref ∈ referencesOf obj.Object) (present : ref ∈ presentReferences objects) :
      Reachable objects trailer ref

/-- The number that a sequence of decimal digit characters denotes. -/
def decimalValue (digits : List Char) : Nat :=
  digits.foldl (fun acc c => acc * 10 + (c.toNat - 48)) 0

/-- The scalar variants `Null`, `Boolean`, `Number`, `String` and `Name`. -/
def IsScalar : PdfObject → Prop
  | .Null => True
  | .Boolean _ => True
  | .Number _ => True
  | .String _ => True
  | .Name _ => True
  | _ => False

/-! ## Example documents -/

/-- The three objects of test `DeduplicateSimpleObjects`: 42, 42 and 100. -/
def simpleObjects : PdfIndirectObjectList :=
  [some ⟨⟨1, 0⟩, .Number 42⟩, some ⟨⟨2, 0⟩, .Number 42⟩, some ⟨⟨3, 0⟩, .Number 100⟩]

/-- A document whose trailer reaches a catalog, with two equal numbers that
nothing refers to, as the tests create them. -/
def unreferencedNumbers : PdfMemDocument :=
  { Objects := [some ⟨⟨1, 0⟩, .Dictionary [("Type", .Name "Catalog")] none⟩,
      some ⟨⟨2, 0⟩, .Number 42⟩, some ⟨⟨3, 0⟩, .Number 42⟩],
    Trailer := .Dictionary [("Root", .Reference ⟨1, 0⟩)] none }

/-- The objects of test `DeduplicateWithReferences`, a number and two arrays
that refer to it, in a document whose root refers to both arrays. -/
def sharedReference : PdfMemDocument :=
  { Objects := [some ⟨⟨1, 0⟩, .Number 42⟩, some ⟨⟨2, 0⟩, .Array [.Reference ⟨1, 0⟩]⟩,
      some ⟨⟨3, 0⟩, .Array [.Reference ⟨1, 0⟩]⟩,
      some ⟨⟨4, 0⟩, .Dictionary [("First", .Reference ⟨2, 0⟩), ("Second", .Reference ⟨3, 0⟩)]
        none⟩],
    Trailer := .Dictionary [("Root", .Reference ⟨4, 0⟩)] none }

/-- Two equal numbers, and an array and a dictionary that refer to the first
of them only. -/
def referencesToFirst : PdfMemDocument :=
  { Objects := [some ⟨⟨1, 0⟩, .Number 42⟩, some ⟨⟨2, 0⟩, .Number 42⟩,
      some ⟨⟨3, 0⟩, .Array [.Reference ⟨1, 0⟩]⟩,
      some ⟨⟨4, 0⟩, .Dictionary [("First", .Reference ⟨3, 0⟩), ("Second", .Reference ⟨1, 0⟩)]
        none⟩],
    Trailer := .Dictionary [("Root", .Reference ⟨4, 0⟩)] none }

/-- Two dictionaries that refer to two equal numbers, as `create-test-pdf.cpp`
builds them, in a document whose root refers to both dictionaries. -/
def duplicateTargets : PdfMemDocument :=
  { Objects := [some ⟨⟨1, 0⟩, .Number 42⟩, some ⟨⟨2, 0⟩, .Number 42⟩,
      some ⟨⟨3, 0⟩, .Dictionary [("Key1", .Number 100), ("Key3", .Reference ⟨1, 0⟩)] none⟩,
      some ⟨⟨4, 0⟩, .Dictionary [("Key1", .Number 100), ("Key3", .Reference ⟨2, 0⟩)] none⟩,
      some ⟨⟨5, 0⟩, .Dictionary [("First", .Reference ⟨3, 0⟩), ("Second", .Reference ⟨4, 0⟩)]
        none⟩],
    Trailer := .Dictionary [("Root", .Reference ⟨5, 0⟩)] none }

/-! ## Shape and nesting depth of an object -/

mutual
/-- The shape of an object: the object with every reference value replaced
by the reference `0 0`. -/
def shapeOf : PdfObject → PdfObject
  | .Reference _ => .Reference ⟨0, 0⟩
  | .Array arr => .Array (shapeOfArray arr)
  | .Dictionary dict stream => .Dictionary (shapeOfDictionary dict) stream
  | other => other
/-- The shapes of the elements of an array. -/
def shapeOfArray : List PdfObject → List PdfObject
  | [] => []
  | child :: rest => shapeOf child :: shapeOfArray rest
/-- The keys of a dictionary with the shapes of its values. -/
def shapeOfDictionary : List (String × PdfObject) → List (String × PdfObject)
  | [] => []
  | (key, value) :: rest => (key, shapeOf value) :: shapeOfDictionary rest
end

mutual
/-- The nesting depth of an object: 1 for an object without elements, a
Reference included, and one more than the deepest element or value for an
Array or a Dictionary. -/
def nestingDepth : PdfObject → Nat
  | .Array arr => nestingDepthArray arr + 1
  | .Dictionary dict _ => nestingDepthDictionary dict + 1
  | _ => 1
/-- The largest nesting depth among the elements of an array. -/
def nestingDepthArray : List PdfObject → Nat
  | [] => 0
  | child :: rest => max (nestingDepth child) (nestingDepthArray rest)
/-- The largest nesting depth among the values of a dictionary. -/
def nestingDepthDictionary : List (String × PdfObject) → Nat
  | [] => 0
  | (_, value) :: rest => max (nestingDepth value) (nestingDepthDictionary rest)
end

/-- The results of a sequence of calls, when every call returned. -/
def allReturned : List (Option String) → Option (List String)
  | [] => some []
  | none :: _ => none
  | some part :: rest => (allReturned rest).map fun parts => part :: parts

/-- The parts written by a loop that puts `,` before every part but the
first. -/
def joinParts : List String → Bool → String
  | [], _ => ""
  | part :: rest, first => (if first then "" else ",") ++ part ++ joinParts rest false

/-- The function `PdfMemDocument::getObjectContent` run with a bound on the
depth of its recursion: a call at depth `0` does not return, a call at depth
`depth + 1` makes its recursive calls at depth `depth`. -/
def getObjectContentWithin : Nat → PdfObject → Bool → Option String
  | 0, _, _ => none
  | depth + 1, obj, aggressive =>
    match obj with
    | .Null => some "null"
    | .Boolean b => some ("bool:" ++ (if b then "true" else "false"))
    | .Number v =>
        some (if IsNumber (.Number v) then "num:" ++ toString v else "int:" ++ toString v)
    | .Real v => some ("real:" ++ formatDouble v)
    | .String s => some ("str:" ++ s)
    | .Name s => some ("name:" ++ s)
    | .Array arr =>
        (allReturned (arr.map fun child => getObjectContentWithin depth child aggressive)).map
          fun parts => "array:[" ++ joinParts parts true ++ "]"
    | .Dictionary dict stream =>
        (allReturned (dict.map fun pair =>
            (getObjectContentWithin depth pair.2 aggressive).map fun content =>
              pair.1 ++ ":" ++ content)).map
          fun parts => "dict:\x7b" ++ joinParts parts true ++ "\x7d" ++
            (match aggressive, stream with
             | true, some buffer => "stream:" ++ buffer
             | _, _ => "")
    | .Reference ref =>
        some ("ref:" ++ toString ref.ObjectNumber ++ ":" ++ toString ref.GenerationNumber)
    | .Unknown => some "unknown"
    | .RawData _ => some "unknown"

/-! ## Further example documents -/

/-- Two arrays that refer to each other, in a document whose root refers to
the first. -/
def referenceCycle : PdfMemDocument :=
  { Objects := [some ⟨⟨1, 0⟩, .Array [.Reference ⟨2, 0⟩]⟩,
      some ⟨⟨2, 0⟩, .Array [.Reference ⟨1, 0⟩]⟩],
    Trailer := .Dictionary [("Root", .Reference ⟨1, 0⟩)] none }

/-- Two stream objects with the same dictionary and different stream bytes,
in a document whose root refers to both. -/
def differentStreams : PdfMemDocument :=
  { Objects := [some ⟨⟨1, 0⟩, .Dictionary [("Length", .Number 3)] (some "abc")⟩,
      some ⟨⟨2, 0⟩, .Dictionary [("Length", .Number 3)] (some "xyz")⟩,
      some ⟨⟨3, 0⟩, .Dictionary [("First", .Reference ⟨1, 0⟩), ("Second", .Reference ⟨2, 0⟩)]
        none⟩],
    Trailer := .Dictionary [("Root", .Reference ⟨3, 0⟩)] none }

/-- Two dictionaries with the same entries in a different order, in a
document whose root refers to both. -/
def reorderedDictionaries : PdfMemDocument :=
  { Objects := [some ⟨⟨1, 0⟩, .Dictionary [("A", .Number 1), ("B", .Number 2)] none⟩,
      some ⟨⟨2, 0⟩, .Dictionary [("B", .Number 2), ("A", .Number 1)] none⟩,
      some ⟨⟨3, 0⟩, .Dictionary [("First", .Reference ⟨1, 0⟩), ("Second", .Reference ⟨2, 0⟩)]
        none⟩],
    Trailer := .Dictionary [("Root", .Reference ⟨3, 0⟩)] none }

/-- Two dictionaries with the same entries in a different order that nothing
refers to, next to a catalog. -/
def unreferencedDictionaries : PdfMemDocument :=
  { Objects := [some ⟨⟨1, 0⟩, .Dictionary [("Type", .Name "Catalog")] none⟩,
      some ⟨⟨2, 0⟩, .Dictionary [("A", .Number 1), ("B", .Number 2)] none⟩,
      some ⟨⟨3, 0⟩, .Dictionary [("B", .Number 2), ("A", .Number 1)] none⟩],
    Trailer := .Dictionary [("Root", .Reference ⟨1, 0⟩)] none }

/-- The double `1.0`. -/
def doubleOne : Double := ⟨false, 1023, 0⟩

/-- The double nearest to `1.0000001`. -/
def doubleOneAndABit : Double := ⟨false, 1023, 450359963⟩

/-- Two Real objects, `1.0` and the double nearest to `1.0000001`, in a
document whose root refers to both. -/
def nearbyReals : PdfMemDocument :=
  { Objects := [some ⟨⟨1, 0⟩, .Real doubleOne⟩, some ⟨⟨2, 0⟩, .Real doubleOneAndABit⟩,
      some ⟨⟨3, 0⟩, .Array [.Reference ⟨1, 0⟩, .Reference ⟨2, 0⟩]⟩],
    Trailer := .Dictionary [("Root", .Reference ⟨3, 0⟩)] none }

/-- Two dictionaries with the same two entries in a different order, one key
of which contains the separators `:` and `,`, in a document whose root refers
to both. -/
def collidingDictionaries : PdfMemDocument :=
  { Objects := [some ⟨⟨1, 0⟩, .Dictionary [("a", .Null), ("a:null,a", .Null)] none⟩,
      some ⟨⟨2, 0⟩, .Dictionary [("a:null,a", .Null), ("a", .Null)] none⟩,
      some ⟨⟨3, 0⟩, .Array [.Reference ⟨1, 0⟩, .Reference ⟨2, 0⟩]⟩],
    Trailer := .Dictionary [("Root", .Reference ⟨3, 0⟩)] none }

/-! ## Data types and stream-free nodes -/

/-- The data type of a node, as `GetDataType` reports it. -/
inductive PdfDataType where
  | Unknown
  | RawData
  | Null
  | Boolean
  | Number
  | Real
  | String
  | Name
  | Array
  | Dictionary
  | Reference
  deriving DecidableEq, Repr

/-- The value `obj.GetDataType()` on which `getObjectContent` switches. -/
def GetDataType : PdfObject → PdfDataType
  | .Unknown => .Unknown
  | .RawData _ => .RawData
  | .Null => .Null
  | .Boolean _ => .Boolean
  | .Number _ => .Number
  | .Real _ => .Real
  | .String _ => .String
  | .Name _ => .Name
  | .Array _ => .Array
  | .Dictionary _ _ => .Dictionary
  | .Reference _ => .Reference

/-- The data types that have a `case` of their own in the `switch` of `getObjectContent`;
the others fall to its `default`. -/
def IsRecognized (obj : PdfObject) : Bool :=
  match GetDataType obj with
  | .Unknown => false
  | .RawData => false
  | _ => true

mutual
/-- The node has no stream attached, and neither has any value nested in it:
`obj.HasStream()` is false at every node that `getObjectContent` visits. -/
def hasNoStream : PdfObject → Bool
  | .Array arr => arrayHasNoStream arr
  | .Dictionary dict stream => stream.isNone && dictionaryHasNoStream dict
  | _ => true
/-- No element of the array carries a stream. -/
def arrayHasNoStream : List PdfObject → Bool
  | [] => true
  | child :: rest => hasNoStream child && arrayHasNoStream rest
/-- No value of the dictionary carries a stream. -/
def dictionaryHasNoStream : List (String × PdfObject) → Bool
  | [] => true
  | (_, value) :: rest => hasNoStream value && dictionaryHasNoStream rest
end

/-! ## Pages and `Select` -/

/-- Two nodes of unrecognized data types with different content, both reachable from the
trailer. -/
def unrecognizedObjects : PdfMemDocument where
  Objects :=
    [some ⟨⟨1, 0⟩, .RawData "one"⟩,
     some ⟨⟨2, 0⟩, .RawData "another"⟩]
  Trailer := .Array [.Reference ⟨1, 0⟩, .Reference ⟨2, 0⟩]

/-- A table in which all fingerprints differ, with one object out of reach of the
trailer. -/
def distinctContents : PdfMemDocument where
  Objects :=
    [some ⟨⟨1, 0⟩, .Number 1⟩,
     some ⟨⟨2, 0⟩, .Number 2⟩,
     some ⟨⟨3, 0⟩, .Array [.Reference ⟨1, 0⟩]⟩]
  Trailer := .Reference ⟨3, 0⟩

/-- The value `obj.HasStream()`: a stream is attached to the node itself. -/
def HasStream : PdfObject → Bool
  | .Dictionary _ (some _) => true
  | _ => false

/-- An array, itself without a stream, that holds a dictionary with a stream attached. -/
def nestedStream : PdfObject :=
  .Array [.Dictionary [] (some "x")]

/-- The stream attached to the node itself, if there is one: the bytes that
`stream.CopyTo(buffer)` copies out in aggressive mode. -/
def GetStream : PdfObject → Option String
  | .Dictionary _ stream => stream
  | _ => none

/-- Two equal catalogs, the trailer holding a reference to the later one. -/
def duplicateRoot : PdfMemDocument where
  Objects :=
    [some ⟨⟨1, 0⟩, .Dictionary [("Type", .Name "Catalog")] none⟩,
     some ⟨⟨2, 0⟩, .Dictionary [("Type", .Name "Catalog")] none⟩]
  Trailer := .Dictionary [("Root", .Reference ⟨2, 0⟩)] none

/-- A map with the chain 3 to 2 to 1. -/
def chainMap : ReplacementMap :=
  [(⟨3, 0⟩, ⟨2, 0⟩), (⟨2, 0⟩, ⟨1, 0⟩)]

/-- A table with a stream-bearing dictionary that holds no reference, two equal numbers,
and an array that refers to the earlier number; the trailer reaches all of them. -/
def untouchedObjects : PdfMemDocument where
  Objects :=
    [some ⟨⟨1, 0⟩, .Dictionary [("Length", .Number 4)] (some "data")⟩,
     some ⟨⟨2, 0⟩, .Number 42⟩,
     some ⟨⟨3, 0⟩, .Number 42⟩,
     some ⟨⟨4, 0⟩, .Array [.Reference ⟨2, 0⟩]⟩,
     some ⟨⟨5, 0⟩, .Array [.Reference ⟨3, 0⟩, .Reference ⟨1, 0⟩, .Reference ⟨4, 0⟩]⟩]
  Trailer := .Dictionary [("Root", .Reference ⟨5, 0⟩)] none

/-- A catalog that the trailer reaches, and two stream-bearing dictionaries with the same
entries and different stream bytes that nothing refers to. -/
def unreferencedStreams : PdfMemDocument where
  Objects :=
    [some ⟨⟨1, 0⟩, .Dictionary [("Type", .Name "Catalog")] none⟩,
     some ⟨⟨2, 0⟩, .Dictionary [("Length", .Number 3)] (some "abc")⟩,
     some ⟨⟨3, 0⟩, .Dictionary [("Length", .Number 3)] (some "xyz")⟩]
  Trailer := .Dictionary [("Root", .Reference ⟨1, 0⟩)] none

/-! ## The live objects of a table -/

theorem liveObjects_cons_none (objects : PdfIndirectObjectList) :
    liveObjects (none :: objects) = liveObjects objects := rfl

theorem liveObjects_cons_some (obj : PdfIndirectObject) (objects : PdfIndirectObjectList) :
    liveObjects (some obj :: objects) = obj :: liveObjects objects := rfl

theorem mem_liveObjects {objects : PdfIndirectObjectList} {obj : PdfIndirectObject} :
    obj ∈ liveObjects objects ↔ some obj ∈ objects := by
  simp [liveObjects]

theorem length_liveObjects_le (objects : PdfIndirectObjectList) :
    (liveObjects objects).length ≤ objects.length := by
  unfold liveObjects
  exact List.length_filterMap_le _ _

theorem mem_presentReferences {objects : PdfIndirectObjectList} {ref : PdfReference} :
    ref ∈ presentReferences objects ↔
      ∃ obj ∈ liveObjects objects, obj.IndirectReference = ref := by
  simp [presentReferences]

theorem liveObjects_RemoveObject (objects : PdfIndirectObjectList) (ref : PdfReference) :
    liveObjects (RemoveObject objects ref) =
      (liveObjects objects).filter fun obj => decide (obj.IndirectReference ≠ ref) := by
  induction objects with
  | nil => rfl
  | cons slot rest ih =>
    cases slot with
    | none => simpa [RemoveObject, liveObjects] using ih
    | some obj =>
      by_cases h : obj.IndirectReference = ref
      · simpa [RemoveObject, liveObjects, h] using ih
      · simpa [RemoveObject, liveObjects, h] using ih

theorem foldl_RemoveObject (objectsToRemove : List PdfReference)
    (objects : PdfIndirectObjectList) :
    objectsToRemove.foldl RemoveObject objects =
      objects.filter fun slot =>
        match slot with
        | none => true
        | some obj => decide (obj.IndirectReference ∉ objectsToRemove) := by
  induction objectsToRemove generalizing objects with
  | nil =>
    simp only [List.foldl_nil]
    symm
    rw [List.filter_eq_self]
    intro slot _
    cases slot <;> simp
  | cons ref rest ih =>
    simp only [List.foldl_cons, ih, RemoveObject, List.filter_filter]
    congr 1
    funext slot
    cases slot with
    | none => simp
    | some obj =>
      by_cases h : obj.IndirectReference = ref
      · simp [h]
      · simp [h]

theorem liveObjects_filter_slots (objects : PdfIndirectObjectList)
    (p : PdfIndirectObject → Bool) (q : Bool) :
    liveObjects (objects.filter fun slot =>
        match slot with
        | none => q
        | some obj => p obj) = (liveObjects objects).filter p := by
  induction objects with
  | nil => rfl
  | cons slot rest ih =>
    cases slot with
    | none =>
      cases q
      · simpa [liveObjects] using ih
      · simpa [liveObjects] using ih
    | some obj =>
      cases hp : p obj
      · simpa [liveObjects, hp] using ih
      · simpa [liveObjects, hp] using ih

/-! ## Rewriting and the references of an object -/

mutual
theorem referencesOf_update (m : ReplacementMap) :
    ∀ obj : PdfObject, referencesOf (updateObjectReferencesRecursive obj m) =
      (referencesOf obj).map fun ref => (m.find ref).getD ref
  | .Reference ref => by
    cases h : m.find ref <;> simp [updateObjectReferencesRecursive, referencesOf, h]
  | .Array arr => by
    simp only [updateObjectReferencesRecursive, referencesOf]
    exact referencesOfArray_update m arr
  | .Dictionary dict stream => by
    simp only [updateObjectReferencesRecursive, referencesOf]
    exact referencesOfDictionary_update m dict
  | .Unknown => by simp [updateObjectReferencesRecursive, referencesOf]
  | .RawData _ => by simp [updateObjectReferencesRecursive, referencesOf]
  | .Null => by simp [updateObjectReferencesRecursive, referencesOf]
  | .Boolean _ => by simp [updateObjectReferencesRecursive, referencesOf]
  | .Number _ => by simp [updateObjectReferencesRecursive, referencesOf]
  | .Real _ => by simp [updateObjectReferencesRecursive, referencesOf]
  | .String _ => by simp [updateObjectReferencesRecursive, referencesOf]
  | .Name _ => by simp [updateObjectReferencesRecursive, referencesOf]
theorem referencesOfArray_update (m : ReplacementMap) :
    ∀ arr : List PdfObject, referencesOfArray (updateArray arr m) =
      (referencesOfArray arr).map fun ref => (m.find ref).getD ref
  | [] => by simp [updateArray, referencesOfArray]
  | child :: rest => by
    simp only [updateArray, referencesOfArray, List.map_append]
    rw [referencesOf_update m child, referencesOfArray_update m rest]
theorem referencesOfDictionary_update (m : ReplacementMap) :
    ∀ dict : List (String × PdfObject), referencesOfDictionary (updateDictionary dict m) =
      (referencesOfDictionary dict).map fun ref => (m.find ref).getD ref
  | [] => by simp [updateDictionary, referencesOfDictionary]
  | (key, value) :: rest => by
    simp only [updateDictionary, referencesOfDictionary, List.map_append]
    rw [referencesOf_update m value, referencesOfDictionary_update m rest]
end

mutual
theorem update_eq_self (m : ReplacementMap) :
    ∀ obj : PdfObject, (∀ ref ∈ referencesOf obj, (m.find ref).getD ref = ref) →
      updateObjectReferencesRecursive obj m = obj
  | .Reference ref, h => by
    have h1 : (m.find ref).getD ref = ref := h ref (by simp [referencesOf])
    cases hf : m.find ref with
    | none => simp [updateObjectReferencesRecursive, hf]
    | some second =>
      rw [hf] at h1
      simp only [Option.getD_some] at h1
      simp [updateObjectReferencesRecursive, hf, h1]
  | .Array arr, h => by
    simp only [updateObjectReferencesRecursive]
    rw [updateArray_eq_self m arr (by simpa [referencesOf] using h)]
  | .Dictionary dict stream, h => by
    simp only [updateObjectReferencesRecursive]
    rw [updateDictionary_eq_self m dict (by simpa [referencesOf] using h)]
  | .Unknown, _ => by simp [updateObjectReferencesRecursive]
  | .RawData _, _ => by simp [updateObjectReferencesRecursive]
  | .Null, _ => by simp [updateObjectReferencesRecursive]
  | .Boolean _, _ => by simp [updateObjectReferencesRecursive]
  | .Number _, _ => by simp [updateObjectReferencesRecursive]
  | .Real _, _ => by simp [updateObjectReferencesRecursive]
  | .String _, _ => by simp [updateObjectReferencesRecursive]
  | .Name _, _ => by simp [updateObjectReferencesRecursive]
theorem updateArray_eq_self (m : ReplacementMap) :
    ∀ arr : List PdfObject, (∀ ref ∈ referencesOfArray arr, (m.find ref).getD ref = ref) →
      updateArray arr m = arr
  | [], _ => by simp [updateArray]
  | child :: rest, h => by
    simp only [referencesOfArray, List.mem_append] at h
    simp only [updateArray]
    rw [update_eq_self m child (fun ref hr => h ref (Or.inl hr)),
      updateArray_eq_self m rest (fun ref hr => h ref (Or.inr hr))]
theorem updateDictionary_eq_self (m : ReplacementMap) :
    ∀ dict : List (String × PdfObject),
      (∀ ref ∈ referencesOfDictionary dict, (m.find ref).getD ref = ref) →
      updateDictionary dict m = dict
  | [], _ => by simp [updateDictionary]
  | (key, value) :: rest, h => by
    simp only [referencesOfDictionary, List.mem_append] at h
    simp only [updateDictionary]
    rw [update_eq_self m value (fun ref hr => h ref (Or.inl hr)),
      updateDictionary_eq_self m rest (fun ref hr => h ref (Or.inr hr))]
end

theorem update_empty (obj : PdfObject) : updateObjectReferencesRecursive obj [] = obj :=
  update_eq_self [] obj (fun _ _ => rfl)

/-- The object that the rewrite pass leaves under the reference of `obj`. -/
theorem liveObjects_updateObjectReferences (objects : PdfIndirectObjectList)
    (m : ReplacementMap) :
    liveObjects (updateObjectReferences objects m) =
      (liveObjects objects).map fun obj =>
        { obj with Object := updateObjectReferencesRecursive obj.Object m } := by
  unfold updateObjectReferences
  cases m with
  | nil =>
    simp only [List.isEmpty_nil, if_true, update_empty]
    simp
  | cons e rest =>
    simp only [List.isEmpty_cons, Bool.false_eq_true, if_false]
    induction objects with
    | nil => rfl
    | cons slot tail ih =>
      cases slot with
      | none => simpa [liveObjects] using ih
      | some obj => simpa [liveObjects] using ih

theorem length_updateObjectReferences (objects : PdfIndirectObjectList)
    (m : ReplacementMap) : (updateObjectReferences objects m).length = objects.length := by
  unfold updateObjectReferences
  split <;> simp

/-! ## Step 1: the content map -/

theorem ReplacementMap.find_assign (m : ReplacementMap) (key value ref : PdfReference) :
    (m.assign key value).find ref = if key = ref then some value else m.find ref := by
  induction m with
  | nil => simp [ReplacementMap.assign, ReplacementMap.find]
  | cons e rest ih =>
    obtain ⟨k, v⟩ := e
    by_cases hk : k = key
    · subst hk
      by_cases hr : k = ref <;> simp [ReplacementMap.assign, ReplacementMap.find, hr]
    · by_cases hr : k = ref
      · subst hr
        simp [ReplacementMap.assign, ReplacementMap.find, hk, Ne.symm hk]
      · simp [ReplacementMap.assign, ReplacementMap.find, hk, hr, ih]

theorem ContentMap.refs_pushBack (cm : ContentMap) (content : String) (ref : PdfReference)
    (f : String) :
    (cm.pushBack content ref).refs f =
      if content = f then cm.refs f ++ [ref] else cm.refs f := by
  induction cm with
  | nil =>
    by_cases h : content = f <;> simp [ContentMap.pushBack, ContentMap.refs, h]
  | cons e rest ih =>
    obtain ⟨k, refs⟩ := e
    by_cases hk : k = content
    · subst hk
      by_cases hf : k = f <;> simp [ContentMap.pushBack, ContentMap.refs, hf]
    · by_cases hf : k = f
      · subst hf
        simp [ContentMap.pushBack, ContentMap.refs, hk, Ne.symm hk]
      · simp [ContentMap.pushBack, ContentMap.refs, hk, hf, ih]

theorem ContentMap.keys_pushBack (cm : ContentMap) (content : String) (ref : PdfReference) :
    (cm.pushBack content ref).map Prod.fst =
      if content ∈ cm.map Prod.fst then cm.map Prod.fst else cm.map Prod.fst ++ [content] := by
  induction cm with
  | nil => simp [ContentMap.pushBack]
  | cons e rest ih =>
    obtain ⟨k, refs⟩ := e
    by_cases hk : k = content
    · subst hk
      simp [ContentMap.pushBack]
    · have hk2 : ¬ content = k := fun h => hk h.symm
      by_cases hm : content ∈ rest.map Prod.fst
      · simp only [ContentMap.pushBack, hk, if_false, List.map_cons, ih, hm, if_true,
          List.mem_cons, or_true]
      · simp only [ContentMap.pushBack, hk, if_false, List.map_cons, ih, hm, List.mem_cons,
          hk2, or_self, List.cons_append]

theorem ContentMap.keys_nodup_pushBack (cm : ContentMap) (content : String)
    (ref : PdfReference) (h : (cm.map Prod.fst).Nodup) :
    ((cm.pushBack content ref).map Prod.fst).Nodup := by
  rw [ContentMap.keys_pushBack]
  split
  · exact h
  · rename_i hm
    rw [List.nodup_append]
    refine ⟨h, List.nodup_singleton _, ?_⟩
    intro x hx hx2
    simp only [List.mem_singleton] at hx2
    subst hx2
    exact hm hx

theorem ContentMap.refs_of_mem (cm : ContentMap) (h : (cm.map Prod.fst).Nodup)
    (key : String) (refs : List PdfReference) (hm : (key, refs) ∈ cm) :
    cm.refs key = refs := by
  induction cm with
  | nil => simp at hm
  | cons e rest ih =>
    obtain ⟨k, rs⟩ := e
    simp only [List.map_cons, List.nodup_cons] at h
    simp only [List.mem_cons, Prod.mk.injEq] at hm
    rcases hm with ⟨hk, hr⟩ | hm
    · subst hk; subst hr
      simp [ContentMap.refs]
    · have hne : ¬ k = key := by
        intro hk
        subst hk
        exact h.1 (List.mem_map.mpr ⟨(k, refs), hm, rfl⟩)
      simp only [ContentMap.refs, hne, if_false]
      exact ih h.2 hm

theorem buildContentMap_eq (objects : PdfIndirectObjectList) (aggressive : Bool) :
    buildContentMap objects aggressive =
      (liveObjects objects).foldl
        (fun (cm : ContentMap) obj =>
          cm.pushBack (contentOf aggressive obj) obj.IndirectReference) [] := by
  unfold buildContentMap
  generalize ([] : ContentMap) = init
  induction objects generalizing init with
  | nil => rfl
  | cons slot rest ih =>
    cases slot with
    | none => simpa [liveObjects] using ih init
    | some obj => simpa [liveObjects, contentOf] using ih _

theorem refs_foldl_pushBack (aggressive : Bool) (live : List PdfIndirectObject)
    (init : ContentMap) (f : String) :
    (live.foldl (fun (cm : ContentMap) obj => cm.pushBack (contentOf aggressive obj) obj.IndirectReference)
        init).refs f =
      init.refs f ++ (live.filter fun obj => decide (contentOf aggressive obj = f)).map
        PdfIndirectObject.IndirectReference := by
  induction live generalizing init with
  | nil => simp
  | cons obj rest ih =>
    simp only [List.foldl_cons, ih, ContentMap.refs_pushBack]
    by_cases h : contentOf aggressive obj = f
    · simp [h, List.filter_cons]
    · simp [h, List.filter_cons]

theorem keys_nodup_foldl_pushBack (aggressive : Bool) (live : List PdfIndirectObject)
    (init : ContentMap) (h : (init.map Prod.fst).Nodup) :
    ((live.foldl (fun (cm : ContentMap) obj => cm.pushBack (contentOf aggressive obj) obj.IndirectReference)
        init).map Prod.fst).Nodup := by
  induction live generalizing init with
  | nil => simpa using h
  | cons obj rest ih =>
    simp only [List.foldl_cons]
    exact ih _ (ContentMap.keys_nodup_pushBack _ _ _ h)

/-- Every bucket of the content map lists, in enumeration order, the
references of the objects with the content that is its key. -/
theorem mem_buildContentMap (objects : PdfIndirectObjectList) (aggressive : Bool)
    (key : String) (refs : List PdfReference)
    (hm : (key, refs) ∈ buildContentMap objects aggressive) :
    refs = ((liveObjects objects).filter fun obj =>
        decide (contentOf aggressive obj = key)).map PdfIndirectObject.IndirectReference := by
  have hn : ((buildContentMap objects aggressive).map Prod.fst).Nodup := by
    rw [buildContentMap_eq]
    exact keys_nodup_foldl_pushBack _ _ _ (by simp)
  have h := ContentMap.refs_of_mem _ hn key refs hm
  rw [buildContentMap_eq, refs_foldl_pushBack] at h
  simpa [ContentMap.refs] using h.symm

/-! ## Step 2: the replacement map and the removal set -/

theorem mem_insertReference (objectsToRemove : List PdfReference) (ref r : PdfReference) :
    r ∈ insertReference objectsToRemove ref ↔ r = ref ∨ r ∈ objectsToRemove := by
  unfold insertReference
  split
  · rename_i h
    constructor
    · exact Or.inr
    · rintro (rfl | h2)
      · exact h
      · exact h2
  · simp [or_comm]

theorem replaceOthers_find (keepRef : PdfReference) (others : List PdfReference)
    (state : ReplacementMap × List PdfReference) (r : PdfReference) :
    (replaceOthers keepRef others state).1.find r =
      if r ∈ others then some keepRef else state.1.find r := by
  unfold replaceOthers
  induction others generalizing state with
  | nil => simp
  | cons x rest ih =>
    simp only [List.foldl_cons, ih, ReplacementMap.find_assign, List.mem_cons]
    by_cases h1 : r ∈ rest
    · simp [h1]
    · by_cases h2 : x = r
      · simp [h1, h2]
      · have h3 : ¬ r = x := fun h => h2 h.symm
        simp [h1, h2, h3]

theorem replaceOthers_mem (keepRef : PdfReference) (others : List PdfReference)
    (state : ReplacementMap × List PdfReference) (r : PdfReference) :
    r ∈ (replaceOthers keepRef others state).2 ↔ r ∈ others ∨ r ∈ state.2 := by
  unfold replaceOthers
  induction others generalizing state with
  | nil => simp
  | cons x rest ih =>
    simp only [List.foldl_cons, ih, mem_insertReference, List.mem_cons]
    tauto

theorem identifyStep_find (state : ReplacementMap × List PdfReference)
    (pair : String × List PdfReference) (r : PdfReference) :
    (match pair.2 with
      | keepRef :: other :: others => replaceOthers keepRef (other :: others) state
      | _ => state).1.find r =
      if r ∈ pair.2.tail then pair.2.head? else state.1.find r := by
  obtain ⟨key, refs⟩ := pair
  match refs with
  | [] => simp
  | [x] => simp
  | keepRef :: other :: others =>
    simp only [replaceOthers_find, List.tail_cons, List.head?_cons]

theorem identifyStep_mem (state : ReplacementMap × List PdfReference)
    (pair : String × List PdfReference) (r : PdfReference) :
    r ∈ (match pair.2 with
      | keepRef :: other :: others => replaceOthers keepRef (other :: others) state
      | _ => state).2 ↔ r ∈ pair.2.tail ∨ r ∈ state.2 := by
  obtain ⟨key, refs⟩ := pair
  match refs with
  | [] => simp
  | [x] => simp
  | keepRef :: other :: others =>
    simp only [replaceOthers_mem, List.tail_cons]

theorem identifyFold_mem (cm : ContentMap) (state : ReplacementMap × List PdfReference)
    (r : PdfReference) :
    r ∈ (cm.foldl
        (fun state pair =>
          match pair.2 with
          | keepRef :: other :: others => replaceOthers keepRef (other :: others) state
          | _ => state) state).2 ↔ r ∈ state.2 ∨ ∃ pair ∈ cm, r ∈ pair.2.tail := by
  induction cm generalizing state with
  | nil => simp
  | cons e rest ih =>
    rw [List.foldl_cons, ih, identifyStep_mem]
    simp only [List.mem_cons, exists_eq_or_imp]
    tauto

theorem identifyFold_find_none (cm : ContentMap) (state : ReplacementMap × List PdfReference)
    (r : PdfReference) :
    (cm.foldl
        (fun state pair =>
          match pair.2 with
          | keepRef :: other :: others => replaceOthers keepRef (other :: others) state
          | _ => state) state).1.find r = none ↔
      state.1.find r = none ∧ ∀ pair ∈ cm, r ∉ pair.2.tail := by
  induction cm generalizing state with
  | nil => simp
  | cons e rest ih =>
    rw [List.foldl_cons, ih, identifyStep_find]
    simp only [List.mem_cons, forall_eq_or_imp]
    by_cases h : r ∈ e.2.tail
    · have hne : e.2.head? ≠ none := by
        cases h2 : e.2 with
        | nil => rw [h2] at h; simp at h
        | cons a l => simp
      simp [h, hne]
    · simp [h]

theorem identifyFold_find_some (cm : ContentMap) (state : ReplacementMap × List PdfReference)
    (r c : PdfReference)
    (h : (cm.foldl
        (fun state pair =>
          match pair.2 with
          | keepRef :: other :: others => replaceOthers keepRef (other :: others) state
          | _ => state) state).1.find r = some c) :
    state.1.find r = some c ∨ ∃ pair ∈ cm, r ∈ pair.2.tail ∧ pair.2.head? = some c := by
  induction cm generalizing state with
  | nil => left; simpa using h
  | cons e rest ih =>
    rw [List.foldl_cons] at h
    rcases ih _ h with h1 | ⟨pair, hp, h1⟩
    · rw [identifyStep_find] at h1
      by_cases h2 : r ∈ e.2.tail
      · right
        simp only [h2, if_true] at h1
        exact ⟨e, List.mem_cons_self _ _, h2, h1⟩
      · left
        simpa [h2] using h1
    · right
      exact ⟨pair, List.mem_cons_of_mem _ hp, h1⟩

/-! ## Duplicates in terms of the enumeration order -/

theorem mem_tail_filter_map {α β : Type} (p : α → Bool) (g : α → β) (l : List α) (x : β) :
    x ∈ ((l.filter p).map g).tail ↔
      ∃ l1 o l2, l = l1 ++ o :: l2 ∧ p o = true ∧ g o = x ∧ ∃ o' ∈ l1, p o' = true := by
  induction l with
  | nil => simp
  | cons a rest ih =>
    by_cases hp : p a = true
    · simp only [List.filter_cons, hp, if_true, List.map_cons, List.tail_cons, List.mem_map,
        List.mem_filter]
      constructor
      · rintro ⟨o, ⟨ho, hpo⟩, hgo⟩
        obtain ⟨s, t, rfl⟩ := List.append_of_mem ho
        exact ⟨a :: s, o, t, rfl, hpo, hgo, a, List.mem_cons_self _ _, hp⟩
      · rintro ⟨l1, o, l2, hl, hpo, hgo, o', ho', _⟩
        cases l1 with
        | nil => simp at ho'
        | cons b l1' =>
          simp only [List.cons_append, List.cons.injEq] at hl
          refine ⟨o, ⟨?_, hpo⟩, hgo⟩
          rw [hl.2]
          simp
    · simp only [List.filter_cons, hp, Bool.false_eq_true, if_false]
      rw [ih]
      constructor
      · rintro ⟨l1, o, l2, hl, hpo, hgo, o', ho', hpo'⟩
        exact ⟨a :: l1, o, l2, by simp [hl], hpo, hgo, o', List.mem_cons_of_mem _ ho', hpo'⟩
      · rintro ⟨l1, o, l2, hl, hpo, hgo, o', ho', hpo'⟩
        cases l1 with
        | nil => simp at ho'
        | cons b l1' =>
          simp only [List.cons_append, List.cons.injEq] at hl
          obtain ⟨rfl, hl2⟩ := hl
          simp only [List.mem_cons] at ho'
          rcases ho' with rfl | ho'
          · exact absurd hpo' hp
          · exact ⟨l1', o, l2, hl2, hpo, hgo, o', ho', hpo'⟩

theorem ContentMap.mem_of_refs_ne_nil (cm : ContentMap) (key : String)
    (h : cm.refs key ≠ []) : (key, cm.refs key) ∈ cm := by
  induction cm with
  | nil => simp [ContentMap.refs] at h
  | cons e rest ih =>
    obtain ⟨k, rs⟩ := e
    by_cases hk : k = key
    · subst hk
      simp [ContentMap.refs]
    · simp only [ContentMap.refs, hk, if_false] at h ⊢
      exact List.mem_cons_of_mem _ (ih h)

theorem mem_buildContentMap_of_mem (objects : PdfIndirectObjectList) (aggressive : Bool)
    (obj : PdfIndirectObject) (h : obj ∈ liveObjects objects) :
    (contentOf aggressive obj,
      ((liveObjects objects).filter fun other =>
        decide (contentOf aggressive other = contentOf aggressive obj)).map
          PdfIndirectObject.IndirectReference) ∈ buildContentMap objects aggressive := by
  have hr : (buildContentMap objects aggressive).refs (contentOf aggressive obj) =
      ((liveObjects objects).filter fun other =>
        decide (contentOf aggressive other = contentOf aggressive obj)).map
          PdfIndirectObject.IndirectReference := by
    rw [buildContentMap_eq, refs_foldl_pushBack]
    simp [ContentMap.refs]
  have hne : (buildContentMap objects aggressive).refs (contentOf aggressive obj) ≠ [] := by
    rw [hr]
    intro h0
    have : obj.IndirectReference ∈ ((liveObjects objects).filter fun other =>
        decide (contentOf aggressive other = contentOf aggressive obj)).map
          PdfIndirectObject.IndirectReference :=
      List.mem_map.mpr ⟨obj, List.mem_filter.mpr ⟨h, by simp⟩, rfl⟩
    rw [h0] at this
    simp at this
  have := ContentMap.mem_of_refs_ne_nil _ _ hne
  rwa [hr] at this

/-- A reference is scheduled for removal exactly when it is the reference of
an object that comes after an object with the same content. -/
theorem mem_objectsToRemove (objects : PdfIndirectObjectList) (aggressive : Bool)
    (r : PdfReference) :
    r ∈ (identifyDuplicates (buildContentMap objects aggressive)).2 ↔
      ∃ l1 o l2, liveObjects objects = l1 ++ o :: l2 ∧ o.IndirectReference = r ∧
        ∃ o' ∈ l1, contentOf aggressive o' = contentOf aggressive o := by
  unfold identifyDuplicates
  rw [identifyFold_mem]
  simp only [List.not_mem_nil, false_or]
  constructor
  · rintro ⟨⟨key, refs⟩, hp, hr⟩
    have hrefs := mem_buildContentMap objects aggressive key refs hp
    simp only at hr
    rw [hrefs, mem_tail_filter_map] at hr
    obtain ⟨l1, o, l2, hl, hpo, hgo, o', ho', hpo'⟩ := hr
    simp only [decide_eq_true_eq] at hpo hpo'
    exact ⟨l1, o, l2, hl, hgo, o', ho', by rw [hpo, hpo']⟩
  · rintro ⟨l1, o, l2, hl, hgo, o', ho', hc⟩
    have ho : o ∈ liveObjects objects := by rw [hl]; simp
    refine ⟨_, mem_buildContentMap_of_mem objects aggressive o ho, ?_⟩
    simp only
    rw [mem_tail_filter_map]
    exact ⟨l1, o, l2, hl, by simp, hgo, o', ho', by simpa using hc⟩

/-! ## The table before garbage collection -/

theorem removeDuplicates_eq (objects : PdfIndirectObjectList) (aggressive : Bool) :
    removeDuplicates objects aggressive =
      (updateObjectReferences objects
          (identifyDuplicates (buildContentMap objects aggressive)).1).filter fun slot =>
        match slot with
        | none => true
        | some obj => decide (obj.IndirectReference ∉
            (identifyDuplicates (buildContentMap objects aggressive)).2) := by
  unfold removeDuplicates
  simp only [foldl_RemoveObject]

theorem liveObjects_removeDuplicates (objects : PdfIndirectObjectList) (aggressive : Bool) :
    liveObjects (removeDuplicates objects aggressive) =
      ((liveObjects objects).map fun obj =>
        (⟨obj.IndirectReference, updateObjectReferencesRecursive obj.Object
            (identifyDuplicates (buildContentMap objects aggressive)).1⟩ :
          PdfIndirectObject)).filter fun obj =>
        decide (obj.IndirectReference ∉
          (identifyDuplicates (buildContentMap objects aggressive)).2) := by
  rw [removeDuplicates_eq, liveObjects_filter_slots, liveObjects_updateObjectReferences]

theorem mem_presentReferences_removeDuplicates (objects : PdfIndirectObjectList)
    (aggressive : Bool) (r : PdfReference) :
    r ∈ presentReferences (removeDuplicates objects aggressive) ↔
      r ∈ presentReferences objects ∧
        r ∉ (identifyDuplicates (buildContentMap objects aggressive)).2 := by
  simp only [presentReferences, liveObjects_removeDuplicates, List.mem_map, List.mem_filter,
    decide_eq_true_eq]
  constructor
  · rintro ⟨o', ⟨⟨o, ho, rfl⟩, hn⟩, rfl⟩
    exact ⟨⟨o, ho, rfl⟩, hn⟩
  · rintro ⟨⟨o, ho, rfl⟩, hn⟩
    exact ⟨_, ⟨⟨o, ho, rfl⟩, hn⟩, rfl⟩

theorem objectsToRemove_subset_present (objects : PdfIndirectObjectList) (aggressive : Bool)
    (r : PdfReference)
    (h : r ∈ (identifyDuplicates (buildContentMap objects aggressive)).2) :
    r ∈ presentReferences objects := by
  rw [mem_objectsToRemove] at h
  obtain ⟨l1, o, l2, hl, hr, _⟩ := h
  rw [mem_presentReferences]
  exact ⟨o, by rw [hl]; simp, hr⟩

theorem decomposition_unique {α β : Type} (g : α → β) (l1 l1' l2 l2' : List α) (o o2 : α)
    (hn : ((l1 ++ o :: l2).map g).Nodup) (h : l1 ++ o :: l2 = l1' ++ o2 :: l2')
    (hg : g o = g o2) : l1 = l1' ∧ o = o2 ∧ l2 = l2' := by
  induction l1 generalizing l1' with
  | nil =>
    cases l1' with
    | nil => simpa using h
    | cons b t =>
      exfalso
      simp only [List.nil_append, List.cons_append, List.cons.injEq] at h
      obtain ⟨rfl, h2⟩ := h
      simp only [List.nil_append, List.map_cons, List.nodup_cons, List.mem_map] at hn
      exact hn.1 ⟨o2, by rw [h2]; simp, hg.symm⟩
  | cons a t ih =>
    cases l1' with
    | nil =>
      exfalso
      simp only [List.nil_append, List.cons_append, List.cons.injEq] at h
      obtain ⟨rfl, h2⟩ := h
      simp only [List.cons_append, List.map_cons, List.nodup_cons, List.mem_map] at hn
      exact hn.1 ⟨o, by simp, hg⟩
    | cons b t' =>
      simp only [List.cons_append, List.cons.injEq] at h
      obtain ⟨rfl, h2⟩ := h
      simp only [List.cons_append, List.map_cons, List.nodup_cons] at hn
      obtain ⟨h3, h4, h5⟩ := ih t' hn.2 h2
      exact ⟨by rw [h3], h4, h5⟩

/-- With distinct references, the object at a position is scheduled for
removal exactly when an earlier object has its content. -/
theorem mem_objectsToRemove_at (objects : PdfIndirectObjectList) (aggressive : Bool)
    (hd : DistinctReferences objects) (l1 l2 : List PdfIndirectObject) (o : PdfIndirectObject)
    (hl : liveObjects objects = l1 ++ o :: l2) :
    o.IndirectReference ∈ (identifyDuplicates (buildContentMap objects aggressive)).2 ↔
      ∃ o' ∈ l1, contentOf aggressive o' = contentOf aggressive o := by
  rw [mem_objectsToRemove]
  constructor
  · rintro ⟨l1', o2, l2', hl', hr, o', ho', hc⟩
    have hn : ((l1 ++ o :: l2).map PdfIndirectObject.IndirectReference).Nodup := by
      rw [← hl]; exact hd
    obtain ⟨h1, h2, _⟩ := decomposition_unique PdfIndirectObject.IndirectReference
      l1 l1' l2 l2' o o2 hn (by rw [← hl, hl']) hr.symm
    subst h1; subst h2
    exact ⟨o', ho', hc⟩
  · rintro ⟨o', ho', hc⟩
    exact ⟨l1, o, l2, hl, rfl, o', ho', hc⟩

/-! ## The replacement map sends a reference to its canonical reference -/

theorem head?_filter_map {α β : Type} (p : α → Bool) (g : α → β) (l : List α) :
    ((l.filter p).map g).head? = (l.find? p).map g := by
  induction l with
  | nil => rfl
  | cons a rest ih =>
    by_cases hp : p a = true
    · simp [List.filter_cons, hp]
    · simp [List.filter_cons, hp, ih]

theorem eq_of_reference_eq (objects : PdfIndirectObjectList) (hd : DistinctReferences objects)
    (o o2 : PdfIndirectObject) (ho : o ∈ liveObjects objects) (ho2 : o2 ∈ liveObjects objects)
    (h : o.IndirectReference = o2.IndirectReference) : o = o2 :=
  List.inj_on_of_nodup_map hd ho ho2 h

theorem GetObject_of_mem (objects : PdfIndirectObjectList) (hd : DistinctReferences objects)
    (o : PdfIndirectObject) (ho : o ∈ liveObjects objects) :
    GetObject objects o.IndirectReference = some o := by
  unfold GetObject
  cases h : (liveObjects objects).find? fun obj =>
      decide (obj.IndirectReference = o.IndirectReference) with
  | none =>
    rw [List.find?_eq_none] at h
    exact absurd (by simp) (h o ho)
  | some o2 =>
    have h1 := List.mem_of_find?_eq_some h
    have h2 := List.find?_some h
    simp only [decide_eq_true_eq] at h2
    rw [eq_of_reference_eq objects hd o2 o h1 ho h2]

theorem GetObject_eq_none (objects : PdfIndirectObjectList) (r : PdfReference) :
    GetObject objects r = none ↔ r ∉ presentReferences objects := by
  unfold GetObject
  rw [List.find?_eq_none, mem_presentReferences]
  simp

theorem GetObject_some (objects : PdfIndirectObjectList) (r : PdfReference)
    (o : PdfIndirectObject) (h : GetObject objects r = some o) :
    o ∈ liveObjects objects ∧ o.IndirectReference = r := by
  unfold GetObject at h
  exact ⟨List.mem_of_find?_eq_some h, by simpa using List.find?_some h⟩

/-- Whatever the order in which the buckets of the content map are visited,
the replacement map sends a reference to its canonical reference. -/
theorem find_eq_canonicalReference_of_perm (objects : PdfIndirectObjectList)
    (aggressive : Bool) (hd : DistinctReferences objects) (cm : ContentMap)
    (hperm : cm.Perm (buildContentMap objects aggressive)) (r : PdfReference) :
    ((identifyDuplicates cm).1.find r).getD r = canonicalReference objects aggressive r := by
  unfold canonicalReference
  cases hG : GetObject objects r with
  | none =>
    rw [GetObject_eq_none] at hG
    have hm : (identifyDuplicates cm).1.find r = none := by
      unfold identifyDuplicates
      rw [identifyFold_find_none]
      refine ⟨rfl, ?_⟩
      rintro ⟨key, refs⟩ hp hr
      have hrefs := mem_buildContentMap objects aggressive key refs (hperm.mem_iff.mp hp)
      have h1 : r ∈ refs := List.mem_of_mem_tail hr
      rw [hrefs] at h1
      apply hG
      rw [mem_presentReferences]
      obtain ⟨o, ho, hor⟩ := List.mem_map.mp h1
      exact ⟨o, (List.mem_filter.mp ho).1, hor⟩
    simp [hm]
  | some o =>
    obtain ⟨ho, hor⟩ := GetObject_some objects r o hG
    dsimp only
    cases hF : (liveObjects objects).find? fun other =>
        decide (contentOf aggressive other = contentOf aggressive o) with
    | none =>
      rw [List.find?_eq_none] at hF
      exact absurd (by simp) (hF o ho)
    | some first =>
      simp only
      have hb := hperm.mem_iff.mpr (mem_buildContentMap_of_mem objects aggressive o ho)
      have hhead : (((liveObjects objects).filter fun other =>
          decide (contentOf aggressive other = contentOf aggressive o)).map
            PdfIndirectObject.IndirectReference).head? = some first.IndirectReference := by
        rw [head?_filter_map, hF]; rfl
      have hmem : r ∈ ((liveObjects objects).filter fun other =>
          decide (contentOf aggressive other = contentOf aggressive o)).map
            PdfIndirectObject.IndirectReference :=
        List.mem_map.mpr ⟨o, List.mem_filter.mpr ⟨ho, by simp⟩, hor⟩
      cases hm : (identifyDuplicates cm).1.find r with
      | none =>
        simp only [Option.getD_none]
        unfold identifyDuplicates at hm
        rw [identifyFold_find_none] at hm
        have hnt := hm.2 _ hb
        simp only at hnt
        obtain ⟨tl, htl⟩ := List.head?_eq_some_iff.mp hhead
        rw [htl] at hmem hnt
        simp only [List.tail_cons] at hnt
        simp only [List.mem_cons] at hmem
        rcases hmem with h | h
        · exact h
        · exact absurd h hnt
      | some c =>
        simp only [Option.getD_some]
        unfold identifyDuplicates at hm
        rcases identifyFold_find_some _ _ r c hm with h | ⟨⟨key, refs⟩, hp, hr, hh⟩
        · simp [ReplacementMap.find] at h
        · have hrefs := mem_buildContentMap objects aggressive key refs (hperm.mem_iff.mp hp)
          simp only at hr hh
          have h1 : r ∈ refs := List.mem_of_mem_tail hr
          rw [hrefs] at h1
          obtain ⟨o2, ho2, ho2r⟩ := List.mem_map.mp h1
          obtain ⟨ho2m, ho2c⟩ := List.mem_filter.mp ho2
          simp only [decide_eq_true_eq] at ho2c
          have heq : o2 = o :=
            eq_of_reference_eq objects hd o2 o ho2m ho (by rw [ho2r, hor])
          subst heq
          subst ho2c
          rw [hrefs, hhead] at hh
          exact (Option.some.inj hh).symm

theorem find_eq_canonicalReference (objects : PdfIndirectObjectList) (aggressive : Bool)
    (hd : DistinctReferences objects) (r : PdfReference) :
    ((identifyDuplicates (buildContentMap objects aggressive)).1.find r).getD r =
      canonicalReference objects aggressive r :=
  find_eq_canonicalReference_of_perm objects aggressive hd _ (List.Perm.refl _) r

/-- Whatever the order in which the buckets of the content map are visited,
the removal set has the same members. -/
theorem mem_objectsToRemove_of_perm (cm cm' : ContentMap) (hperm : cm'.Perm cm)
    (r : PdfReference) :
    r ∈ (identifyDuplicates cm').2 ↔ r ∈ (identifyDuplicates cm).2 := by
  unfold identifyDuplicates
  rw [identifyFold_mem, identifyFold_mem]
  constructor
  · rintro (h | ⟨pair, hp, hr⟩)
    · exact Or.inl h
    · exact Or.inr ⟨pair, hperm.mem_iff.mp hp, hr⟩
  · rintro (h | ⟨pair, hp, hr⟩)
    · exact Or.inl h
    · exact Or.inr ⟨pair, hperm.mem_iff.mpr hp, hr⟩

theorem canonicalReference_of_first (objects : PdfIndirectObjectList) (aggressive : Bool)
    (hd : DistinctReferences objects) (l1 l2 : List PdfIndirectObject) (o g : PdfIndirectObject)
    (hl : liveObjects objects = l1 ++ o :: l2)
    (hfirst : ∀ o' ∈ l1, contentOf aggressive o' ≠ contentOf aggressive o)
    (hg : g ∈ liveObjects objects) (hc : contentOf aggressive g = contentOf aggressive o) :
    canonicalReference objects aggressive g.IndirectReference = o.IndirectReference := by
  unfold canonicalReference
  rw [GetObject_of_mem objects hd g hg]
  dsimp only
  have hF : ((liveObjects objects).find? fun other =>
      decide (contentOf aggressive other = contentOf aggressive g)) = some o := by
    rw [List.find?_eq_some]
    refine ⟨by simpa using hc.symm, l1, l2, hl, ?_⟩
    intro a ha
    simpa [hc] using hfirst a ha
  rw [hF]

theorem canonicalReference_present (objects : PdfIndirectObjectList) (aggressive : Bool)
    (hd : DistinctReferences objects) (r : PdfReference) (hr : r ∈ presentReferences objects) :
    canonicalReference objects aggressive r ∈ presentReferences objects ∧
      canonicalReference objects aggressive r ∉
        (identifyDuplicates (buildContentMap objects aggressive)).2 := by
  unfold canonicalReference
  cases hG : GetObject objects r with
  | none =>
    rw [GetObject_eq_none] at hG
    exact absurd hr hG
  | some o =>
    obtain ⟨ho, _⟩ := GetObject_some objects r o hG
    dsimp only
    cases hF : (liveObjects objects).find? fun other =>
        decide (contentOf aggressive other = contentOf aggressive o) with
    | none =>
      rw [List.find?_eq_none] at hF
      exact absurd (by simp) (hF o ho)
    | some first =>
      dsimp only
      rw [List.find?_eq_some] at hF
      obtain ⟨hp, l1, l2, hl, hfirst⟩ := hF
      simp only [decide_eq_true_eq] at hp
      refine ⟨mem_presentReferences.mpr ⟨first, by rw [hl]; simp, rfl⟩, ?_⟩
      rw [mem_objectsToRemove_at objects aggressive hd l1 l2 first hl]
      rintro ⟨o', ho', hc⟩
      have := hfirst o' ho'
      simp only [Bool.not_eq_true', decide_eq_false_iff_not] at this
      exact this (by rw [hc, hp])

/-! ## Garbage collection -/

theorem liveObjects_CollectGarbage (objects : PdfIndirectObjectList) (trailer : PdfObject) :
    liveObjects (CollectGarbage objects trailer) =
      (liveObjects objects).filter fun obj =>
        decide (obj.IndirectReference ∈ reachableReferences objects trailer) := by
  unfold CollectGarbage
  exact liveObjects_filter_slots objects _ false

theorem length_CollectGarbage_le (objects : PdfIndirectObjectList) (trailer : PdfObject) :
    (CollectGarbage objects trailer).length ≤ objects.length := by
  unfold CollectGarbage
  exact List.length_filter_le _ _

theorem mem_markStep (objects : PdfIndirectObjectList) (marked : List PdfReference)
    (r : PdfReference) :
    r ∈ markStep objects marked ↔
      r ∈ marked ∨ (r ∈ presentReferences objects ∧
        ∃ obj ∈ liveObjects objects, obj.IndirectReference ∈ marked ∧
          r ∈ referencesOf obj.Object) := by
  unfold markStep
  simp only [List.mem_append, List.mem_dedup, List.mem_filter, List.mem_flatMap,
    decide_eq_true_eq]
  constructor
  · rintro (h | ⟨⟨obj, ⟨ho, hm⟩, hr⟩, hp, _⟩)
    · exact Or.inl h
    · exact Or.inr ⟨hp, obj, ho, hm, hr⟩
  · rintro (h | ⟨hp, obj, ho, hm, hr⟩)
    · exact Or.inl h
    · by_cases h : r ∈ marked
      · exact Or.inl h
      · exact Or.inr ⟨⟨obj, ⟨ho, hm⟩, hr⟩, hp, h⟩

theorem nodup_markStep (objects : PdfIndirectObjectList) (marked : List PdfReference)
    (h : marked.Nodup) : (markStep objects marked).Nodup := by
  unfold markStep
  rw [List.nodup_append]
  refine ⟨h, List.nodup_dedup _, ?_⟩
  intro x hx hx2
  simp only [List.mem_dedup, List.mem_filter, decide_eq_true_eq] at hx2
  exact hx2.2.2 hx

theorem markStep_subset_present (objects : PdfIndirectObjectList)
    (marked : List PdfReference) (h : marked ⊆ presentReferences objects) :
    markStep objects marked ⊆ presentReferences objects := by
  intro r hr
  rw [mem_markStep] at hr
  rcases hr with hr | ⟨hp, _⟩
  · exact h hr
  · exact hp

theorem markStep_eq_or_longer (objects : PdfIndirectObjectList) (marked : List PdfReference) :
    markStep objects marked = marked ∨ marked.length < (markStep objects marked).length := by
  unfold markStep
  generalize (((((liveObjects objects).filter fun obj =>
    decide (obj.IndirectReference ∈ marked)).flatMap fun obj => referencesOf obj.Object).filter
      fun ref => decide (ref ∈ presentReferences objects ∧ ref ∉ marked)).dedup) = extra
  cases extra with
  | nil => left; simp
  | cons a t => right; simp

theorem closed_of_markStep_eq (objects : PdfIndirectObjectList) (marked : List PdfReference)
    (h : markStep objects marked = marked) : ReferenceClosed objects marked := by
  intro obj ho hm r hr hp
  rw [← h, mem_markStep]
  exact Or.inr ⟨hp, obj, ho, hm, hr⟩

theorem markRounds_of_fixed (objects : PdfIndirectObjectList) (marked : List PdfReference)
    (h : markStep objects marked = marked) (fuel : Nat) :
    markRounds objects fuel marked = marked := by
  induction fuel with
  | zero => rfl
  | succ n ih => rw [markRounds, h, ih]

theorem closed_markRounds (objects : PdfIndirectObjectList) (fuel : Nat)
    (marked : List PdfReference) (hn : marked.Nodup)
    (hs : marked ⊆ presentReferences objects)
    (hf : (presentReferences objects).length ≤ marked.length + fuel) :
    ReferenceClosed objects (markRounds objects fuel marked) := by
  induction fuel generalizing marked with
  | zero =>
    rcases markStep_eq_or_longer objects marked with h | h
    · exact closed_of_markStep_eq objects marked h
    · exfalso
      have h1 := ((nodup_markStep objects marked hn).subperm
        (markStep_subset_present objects marked hs)).length_le
      simp only [Nat.add_zero] at hf
      omega
  | succ n ih =>
    rcases markStep_eq_or_longer objects marked with h | h
    · rw [markRounds_of_fixed objects marked h]
      exact closed_of_markStep_eq objects marked h
    · rw [markRounds]
      exact ih _ (nodup_markStep objects marked hn) (markStep_subset_present objects marked hs)
        (by omega)

theorem markRounds_subset_present (objects : PdfIndirectObjectList) (fuel : Nat)
    (marked : List PdfReference) (hs : marked ⊆ presentReferences objects) :
    markRounds objects fuel marked ⊆ presentReferences objects := by
  induction fuel generalizing marked with
  | zero => exact hs
  | succ n ih => exact ih _ (markStep_subset_present objects marked hs)

/-- The set of reachable references is closed under the references of the
objects it reaches. -/
theorem closed_reachableReferences (objects : PdfIndirectObjectList) (trailer : PdfObject) :
    ReferenceClosed objects (reachableReferences objects trailer) := by
  unfold reachableReferences
  apply closed_markRounds
  · exact List.nodup_dedup _
  · intro r hr
    simp only [List.mem_dedup, List.mem_filter, decide_eq_true_eq] at hr
    exact hr.2
  · have : (presentReferences objects).length ≤ objects.length := by
      unfold presentReferences
      rw [List.length_map]
      exact length_liveObjects_le objects
    omega

/-! ## The surviving objects are the first of each content -/

theorem filter_eq_firstOfEachContent (objects : PdfIndirectObjectList) (aggressive : Bool)
    (hd : DistinctReferences objects) (suf pre : List PdfIndirectObject) (seen : List String)
    (hl : liveObjects objects = pre ++ suf)
    (hs : ∀ c, c ∈ seen ↔ c ∈ pre.map (contentOf aggressive)) :
    (suf.filter fun obj => decide (obj.IndirectReference ∉
        (identifyDuplicates (buildContentMap objects aggressive)).2)) =
      firstOfEachContent aggressive seen suf := by
  induction suf generalizing pre seen with
  | nil => rfl
  | cons o rest ih =>
    have hmem := mem_objectsToRemove_at objects aggressive hd pre rest o hl
    have hl2 : liveObjects objects = (pre ++ [o]) ++ rest := by simp [hl]
    by_cases hc : contentOf aggressive o ∈ seen
    · have hin : o.IndirectReference ∈
          (identifyDuplicates (buildContentMap objects aggressive)).2 := by
        rw [hmem]
        obtain ⟨o', ho', hc'⟩ := List.mem_map.mp ((hs _).mp hc)
        exact ⟨o', ho', hc'⟩
      simp only [List.filter_cons, hin, not_true_eq_false, decide_False, Bool.false_eq_true,
        if_false, firstOfEachContent, hc, if_true]
      apply ih (pre ++ [o]) seen hl2
      intro c
      rw [hs c]
      simp only [List.map_append, List.map_cons, List.map_nil, List.mem_append,
        List.mem_singleton]
      constructor
      · exact Or.inl
      · rintro (h | h)
        · exact h
        · rw [h]; exact (hs _).mp hc
    · have hnin : o.IndirectReference ∉
          (identifyDuplicates (buildContentMap objects aggressive)).2 := by
        rw [hmem]
        rintro ⟨o', ho', hc'⟩
        exact hc ((hs _).mpr (List.mem_map.mpr ⟨o', ho', hc'⟩))
      simp only [List.filter_cons, hnin, not_false_eq_true, decide_True, if_true,
        firstOfEachContent, hc, if_false]
      congr 1
      apply ih (pre ++ [o]) (contentOf aggressive o :: seen) hl2
      intro c
      simp only [List.mem_cons, hs c, List.map_append, List.map_cons, List.map_nil,
        List.mem_append, List.mem_singleton]
      tauto

theorem length_firstOfEachContent (aggressive : Bool) (l : List PdfIndirectObject)
    (seen : List String) :
    (firstOfEachContent aggressive seen l).length =
      ((l.map (contentOf aggressive)).toFinset \ seen.toFinset).card := by
  induction l generalizing seen with
  | nil => simp [firstOfEachContent]
  | cons o rest ih =>
    by_cases hc : contentOf aggressive o ∈ seen
    · simp only [firstOfEachContent, hc, if_true, ih, List.map_cons, List.toFinset_cons]
      congr 1
      ext c
      simp only [Finset.mem_sdiff, List.mem_toFinset, Finset.mem_insert]
      constructor
      · rintro ⟨h1, h2⟩
        exact ⟨Or.inr h1, h2⟩
      · rintro ⟨h1 | h1, h2⟩
        · rw [h1] at h2; exact absurd hc h2
        · exact ⟨h1, h2⟩
    · simp only [firstOfEachContent, hc, if_false, List.length_cons, ih, List.map_cons,
        List.toFinset_cons]
      have hsplit : insert (contentOf aggressive o) (rest.map (contentOf aggressive)).toFinset \
          seen.toFinset =
          insert (contentOf aggressive o) ((rest.map (contentOf aggressive)).toFinset \
            insert (contentOf aggressive o) seen.toFinset) := by
        ext c
        simp only [Finset.mem_sdiff, List.mem_toFinset, Finset.mem_insert]
        constructor
        · rintro ⟨h1 | h1, h2⟩
          · exact Or.inl h1
          · by_cases h3 : c = contentOf aggressive o
            · exact Or.inl h3
            · exact Or.inr ⟨h1, by tauto⟩
        · rintro (h1 | ⟨h1, h2⟩)
          · subst h1
            exact ⟨Or.inl rfl, hc⟩
          · exact ⟨Or.inr h1, by tauto⟩
      rw [hsplit, Finset.card_insert_of_not_mem]
      simp

theorem contents_firstOfEachContent (aggressive : Bool) (l : List PdfIndirectObject)
    (seen : List String) :
    ((firstOfEachContent aggressive seen l).map (contentOf aggressive)).Nodup ∧
      ∀ c ∈ (firstOfEachContent aggressive seen l).map (contentOf aggressive), c ∉ seen := by
  induction l generalizing seen with
  | nil => simp [firstOfEachContent]
  | cons o rest ih =>
    by_cases hc : contentOf aggressive o ∈ seen
    · simp only [firstOfEachContent, hc, if_true]
      exact ih seen
    · simp only [firstOfEachContent, hc, if_false, List.map_cons, List.nodup_cons,
        List.mem_cons, forall_eq_or_imp]
      obtain ⟨h1, h2⟩ := ih (contentOf aggressive o :: seen)
      refine ⟨⟨?_, h1⟩, not_false, ?_⟩
      · intro hm
        exact h2 _ hm (List.mem_cons_self _ _)
      · intro c hm hs
        exact h2 c hm (List.mem_cons_of_mem _ hs)

/-- Before garbage collection the table holds, rewritten, the first object of
each content. -/
theorem liveObjects_removeDuplicates_eq_first (objects : PdfIndirectObjectList)
    (aggressive : Bool) (hd : DistinctReferences objects) :
    liveObjects (removeDuplicates objects aggressive) =
      (firstOfEachContent aggressive [] (liveObjects objects)).map fun obj =>
        (⟨obj.IndirectReference, updateObjectReferencesRecursive obj.Object
            (identifyDuplicates (buildContentMap objects aggressive)).1⟩ :
          PdfIndirectObject) := by
  rw [liveObjects_removeDuplicates, List.filter_map]
  congr 1
  exact filter_eq_firstOfEachContent objects aggressive hd (liveObjects objects) [] []
    (by simp) (by simp)

/-! ## The duplicates that the operation removes -/

/-- C1: in a table keyed by reference, the references that steps 1 to 4 of
`DeduplicateObjects` delete (present before, absent before garbage collection)
are exactly the references of the objects that come after an object with the
same content string; equivalently the object at a position is kept exactly
when no earlier object has its content, so the first of every group is kept
and every other member is removed. -/
theorem removed_iff_earlier_same_content (objects : PdfIndirectObjectList)
    (aggressive : Bool) (hd : DistinctReferences objects) :
    (∀ r, (r ∈ presentReferences objects ∧
          r ∉ presentReferences (removeDuplicates objects aggressive)) ↔
        ∃ l1 o l2, liveObjects objects = l1 ++ o :: l2 ∧ o.IndirectReference = r ∧
          ∃ o' ∈ l1, getObjectContent o'.Object aggressive =
            getObjectContent o.Object aggressive) ∧
    (∀ l1 o l2, liveObjects objects = l1 ++ o :: l2 →
      (o.IndirectReference ∈ presentReferences (removeDuplicates objects aggressive) ↔
        ∀ o' ∈ l1, getObjectContent o'.Object aggressive ≠
          getObjectContent o.Object aggressive)) := by
  constructor
  · intro r
    rw [mem_presentReferences_removeDuplicates]
    have h := mem_objectsToRemove objects aggressive r
    simp only [contentOf] at h
    rw [← h]
    constructor
    · rintro ⟨h1, h2⟩
      by_contra h3
      exact h2 ⟨h1, h3⟩
    · intro h1
      exact ⟨objectsToRemove_subset_present objects aggressive r h1, fun h2 => h2.2 h1⟩
  · intro l1 o l2 hl
    rw [mem_presentReferences_removeDuplicates,
      mem_objectsToRemove_at objects aggressive hd l1 l2 o hl]
    simp only [contentOf]
    constructor
    · rintro ⟨_, h⟩ o' ho' hc
      exact h ⟨o', ho', hc⟩
    · intro h
      refine ⟨mem_presentReferences.mpr ⟨o, by rw [hl]; simp, rfl⟩, ?_⟩
      rintro ⟨o', ho', hc⟩
      exact h o' ho' hc

theorem removed_iff_earlier_same_content_witness :
    DistinctReferences simpleObjects ∧
    ((∀ r, (r ∈ presentReferences simpleObjects ∧
          r ∉ presentReferences (removeDuplicates simpleObjects true)) ↔
        ∃ l1 o l2, liveObjects simpleObjects = l1 ++ o :: l2 ∧ o.IndirectReference = r ∧
          ∃ o' ∈ l1, getObjectContent o'.Object true = getObjectContent o.Object true) ∧
    (∀ l1 o l2, liveObjects simpleObjects = l1 ++ o :: l2 →
      (o.IndirectReference ∈ presentReferences (removeDuplicates simpleObjects true) ↔
        ∀ o' ∈ l1, getObjectContent o'.Object true ≠ getObjectContent o.Object true))) :=
  ⟨by decide, removed_iff_earlier_same_content simpleObjects true (by decide)⟩

/-- C7: whenever the table holds two objects with structurally equal values,
the reference of the one that comes later in enumeration order is absent from
the table after `DeduplicateObjects`, in either mode. -/
theorem later_equal_object_absent (doc : PdfMemDocument) (aggressive : Bool)
    (l1 l2 l3 : List PdfIndirectObject) (o1 o2 : PdfIndirectObject)
    (hl : liveObjects doc.Objects = l1 ++ o1 :: (l2 ++ o2 :: l3))
    (heq : o1.Object = o2.Object) :
    o2.IndirectReference ∉ presentReferences (DeduplicateObjects doc aggressive).Objects := by
  intro h
  unfold DeduplicateObjects at h
  simp only [presentReferences, liveObjects_CollectGarbage, List.mem_map, List.mem_filter] at h
  obtain ⟨o, ⟨ho, _⟩, hr⟩ := h
  have h2 : o2.IndirectReference ∈ presentReferences (removeDuplicates doc.Objects aggressive) :=
    mem_presentReferences.mpr ⟨o, ho, hr⟩
  rw [mem_presentReferences_removeDuplicates] at h2
  apply h2.2
  rw [mem_objectsToRemove]
  exact ⟨l1 ++ o1 :: l2, o2, l3, by simp [hl], rfl, o1, by simp, by simp [contentOf, heq]⟩

theorem later_equal_object_absent_witness :
    liveObjects sharedReference.Objects =
        [⟨⟨1, 0⟩, .Number 42⟩] ++ ⟨⟨2, 0⟩, .Array [.Reference ⟨1, 0⟩]⟩ ::
          ([] ++ ⟨⟨3, 0⟩, .Array [.Reference ⟨1, 0⟩]⟩ ::
            [⟨⟨4, 0⟩, .Dictionary [("First", .Reference ⟨2, 0⟩), ("Second", .Reference ⟨3, 0⟩)]
              none⟩]) ∧
      (⟨3, 0⟩ : PdfReference) ∉ presentReferences (DeduplicateObjects sharedReference true).Objects :=
  ⟨rfl, later_equal_object_absent sharedReference true [⟨⟨1, 0⟩, .Number 42⟩] []
    [⟨⟨4, 0⟩, .Dictionary [("First", .Reference ⟨2, 0⟩), ("Second", .Reference ⟨3, 0⟩)] none⟩]
    ⟨⟨2, 0⟩, .Array [.Reference ⟨1, 0⟩]⟩ ⟨⟨3, 0⟩, .Array [.Reference ⟨1, 0⟩]⟩ rfl rfl⟩

/-- C8: in a table keyed by reference, the number of objects left by steps 1
to 4 of `DeduplicateObjects`, before garbage collection, is the number of
distinct content strings among the objects of the original table. -/
theorem count_before_collection (objects : PdfIndirectObjectList) (aggressive : Bool)
    (hd : DistinctReferences objects) :
    (liveObjects (removeDuplicates objects aggressive)).length =
      ((liveObjects objects).map fun obj =>
        getObjectContent obj.Object aggressive).toFinset.card := by
  rw [liveObjects_removeDuplicates_eq_first objects aggressive hd, List.length_map,
    length_firstOfEachContent, List.toFinset_nil, Finset.sdiff_empty]
  rfl

theorem count_before_collection_witness :
    DistinctReferences simpleObjects ∧
      (liveObjects (removeDuplicates simpleObjects true)).length =
        ((liveObjects simpleObjects).map fun obj =>
          getObjectContent obj.Object true).toFinset.card ∧
      (liveObjects (removeDuplicates simpleObjects true)).length = 2 :=
  ⟨by decide, count_before_collection simpleObjects true (by decide), by decide⟩

/-- C9: the object count `GetSize()` after `DeduplicateObjects` is never
larger than before, and it is strictly smaller whenever the table holds two
objects with the same content string. -/
theorem object_count_decreases (doc : PdfMemDocument) (aggressive : Bool) :
    GetSize (DeduplicateObjects doc aggressive).Objects ≤ GetSize doc.Objects ∧
    (∀ (l1 l2 l3 : List PdfIndirectObject) (o1 o2 : PdfIndirectObject),
      liveObjects doc.Objects = l1 ++ o1 :: (l2 ++ o2 :: l3) →
      getObjectContent o1.Object aggressive = getObjectContent o2.Object aggressive →
      GetSize (DeduplicateObjects doc aggressive).Objects < GetSize doc.Objects) := by
  have hgc : GetSize (DeduplicateObjects doc aggressive).Objects ≤
      (removeDuplicates doc.Objects aggressive).length := by
    unfold DeduplicateObjects GetSize
    exact length_CollectGarbage_le _ _
  constructor
  · refine le_trans hgc ?_
    rw [removeDuplicates_eq]
    refine le_trans (List.length_filter_le _ _) ?_
    rw [length_updateObjectReferences]
    exact le_refl _
  · intro l1 l2 l3 o1 o2 hl hc
    refine lt_of_le_of_lt hgc ?_
    rw [removeDuplicates_eq]
    unfold GetSize
    rw [← length_updateObjectReferences doc.Objects
      (identifyDuplicates (buildContentMap doc.Objects aggressive)).1]
    rw [List.length_filter_lt_length_iff_exists]
    have hrm : o2.IndirectReference ∈
        (identifyDuplicates (buildContentMap doc.Objects aggressive)).2 := by
      rw [mem_objectsToRemove]
      exact ⟨l1 ++ o1 :: l2, o2, l3, by simp [hl], rfl, o1, by simp, by simpa [contentOf] using hc⟩
    refine ⟨some ⟨o2.IndirectReference, updateObjectReferencesRecursive o2.Object
      (identifyDuplicates (buildContentMap doc.Objects aggressive)).1⟩, ?_, ?_⟩
    · rw [← mem_liveObjects, liveObjects_updateObjectReferences]
      exact List.mem_map.mpr ⟨o2, by rw [hl]; simp, rfl⟩
    · simpa using hrm

theorem object_count_decreases_witness :
    (liveObjects sharedReference.Objects =
        [⟨⟨1, 0⟩, .Number 42⟩] ++ ⟨⟨2, 0⟩, .Array [.Reference ⟨1, 0⟩]⟩ ::
          ([] ++ ⟨⟨3, 0⟩, .Array [.Reference ⟨1, 0⟩]⟩ ::
            [⟨⟨4, 0⟩, .Dictionary [("First", .Reference ⟨2, 0⟩), ("Second", .Reference ⟨3, 0⟩)]
              none⟩]) ∧
      getObjectContent (.Array [.Reference ⟨1, 0⟩]) false =
        getObjectContent (.Array [.Reference ⟨1, 0⟩]) false) ∧
    GetSize (DeduplicateObjects sharedReference false).Objects <
      GetSize sharedReference.Objects :=
  ⟨⟨rfl, rfl⟩, (object_count_decreases sharedReference false).2 [⟨⟨1, 0⟩, .Number 42⟩] []
    [⟨⟨4, 0⟩, .Dictionary [("First", .Reference ⟨2, 0⟩), ("Second", .Reference ⟨3, 0⟩)] none⟩]
    ⟨⟨2, 0⟩, .Array [.Reference ⟨1, 0⟩]⟩ ⟨⟨3, 0⟩, .Array [.Reference ⟨1, 0⟩]⟩ rfl rfl⟩

/-! ## Groups of equal content and the references to their members -/

/-- Of the objects with the content of `o`, the first one in enumeration
order, only `o` is present before garbage collection. -/
theorem group_survivor (objects : PdfIndirectObjectList) (aggressive : Bool)
    (hd : DistinctReferences objects) (l1 l2 : List PdfIndirectObject) (o : PdfIndirectObject)
    (hl : liveObjects objects = l1 ++ o :: l2)
    (hfirst : ∀ o' ∈ l1, contentOf aggressive o' ≠ contentOf aggressive o)
    (g : PdfIndirectObject) (hg : g ∈ liveObjects objects)
    (hc : contentOf aggressive g = contentOf aggressive o) :
    g.IndirectReference ∈ presentReferences (removeDuplicates objects aggressive) ↔ g = o := by
  rw [mem_presentReferences_removeDuplicates]
  obtain ⟨p, q, hpq⟩ := List.append_of_mem hg
  rw [mem_objectsToRemove_at objects aggressive hd p q g hpq]
  have hfo : ((liveObjects objects).find? fun other =>
      decide (contentOf aggressive other = contentOf aggressive o)) = some o := by
    rw [List.find?_eq_some]
    exact ⟨by simp, l1, l2, hl, fun a ha => by simpa using hfirst a ha⟩
  constructor
  · rintro ⟨_, hn⟩
    have hfg : ((liveObjects objects).find? fun other =>
        decide (contentOf aggressive other = contentOf aggressive o)) = some g := by
      rw [List.find?_eq_some]
      refine ⟨by simpa using hc, p, q, hpq, fun a ha => ?_⟩
      simp only [Bool.not_eq_true', decide_eq_false_iff_not]
      intro hca
      exact hn ⟨a, ha, by rw [hca, hc]⟩
    rw [hfo] at hfg
    exact (Option.some.inj hfg).symm
  · rintro rfl
    refine ⟨mem_presentReferences.mpr ⟨g, hg, rfl⟩, ?_⟩
    rintro ⟨o', ho', hc'⟩
    have hn : ((l1 ++ g :: l2).map PdfIndirectObject.IndirectReference).Nodup := by
      rw [← hl]; exact hd
    obtain ⟨h1, _, _⟩ := decomposition_unique PdfIndirectObject.IndirectReference
      l1 p l2 q g g hn (by rw [← hl, hpq]) rfl
    subst h1
    exact hfirst o' ho' hc'

/-- Every object of the table before garbage collection is an object of the
original table in which each reference value is replaced by its canonical
reference. -/
theorem references_after_rewrite (objects : PdfIndirectObjectList) (aggressive : Bool)
    (hd : DistinctReferences objects) (n' : PdfIndirectObject)
    (hn : n' ∈ liveObjects (removeDuplicates objects aggressive)) :
    ∃ n ∈ liveObjects objects, n.IndirectReference = n'.IndirectReference ∧
      referencesOf n'.Object =
        (referencesOf n.Object).map (canonicalReference objects aggressive) := by
  rw [liveObjects_removeDuplicates] at hn
  obtain ⟨hm, _⟩ := List.mem_filter.mp hn
  obtain ⟨n, hnl, rfl⟩ := List.mem_map.mp hm
  refine ⟨n, hnl, rfl, ?_⟩
  simp only [referencesOf_update]
  congr 1
  funext r
  exact find_eq_canonicalReference objects aggressive hd r

theorem presentReferences_CollectGarbage_subset (objects : PdfIndirectObjectList)
    (trailer : PdfObject) (r : PdfReference)
    (h : r ∈ presentReferences (CollectGarbage objects trailer)) :
    r ∈ presentReferences objects := by
  simp only [presentReferences, liveObjects_CollectGarbage, List.mem_map, List.mem_filter] at h ⊢
  obtain ⟨o, ⟨ho, _⟩, hr⟩ := h
  exact ⟨o, ho, hr⟩

/-- C3: in a table keyed by reference in which every reference value held by
an object resolves to a present object, every reference value held by an
object that is present after `DeduplicateObjects` resolves to an object that
is present after `DeduplicateObjects`. -/
theorem no_dangling_references (doc : PdfMemDocument) (aggressive : Bool)
    (hd : DistinctReferences doc.Objects)
    (hres : ∀ obj ∈ liveObjects doc.Objects, ∀ ref ∈ referencesOf obj.Object,
      ref ∈ presentReferences doc.Objects) :
    ∀ obj ∈ liveObjects (DeduplicateObjects doc aggressive).Objects,
      ∀ ref ∈ referencesOf obj.Object,
        ref ∈ presentReferences (DeduplicateObjects doc aggressive).Objects := by
  intro obj hobj ref href
  unfold DeduplicateObjects at hobj ⊢
  simp only at hobj ⊢
  rw [liveObjects_CollectGarbage] at hobj
  obtain ⟨hlive, hreach⟩ := List.mem_filter.mp hobj
  simp only [decide_eq_true_eq] at hreach
  have hpre : ref ∈ presentReferences (removeDuplicates doc.Objects aggressive) := by
    obtain ⟨n, hn, _, hrefs⟩ := references_after_rewrite doc.Objects aggressive hd obj hlive
    rw [hrefs] at href
    obtain ⟨r0, hr0, rfl⟩ := List.mem_map.mp href
    rw [mem_presentReferences_removeDuplicates]
    exact canonicalReference_present doc.Objects aggressive hd r0 (hres n hn r0 hr0)
  have hclosed := closed_reachableReferences (removeDuplicates doc.Objects aggressive)
    doc.Trailer obj hlive hreach ref href hpre
  obtain ⟨target, htl, htr⟩ := mem_presentReferences.mp hpre
  rw [mem_presentReferences, liveObjects_CollectGarbage]
  exact ⟨target, List.mem_filter.mpr ⟨htl, by simpa [htr] using hclosed⟩, htr⟩

theorem no_dangling_references_witness :
    (DistinctReferences sharedReference.Objects ∧
      ∀ obj ∈ liveObjects sharedReference.Objects, ∀ ref ∈ referencesOf obj.Object,
        ref ∈ presentReferences sharedReference.Objects) ∧
    ∀ obj ∈ liveObjects (DeduplicateObjects sharedReference true).Objects,
      ∀ ref ∈ referencesOf obj.Object,
        ref ∈ presentReferences (DeduplicateObjects sharedReference true).Objects :=
  have hres : ∀ obj ∈ liveObjects sharedReference.Objects, ∀ ref ∈ referencesOf obj.Object,
      ref ∈ presentReferences sharedReference.Objects := by
    simp [sharedReference, liveObjects, presentReferences, referencesOf, referencesOfArray,
      referencesOfDictionary]
  ⟨⟨by decide, hres⟩, no_dangling_references sharedReference true (by decide) hres⟩

/-- C2 fails on `unreferencedNumbers`: the two equal numbers form a group of
content `num:42`; the rewrite and removal steps keep the first of them, `2 0`,
and remove `3 0`; garbage collection then removes `2 0` as well, as nothing
the trailer reaches refers to it, so that after `DeduplicateObjects(false)`
only the catalog is left and no member of the group is present. -/
theorem unreachable_group_has_no_survivor :
    (∃ g ∈ liveObjects unreferencedNumbers.Objects,
        getObjectContent g.Object false = "num:42") ∧
    presentReferences (removeDuplicates unreferencedNumbers.Objects false) =
      [⟨1, 0⟩, ⟨2, 0⟩] ∧
    presentReferences (DeduplicateObjects unreferencedNumbers false).Objects = [⟨1, 0⟩] ∧
    ¬ ∃ g ∈ liveObjects unreferencedNumbers.Objects,
        getObjectContent g.Object false = "num:42" ∧
        g.IndirectReference ∈
          presentReferences (DeduplicateObjects unreferencedNumbers false).Objects := by
  have hafter : presentReferences (DeduplicateObjects unreferencedNumbers false).Objects =
      [⟨1, 0⟩] := by decide
  refine ⟨?_, by decide, hafter, ?_⟩
  · exact ⟨⟨⟨2, 0⟩, .Number 42⟩, by simp [unreferencedNumbers, liveObjects], by decide⟩
  · rintro ⟨g, hg, hc, hr⟩
    rw [hafter] at hr
    simp only [List.mem_singleton] at hr
    simp only [unreferencedNumbers, liveObjects, List.filterMap_cons, id, List.filterMap_nil,
      List.mem_cons, List.mem_singleton, List.not_mem_nil, or_false] at hg
    rcases hg with rfl | rfl | rfl
    · revert hc; decide
    · revert hr; decide
    · revert hr; decide

/-- What the rewrite and removal steps do for a group: in a table keyed by
reference, let `o` be the first object in enumeration order of a group of
objects sharing a content string.  Before garbage collection exactly `o` of
the group is present; after the whole operation no member other than `o` is
present; and in every object present before garbage collection (hence in
every object that survives it) each reference value that pointed to a member
of the group points to `o`, at the same position. -/
theorem first_of_group_is_kept (doc : PdfMemDocument) (aggressive : Bool)
    (hd : DistinctReferences doc.Objects) (l1 l2 : List PdfIndirectObject)
    (o : PdfIndirectObject) (hl : liveObjects doc.Objects = l1 ++ o :: l2)
    (hfirst : ∀ o' ∈ l1, getObjectContent o'.Object aggressive ≠
      getObjectContent o.Object aggressive) :
    (∀ g ∈ liveObjects doc.Objects,
      getObjectContent g.Object aggressive = getObjectContent o.Object aggressive →
      (g.IndirectReference ∈ presentReferences (removeDuplicates doc.Objects aggressive) ↔
        g = o)) ∧
    (∀ g ∈ liveObjects doc.Objects,
      getObjectContent g.Object aggressive = getObjectContent o.Object aggressive →
      g.IndirectReference ∈ presentReferences (DeduplicateObjects doc aggressive).Objects →
      g = o) ∧
    (∀ n' ∈ liveObjects (removeDuplicates doc.Objects aggressive),
      ∃ n ∈ liveObjects doc.Objects, n.IndirectReference = n'.IndirectReference ∧
        (referencesOf n'.Object).length = (referencesOf n.Object).length ∧
        ∀ (i : Nat) (g : PdfIndirectObject), g ∈ liveObjects doc.Objects →
          getObjectContent g.Object aggressive = getObjectContent o.Object aggressive →
          (referencesOf n.Object)[i]? = some g.IndirectReference →
          (referencesOf n'.Object)[i]? = some o.IndirectReference) := by
  have hsurv := group_survivor doc.Objects aggressive hd l1 l2 o hl hfirst
  refine ⟨fun g hg hc => hsurv g hg hc, ?_, ?_⟩
  · intro g hg hc hr
    exact (hsurv g hg hc).mp (presentReferences_CollectGarbage_subset _ _ _ hr)
  · intro n' hn'
    obtain ⟨n, hn, hr, hrefs⟩ := references_after_rewrite doc.Objects aggressive hd n' hn'
    refine ⟨n, hn, hr, by rw [hrefs, List.length_map], ?_⟩
    intro i g hg hc hi
    rw [hrefs, List.getElem?_map, hi]
    simp only [Option.map_some']
    rw [canonicalReference_of_first doc.Objects aggressive hd l1 l2 o g hl hfirst hg hc]

theorem first_of_group_is_kept_witness :
    (DistinctReferences sharedReference.Objects ∧
      liveObjects sharedReference.Objects =
        [⟨⟨1, 0⟩, .Number 42⟩] ++ ⟨⟨2, 0⟩, .Array [.Reference ⟨1, 0⟩]⟩ ::
          [⟨⟨3, 0⟩, .Array [.Reference ⟨1, 0⟩]⟩,
            ⟨⟨4, 0⟩, .Dictionary [("First", .Reference ⟨2, 0⟩), ("Second", .Reference ⟨3, 0⟩)]
              none⟩] ∧
      ∀ o' ∈ [(⟨⟨1, 0⟩, .Number 42⟩ : PdfIndirectObject)],
        getObjectContent o'.Object false ≠
          getObjectContent (.Array [.Reference ⟨1, 0⟩]) false) ∧
    ∀ g ∈ liveObjects sharedReference.Objects,
      getObjectContent g.Object false = getObjectContent (.Array [.Reference ⟨1, 0⟩]) false →
      g.IndirectReference ∈ presentReferences (DeduplicateObjects sharedReference false).Objects →
      g = ⟨⟨2, 0⟩, .Array [.Reference ⟨1, 0⟩]⟩ :=
  have hfirst : ∀ o' ∈ [(⟨⟨1, 0⟩, .Number 42⟩ : PdfIndirectObject)],
      getObjectContent o'.Object false ≠
        getObjectContent (.Array [.Reference ⟨1, 0⟩]) false := by
    intro o' ho'
    simp only [List.mem_singleton] at ho'
    subst ho'
    decide
  ⟨⟨by decide, rfl, hfirst⟩,
    (first_of_group_is_kept sharedReference false (by decide) [⟨⟨1, 0⟩, .Number 42⟩]
      [⟨⟨3, 0⟩, .Array [.Reference ⟨1, 0⟩]⟩,
        ⟨⟨4, 0⟩, .Dictionary [("First", .Reference ⟨2, 0⟩), ("Second", .Reference ⟨3, 0⟩)]
          none⟩]
      ⟨⟨2, 0⟩, .Array [.Reference ⟨1, 0⟩]⟩ rfl hfirst).2.1⟩

/-- C10: the content string of a Reference object is `ref:`, the object
number, `:` and the generation number, in either mode, and the function reads
nothing but the object; an Array holding that one Reference has the content
`array:[ref:n:g]`; and of two table objects that are such Arrays the later
one is absent after `DeduplicateObjects`, while the earlier one, when no
object before it has its content, is kept by the removal step. -/
theorem reference_content (n g : Nat) (aggressive : Bool) :
    getObjectContent (.Reference ⟨n, g⟩) aggressive =
      "ref:" ++ toString n ++ ":" ++ toString g ∧
    getObjectContent (.Array [.Reference ⟨n, g⟩]) aggressive =
      "array:[" ++ ("ref:" ++ toString n ++ ":" ++ toString g) ++ "]" ∧
    ∀ (doc : PdfMemDocument) (l1 l2 l3 : List PdfIndirectObject) (o1 o2 : PdfIndirectObject),
      liveObjects doc.Objects = l1 ++ o1 :: (l2 ++ o2 :: l3) →
      o1.Object = .Array [.Reference ⟨n, g⟩] → o2.Object = .Array [.Reference ⟨n, g⟩] →
      o2.IndirectReference ∉ presentReferences (DeduplicateObjects doc aggressive).Objects ∧
      (DistinctReferences doc.Objects →
        (∀ o' ∈ l1, getObjectContent o'.Object aggressive ≠
          getObjectContent o1.Object aggressive) →
        o1.IndirectReference ∈ presentReferences (removeDuplicates doc.Objects aggressive)) := by
  refine ⟨rfl, ?_, ?_⟩
  · simp [getObjectContent, arrayContent]
  · intro doc l1 l2 l3 o1 o2 hl h1 h2
    constructor
    · intro h
      have hsub := presentReferences_CollectGarbage_subset _ _ _ h
      rw [mem_presentReferences_removeDuplicates] at hsub
      apply hsub.2
      rw [mem_objectsToRemove]
      exact ⟨l1 ++ o1 :: l2, o2, l3, by simp [hl], rfl, o1, by simp,
        by simp [contentOf, h1, h2]⟩
    · intro hd hfirst
      exact (group_survivor doc.Objects aggressive hd l1 (l2 ++ o2 :: l3) o1 hl hfirst o1
        (by rw [hl]; simp) rfl).mpr rfl

theorem reference_content_witness :
    (liveObjects sharedReference.Objects =
        [⟨⟨1, 0⟩, .Number 42⟩] ++ ⟨⟨2, 0⟩, .Array [.Reference ⟨1, 0⟩]⟩ ::
          ([] ++ ⟨⟨3, 0⟩, .Array [.Reference ⟨1, 0⟩]⟩ ::
            [⟨⟨4, 0⟩, .Dictionary [("First", .Reference ⟨2, 0⟩), ("Second", .Reference ⟨3, 0⟩)]
              none⟩])) ∧
    ((⟨3, 0⟩ : PdfReference) ∉
        presentReferences (DeduplicateObjects sharedReference true).Objects ∧
      (DistinctReferences sharedReference.Objects →
        (∀ o' ∈ [(⟨⟨1, 0⟩, .Number 42⟩ : PdfIndirectObject)],
          getObjectContent o'.Object true ≠
            getObjectContent (.Array [.Reference ⟨1, 0⟩]) true) →
        (⟨2, 0⟩ : PdfReference) ∈
          presentReferences (removeDuplicates sharedReference.Objects true))) :=
  ⟨rfl, (reference_content 1 0 true).2.2 sharedReference [⟨⟨1, 0⟩, .Number 42⟩] []
    [⟨⟨4, 0⟩, .Dictionary [("First", .Reference ⟨2, 0⟩), ("Second", .Reference ⟨3, 0⟩)] none⟩]
    ⟨⟨2, 0⟩, .Array [.Reference ⟨1, 0⟩]⟩ ⟨⟨3, 0⟩, .Array [.Reference ⟨1, 0⟩]⟩ rfl rfl rfl⟩

/-! ## Decimal rendering of numbers -/

theorem digitChar_toNat (d : Nat) (h : d < 10) : (Nat.digitChar d).toNat - 48 = d := by
  interval_cases d <;> rfl

theorem digitChar_ne_minus (d : Nat) (h : d < 10) : Nat.digitChar d ≠ '-' := by
  interval_cases d <;> decide

theorem decimalValue_append (pre : List Char) (c : Char) :
    decimalValue (pre ++ [c]) = decimalValue pre * 10 + (c.toNat - 48) := by
  simp [decimalValue, List.foldl_append]

theorem toDigitsCore_decimal (fuel : Nat) :
    ∀ (n : Nat) (ds : List Char), n < fuel →
      ∃ pre, Nat.toDigitsCore 10 fuel n ds = pre ++ ds ∧ decimalValue pre = n ∧
        ∀ c ∈ pre, c ≠ '-' := by
  induction fuel with
  | zero => intro n ds h; omega
  | succ f ih =>
    intro n ds h
    have hlt : n % 10 < 10 := Nat.mod_lt _ (by decide)
    simp only [Nat.toDigitsCore]
    by_cases h0 : n / 10 = 0
    · simp only [h0, if_true]
      refine ⟨[Nat.digitChar (n % 10)], rfl, ?_, ?_⟩
      · have := decimalValue_append [] (Nat.digitChar (n % 10))
        simp only [List.nil_append] at this
        rw [this, digitChar_toNat _ hlt]
        simp only [decimalValue, List.foldl_nil]
        omega
      · intro c hc
        simp only [List.mem_singleton] at hc
        rw [hc]
        exact digitChar_ne_minus _ hlt
    · simp only [h0, if_false]
      obtain ⟨pre, hpre, hval, hminus⟩ := ih (n / 10) (Nat.digitChar (n % 10) :: ds) (by omega)
      refine ⟨pre ++ [Nat.digitChar (n % 10)], by simp [hpre], ?_, ?_⟩
      · rw [decimalValue_append, hval, digitChar_toNat _ hlt]
        omega
      · intro c hc
        simp only [List.mem_append, List.mem_singleton] at hc
        rcases hc with hc | hc
        · exact hminus c hc
        · rw [hc]; exact digitChar_ne_minus _ hlt

theorem toDigits_decimal (n : Nat) :
    decimalValue (Nat.toDigits 10 n) = n ∧ ∀ c ∈ Nat.toDigits 10 n, c ≠ '-' := by
  obtain ⟨pre, hpre, hval, hminus⟩ := toDigitsCore_decimal (n + 1) n [] (by omega)
  unfold Nat.toDigits
  rw [hpre, List.append_nil]
  exact ⟨hval, hminus⟩

/-- The decimal rendering of an `int64_t` determines its value. -/
theorem toString_int_injective (v w : Int) (h : toString v = toString w) : v = w := by
  have hdata := congrArg String.data h
  cases v with
  | ofNat a =>
    cases w with
    | ofNat b =>
      have h2 : Nat.toDigits 10 a = Nat.toDigits 10 b := hdata
      have := congrArg decimalValue h2
      rw [(toDigits_decimal a).1, (toDigits_decimal b).1] at this
      rw [this]
    | negSucc b =>
      exfalso
      have h2 : Nat.toDigits 10 a = '-' :: Nat.toDigits 10 (b + 1) := hdata
      exact (toDigits_decimal a).2 '-' (by rw [h2]; simp) rfl
  | negSucc a =>
    cases w with
    | ofNat b =>
      exfalso
      have h2 : '-' :: Nat.toDigits 10 (a + 1) = Nat.toDigits 10 b := hdata
      exact (toDigits_decimal b).2 '-' (by rw [← h2]; simp) rfl
    | negSucc b =>
      have h2 : '-' :: Nat.toDigits 10 (a + 1) = '-' :: Nat.toDigits 10 (b + 1) := hdata
      have h3 := congrArg decimalValue (List.cons.inj h2).2
      rw [(toDigits_decimal (a + 1)).1, (toDigits_decimal (b + 1)).1] at h3
      have : a = b := by omega
      rw [this]

theorem append_left_cancel_iff (p s t : String) : p ++ s = p ++ t ↔ s = t := by
  constructor
  · intro h
    have h2 := congrArg String.data h
    simp only [String.data_append, List.append_cancel_left_eq] at h2
    exact String.ext h2
  · rintro rfl; rfl

/-! ## Content strings of scalars -/

/-- C6: for two objects among Null, Boolean, Number, String and Name the
content strings are equal exactly when the objects have the same variant and
the same value, in either mode; in particular the contents of two Number
objects are equal exactly when their values are equal. -/
theorem scalar_content_eq_iff (aggressive : Bool) :
    (∀ a b : PdfObject, IsScalar a → IsScalar b →
      (getObjectContent a aggressive = getObjectContent b aggressive ↔ a = b)) ∧
    (∀ v w : Int, getObjectContent (.Number v) aggressive =
      getObjectContent (.Number w) aggressive ↔ v = w) := by
  have hnum : ∀ v w : Int, getObjectContent (.Number v) aggressive =
      getObjectContent (.Number w) aggressive ↔ v = w := by
    intro v w
    simp only [getObjectContent, IsNumber, if_true, append_left_cancel_iff]
    exact ⟨toString_int_injective v w, fun h => by rw [h]⟩
  refine ⟨?_, hnum⟩
  intro a b ha hb
  cases a <;> try exact False.elim ha
  all_goals (cases b <;> try exact False.elim hb)
  all_goals first
    | (constructor
       · intro h
         have h2 := congrArg String.data h
         simp [getObjectContent, IsNumber] at h2
       · intro h
         cases h)
    | (rename_i x y
       rw [hnum x y]
       constructor
       · rintro rfl; rfl
       · intro h; cases h; rfl)
    | (rename_i x y
       simp only [getObjectContent, append_left_cancel_iff]
       constructor
       · rintro rfl; rfl
       · intro h; cases h; rfl)
    | (rename_i x y
       cases x <;> cases y <;> simp [getObjectContent, append_left_cancel_iff])
    | simp

theorem scalar_content_eq_iff_witness :
    (IsScalar (.Number 42) ∧ IsScalar (.String "42")) ∧
      (getObjectContent (.Number 42) true = getObjectContent (.String "42") true ↔
        PdfObject.Number 42 = PdfObject.String "42") :=
  ⟨⟨trivial, trivial⟩, (scalar_content_eq_iff true).1 _ _ trivial trivial⟩

/-- C5 (the code at the failing input): an Array of one String and an Array
of two Strings, structurally different, have the same content string in
either mode, because the bytes of a String are written without escaping the
separator. -/
theorem different_arrays_same_content (aggressive : Bool) :
    getObjectContent (.Array [.String "a,str:b"]) aggressive =
        getObjectContent (.Array [.String "a", .String "b"]) aggressive ∧
      getObjectContent (.Array [.String "a,str:b"]) aggressive = "array:[str:a,str:b]" ∧
      PdfObject.Array [.String "a,str:b"] ≠ PdfObject.Array [.String "a", .String "b"] := by
  refine ⟨?_, ?_, ?_⟩
  · cases aggressive <;> decide
  · cases aggressive <;> decide
  · intro h
    simp at h

/-! ## Garbage collection is idempotent -/

theorem markStep_of_closed (objects : PdfIndirectObjectList) (marked : List PdfReference)
    (h : ReferenceClosed objects marked) : markStep objects marked = marked := by
  unfold markStep
  have hnil : ((((liveObjects objects).filter fun obj =>
      decide (obj.IndirectReference ∈ marked)).flatMap fun obj => referencesOf obj.Object).filter
        fun ref => decide (ref ∈ presentReferences objects ∧ ref ∉ marked)) = [] := by
    rw [List.filter_eq_nil_iff]
    intro r hr
    simp only [List.mem_flatMap, List.mem_filter, decide_eq_true_eq] at hr
    obtain ⟨obj, ⟨ho, hm⟩, hrefs⟩ := hr
    simp only [decide_eq_true_eq, not_and, not_not]
    intro hp
    exact h obj ho hm r hrefs hp
  rw [hnil]
  simp

theorem markStep_subset_of_closed (objects : PdfIndirectObjectList)
    (closed marked : List PdfReference) (h : ReferenceClosed objects closed)
    (hs : marked ⊆ closed) : markStep objects marked ⊆ closed := by
  intro r hr
  rw [mem_markStep] at hr
  rcases hr with hr | ⟨hp, obj, ho, hm, hrefs⟩
  · exact hs hr
  · exact h obj ho (hs hm) r hrefs hp

theorem subset_markStep (objects : PdfIndirectObjectList) (marked : List PdfReference) :
    marked ⊆ markStep objects marked := by
  intro r hr
  rw [mem_markStep]
  exact Or.inl hr

theorem subset_markRounds (objects : PdfIndirectObjectList) (fuel : Nat)
    (marked : List PdfReference) : marked ⊆ markRounds objects fuel marked := by
  induction fuel generalizing marked with
  | zero => exact fun _ h => h
  | succ n ih =>
    intro r hr
    exact ih _ (subset_markStep objects marked hr)

theorem markRounds_add (objects : PdfIndirectObjectList) (a b : Nat)
    (marked : List PdfReference) :
    markRounds objects (a + b) marked = markRounds objects b (markRounds objects a marked) := by
  induction a generalizing marked with
  | zero => simp [markRounds]
  | succ n ih =>
    rw [Nat.succ_add]
    simp only [markRounds]
    exact ih _

/-- A round on the collected table marks what the round on the table marks,
as long as the marks stay within the set the table was collected by. -/
theorem markStep_collected (objects collected : PdfIndirectObjectList)
    (kept marked : List PdfReference)
    (hlive : liveObjects collected =
      (liveObjects objects).filter fun obj => decide (obj.IndirectReference ∈ kept))
    (hs : marked ⊆ kept) (hstep : markStep objects marked ⊆ kept) :
    markStep collected marked = markStep objects marked := by
  have hfil : ((liveObjects collected).filter fun obj =>
      decide (obj.IndirectReference ∈ marked)) =
      ((liveObjects objects).filter fun obj => decide (obj.IndirectReference ∈ marked)) := by
    rw [hlive, List.filter_filter]
    apply List.filter_congr
    intro obj _
    by_cases hm : obj.IndirectReference ∈ marked
    · simp [hm, hs hm]
    · simp [hm]
  unfold markStep
  rw [hfil]
  congr 2
  apply List.filter_congr
  intro r hr
  by_cases hm : r ∈ marked
  · simp [hm]
  · have hiff : r ∈ presentReferences collected ↔ r ∈ presentReferences objects := by
      constructor
      · intro h
        simp only [presentReferences, hlive, List.mem_map, List.mem_filter] at h ⊢
        obtain ⟨o, ⟨ho, _⟩, hor⟩ := h
        exact ⟨o, ho, hor⟩
      · intro h
        have hk : r ∈ kept := by
          apply hstep
          rw [mem_markStep]
          simp only [List.mem_flatMap, List.mem_filter, decide_eq_true_eq] at hr
          obtain ⟨obj, ⟨ho, hom⟩, hrefs⟩ := hr
          exact Or.inr ⟨h, obj, ho, hom, hrefs⟩
        simp only [presentReferences, hlive, List.mem_map, List.mem_filter] at h ⊢
        obtain ⟨o, ho, hor⟩ := h
        exact ⟨o, ⟨ho, by simpa [hor] using hk⟩, hor⟩
    simp [hm, hiff]

theorem markRounds_collected (objects collected : PdfIndirectObjectList)
    (kept : List PdfReference)
    (hlive : liveObjects collected =
      (liveObjects objects).filter fun obj => decide (obj.IndirectReference ∈ kept))
    (hclosed : ReferenceClosed objects kept) (fuel : Nat) (marked : List PdfReference)
    (hs : marked ⊆ kept) :
    markRounds collected fuel marked = markRounds objects fuel marked := by
  induction fuel generalizing marked with
  | zero => rfl
  | succ n ih =>
    have hstep := markStep_subset_of_closed objects kept marked hclosed hs
    simp only [markRounds]
    rw [markStep_collected objects collected kept marked hlive hs hstep]
    exact ih _ hstep

theorem reachableReferences_CollectGarbage (objects : PdfIndirectObjectList)
    (trailer : PdfObject) :
    reachableReferences (CollectGarbage objects trailer) trailer =
      reachableReferences objects trailer := by
  have hlive := liveObjects_CollectGarbage objects trailer
  have hclosed := closed_reachableReferences objects trailer
  have hclosed' := closed_reachableReferences (CollectGarbage objects trailer) trailer
  have hlen : (CollectGarbage objects trailer).length ≤ objects.length :=
    length_CollectGarbage_le objects trailer
  -- the start set is the same
  have hstart0 : (((referencesOf trailer).filter fun ref =>
      decide (ref ∈ presentReferences objects)).dedup) ⊆ reachableReferences objects trailer :=
    subset_markRounds objects _ _
  have hstart : (((referencesOf trailer).filter fun ref =>
      decide (ref ∈ presentReferences (CollectGarbage objects trailer))).dedup) =
      (((referencesOf trailer).filter fun ref =>
        decide (ref ∈ presentReferences objects)).dedup) := by
    congr 1
    apply List.filter_congr
    intro r _
    have hiff : r ∈ presentReferences (CollectGarbage objects trailer) ↔
        r ∈ presentReferences objects := by
      constructor
      · exact presentReferences_CollectGarbage_subset objects trailer r
      · intro h
        have hk : r ∈ reachableReferences objects trailer := by
          apply hstart0
          simp only [List.mem_dedup, List.mem_filter, decide_eq_true_eq]
          exact ⟨by assumption, h⟩
        simp only [presentReferences, hlive, List.mem_map, List.mem_filter] at h ⊢
        obtain ⟨o, ho, hor⟩ := h
        exact ⟨o, ⟨ho, by simpa [hor] using hk⟩, hor⟩
    simp [hiff]
  -- the rounds on the collected table are rounds on the table
  have hsim : reachableReferences (CollectGarbage objects trailer) trailer =
      markRounds objects (CollectGarbage objects trailer).length
        (((referencesOf trailer).filter fun ref =>
          decide (ref ∈ presentReferences objects)).dedup) := by
    unfold reachableReferences
    rw [hstart]
    exact markRounds_collected objects (CollectGarbage objects trailer)
      (markRounds objects objects.length
        (((referencesOf trailer).filter fun ref =>
          decide (ref ∈ presentReferences objects)).dedup))
      hlive hclosed _ _ hstart0
  -- the fewer rounds already reach a fixed point
  have hsub : reachableReferences (CollectGarbage objects trailer) trailer ⊆
      reachableReferences objects trailer := by
    rw [hsim]
    obtain ⟨k, hk⟩ := Nat.exists_eq_add_of_le hlen
    intro r hr
    have : reachableReferences objects trailer =
        markRounds objects k (markRounds objects (CollectGarbage objects trailer).length
          (((referencesOf trailer).filter fun ref =>
            decide (ref ∈ presentReferences objects)).dedup)) := by
      unfold reachableReferences
      rw [hk, markRounds_add]
    rw [this]
    exact subset_markRounds objects k _ hr
  have hfix' := markStep_of_closed _ _ hclosed'
  have hfix : markStep objects (reachableReferences (CollectGarbage objects trailer) trailer) =
      reachableReferences (CollectGarbage objects trailer) trailer := by
    rw [← markStep_collected objects (CollectGarbage objects trailer)
      (reachableReferences objects trailer) _ hlive hsub
      (markStep_subset_of_closed objects _ _ hclosed hsub)]
    exact hfix'
  obtain ⟨k, hk⟩ := Nat.exists_eq_add_of_le hlen
  have hfull : reachableReferences objects trailer =
      markRounds objects k (reachableReferences (CollectGarbage objects trailer) trailer) := by
    rw [hsim]
    unfold reachableReferences
    rw [hk, markRounds_add]
  rw [hfull, markRounds_of_fixed objects _ hfix]

theorem reachable_of_mem_markRounds (objects : PdfIndirectObjectList) (trailer : PdfObject)
    (fuel : Nat) (marked : List PdfReference)
    (h : ∀ r ∈ marked, Reachable objects trailer r) :
    ∀ r ∈ markRounds objects fuel marked, Reachable objects trailer r := by
  induction fuel generalizing marked with
  | zero => exact h
  | succ n ih =>
    apply ih
    intro r hr
    rw [mem_markStep] at hr
    rcases hr with hr | ⟨hp, obj, ho, hm, hrefs⟩
    · exact h r hr
    · exact Reachable.step obj r ho (h _ hm) hrefs hp

/-- The sweep marks exactly the references reachable from the trailer. -/
theorem mem_reachableReferences (objects : PdfIndirectObjectList) (trailer : PdfObject)
    (r : PdfReference) :
    r ∈ reachableReferences objects trailer ↔ Reachable objects trailer r := by
  constructor
  · intro h
    unfold reachableReferences at h
    refine reachable_of_mem_markRounds objects trailer _ _ ?_ r h
    intro x hx
    simp only [List.mem_dedup, List.mem_filter, decide_eq_true_eq] at hx
    exact Reachable.root x hx.1 hx.2
  · intro h
    induction h with
    | root ref held present =>
      unfold reachableReferences
      apply subset_markRounds
      simp only [List.mem_dedup, List.mem_filter, decide_eq_true_eq]
      exact ⟨held, present⟩
    | step obj ref live _ held present ih =>
      exact closed_reachableReferences objects trailer obj live ih ref held present

/-- A second sweep removes nothing. -/
theorem CollectGarbage_idempotent (objects : PdfIndirectObjectList) (trailer : PdfObject) :
    CollectGarbage (CollectGarbage objects trailer) trailer = CollectGarbage objects trailer := by
  have h := reachableReferences_CollectGarbage objects trailer
  generalize hX : CollectGarbage objects trailer = collected at h ⊢
  unfold CollectGarbage
  rw [h, List.filter_eq_self]
  intro slot hs
  rw [← hX] at hs
  unfold CollectGarbage at hs
  exact (List.mem_filter.mp hs).2

/-! ## A second call -/

theorem find_some_mem_objectsToRemove (cm : ContentMap) (r c : PdfReference)
    (h : (identifyDuplicates cm).1.find r = some c) : r ∈ (identifyDuplicates cm).2 := by
  unfold identifyDuplicates at h ⊢
  rw [identifyFold_mem]
  rcases identifyFold_find_some cm _ r c h with h1 | ⟨pair, hp, hr, _⟩
  · simp [ReplacementMap.find] at h1
  · exact Or.inr ⟨pair, hp, hr⟩

/-- A table whose objects have pairwise different contents has an empty
replacement map and an empty removal set. -/
theorem identifyDuplicates_of_nodup (objects : PdfIndirectObjectList) (aggressive : Bool)
    (h : ((liveObjects objects).map (contentOf aggressive)).Nodup) :
    identifyDuplicates (buildContentMap objects aggressive) = ([], []) := by
  have hrm : (identifyDuplicates (buildContentMap objects aggressive)).2 = [] := by
    rw [List.eq_nil_iff_forall_not_mem]
    intro r hr
    rw [mem_objectsToRemove] at hr
    obtain ⟨l1, o, l2, hl, _, o', ho', hc⟩ := hr
    rw [hl, List.map_append, List.map_cons, List.nodup_append] at h
    obtain ⟨_, _, hdis⟩ := h
    exact hdis (List.mem_map.mpr ⟨o', ho', hc⟩) (List.mem_cons_self _ _)
  have hm : (identifyDuplicates (buildContentMap objects aggressive)).1 = [] := by
    cases hcase : (identifyDuplicates (buildContentMap objects aggressive)).1 with
    | nil => rfl
    | cons e rest =>
      exfalso
      have hf : (identifyDuplicates (buildContentMap objects aggressive)).1.find e.1 =
          some e.2 := by
        rw [hcase]
        simp [ReplacementMap.find]
      have := find_some_mem_objectsToRemove _ _ _ hf
      rw [hrm] at this
      simp at this
  exact Prod.ext hm hrm

theorem removeDuplicates_of_nodup (objects : PdfIndirectObjectList) (aggressive : Bool)
    (h : ((liveObjects objects).map (contentOf aggressive)).Nodup) :
    removeDuplicates objects aggressive = objects := by
  unfold removeDuplicates
  simp only [identifyDuplicates_of_nodup objects aggressive h, updateObjectReferences,
    List.isEmpty_nil, if_true, List.foldl_nil]

/-- When every reference value held in the table is canonical, the table
before garbage collection holds objects of pairwise different contents. -/
theorem contents_nodup_removeDuplicates (objects : PdfIndirectObjectList) (aggressive : Bool)
    (hd : DistinctReferences objects)
    (hcanon : ∀ obj ∈ liveObjects objects, ∀ ref ∈ referencesOf obj.Object,
      canonicalReference objects aggressive ref = ref) :
    ((liveObjects (removeDuplicates objects aggressive)).map (contentOf aggressive)).Nodup := by
  have hid : ((liveObjects objects).map fun obj =>
      (⟨obj.IndirectReference, updateObjectReferencesRecursive obj.Object
          (identifyDuplicates (buildContentMap objects aggressive)).1⟩ : PdfIndirectObject)) =
      liveObjects objects := by
    conv_rhs => rw [← List.map_id (liveObjects objects)]
    apply List.map_congr_left
    intro obj ho
    have : updateObjectReferencesRecursive obj.Object
        (identifyDuplicates (buildContentMap objects aggressive)).1 = obj.Object := by
      apply update_eq_self
      intro ref href
      rw [find_eq_canonicalReference objects aggressive hd ref]
      exact hcanon obj ho ref href
    rw [this]
    rfl
  rw [liveObjects_removeDuplicates, hid,
    filter_eq_firstOfEachContent objects aggressive hd (liveObjects objects) [] []
      (by simp) (by simp)]
  exact (contents_firstOfEachContent aggressive (liveObjects objects) []).1

/-- C4 fails on `duplicateTargets`: the first call merges the two equal
numbers and rewrites the second dictionary, after which the dictionaries
`3 0` and `4 0` have the same content and are both present; the second call
removes `4 0`. -/
theorem second_call_removes_an_object :
    presentReferences (DeduplicateObjects duplicateTargets true).Objects =
        [⟨1, 0⟩, ⟨3, 0⟩, ⟨4, 0⟩, ⟨5, 0⟩] ∧
      ((liveObjects (DeduplicateObjects duplicateTargets true).Objects).map
          fun obj => getObjectContent obj.Object true) =
        ["num:42", "dict:\x7bKey1:num:100,Key3:ref:1:0\x7d",
          "dict:\x7bKey1:num:100,Key3:ref:1:0\x7d",
          "dict:\x7bFirst:ref:3:0,Second:ref:4:0\x7d"] ∧
      (⟨4, 0⟩ : PdfReference) ∈
        presentReferences (DeduplicateObjects duplicateTargets true).Objects ∧
      (⟨4, 0⟩ : PdfReference) ∉
        presentReferences
          (DeduplicateObjects (DeduplicateObjects duplicateTargets true) true).Objects ∧
      presentReferences
          (DeduplicateObjects (DeduplicateObjects duplicateTargets true) true).Objects =
        [⟨1, 0⟩, ⟨3, 0⟩, ⟨5, 0⟩] := by
  decide

/-- When the first call leaves no two objects with the same content, the second call finds
an empty replacement map and an empty removal set and leaves the document as it is. -/
theorem second_call_is_noop_of_distinct_contents (doc : PdfMemDocument) (aggressive : Bool)
    (hnodup : ((liveObjects (DeduplicateObjects doc aggressive).Objects).map
      (contentOf aggressive)).Nodup) :
    identifyDuplicates
        (buildContentMap (DeduplicateObjects doc aggressive).Objects aggressive) = ([], []) ∧
      DeduplicateObjects (DeduplicateObjects doc aggressive) aggressive =
        DeduplicateObjects doc aggressive := by
  refine ⟨identifyDuplicates_of_nodup _ aggressive hnodup, ?_⟩
  have hsame := removeDuplicates_of_nodup _ aggressive hnodup
  unfold DeduplicateObjects at hsame ⊢
  simp only at hsame ⊢
  rw [hsame, CollectGarbage_idempotent]

/-- A case in which the first call leaves distinct contents: in a table keyed
by reference in which every reference value held by an object is canonical
(it points to the first object of its content, or to no object), so that the
first call rewrites no object, the second call finds an empty replacement map
and an empty removal set and leaves the document as the first call left it,
in either mode. -/
theorem second_call_is_noop (doc : PdfMemDocument) (aggressive : Bool)
    (hd : DistinctReferences doc.Objects)
    (hcanon : ∀ obj ∈ liveObjects doc.Objects, ∀ ref ∈ referencesOf obj.Object,
      canonicalReference doc.Objects aggressive ref = ref) :
    identifyDuplicates
        (buildContentMap (DeduplicateObjects doc aggressive).Objects aggressive) = ([], []) ∧
      DeduplicateObjects (DeduplicateObjects doc aggressive) aggressive =
        DeduplicateObjects doc aggressive := by
  have hpre := contents_nodup_removeDuplicates doc.Objects aggressive hd hcanon
  have hnodup : ((liveObjects (DeduplicateObjects doc aggressive).Objects).map
      (contentOf aggressive)).Nodup := by
    unfold DeduplicateObjects
    simp only
    rw [liveObjects_CollectGarbage]
    exact hpre.sublist ((List.filter_sublist _).map _)
  refine ⟨identifyDuplicates_of_nodup _ aggressive hnodup, ?_⟩
  have hsame := removeDuplicates_of_nodup _ aggressive hnodup
  unfold DeduplicateObjects at hsame ⊢
  simp only at hsame ⊢
  rw [hsame, CollectGarbage_idempotent]

theorem second_call_is_noop_witness :
    (DistinctReferences referencesToFirst.Objects ∧
      ∀ obj ∈ liveObjects referencesToFirst.Objects, ∀ ref ∈ referencesOf obj.Object,
        canonicalReference referencesToFirst.Objects true ref = ref) ∧
    (identifyDuplicates
        (buildContentMap (DeduplicateObjects referencesToFirst true).Objects true) = ([], []) ∧
      DeduplicateObjects (DeduplicateObjects referencesToFirst true) true =
        DeduplicateObjects referencesToFirst true) :=
  have hcanon : ∀ obj ∈ liveObjects referencesToFirst.Objects, ∀ ref ∈ referencesOf obj.Object,
      canonicalReference referencesToFirst.Objects true ref = ref := by
    intro obj hobj
    simp only [referencesToFirst, liveObjects, List.filterMap_cons, id, List.filterMap_nil,
      List.mem_cons, List.mem_singleton, List.not_mem_nil, or_false] at hobj
    rcases hobj with rfl | rfl | rfl | rfl <;>
      simp [referencesOf, referencesOfArray, referencesOfDictionary] <;> decide
  ⟨⟨by decide, hcanon⟩, second_call_is_noop referencesToFirst true (by decide) hcanon⟩

/-! ## The rewrite pass as a function of the object -/

theorem updateArray_eq_map (m : ReplacementMap) (arr : List PdfObject) :
    updateArray arr m = arr.map fun child => updateObjectReferencesRecursive child m := by
  induction arr with
  | nil => rfl
  | cons child rest ih => simp [updateArray, ih]

theorem updateDictionary_eq_map (m : ReplacementMap) (dict : List (String × PdfObject)) :
    updateDictionary dict m =
      dict.map fun pair => (pair.1, updateObjectReferencesRecursive pair.2 m) := by
  induction dict with
  | nil => rfl
  | cons pair rest ih =>
    obtain ⟨key, value⟩ := pair
    simp [updateDictionary, ih]

/-- C16: `updateObjectReferencesRecursive` replaces a Reference whose value is
a key of the map by the mapped reference, looked up once (the mapped
reference is not looked up again, as the map with the chain `1 0 -> 2 0 ->
3 0` shows), leaves a Reference that is not a key unchanged, rewrites an
Array element by element and a Dictionary value by value, keeping keys and
stream, and leaves every other object unchanged. -/
theorem rewrite_by_cases (m : ReplacementMap) :
    (∀ ref target, m.find ref = some target →
      updateObjectReferencesRecursive (.Reference ref) m = .Reference target) ∧
    (∀ ref, m.find ref = none →
      updateObjectReferencesRecursive (.Reference ref) m = .Reference ref) ∧
    updateObjectReferencesRecursive (.Reference ⟨1, 0⟩)
        [(⟨1, 0⟩, ⟨2, 0⟩), (⟨2, 0⟩, ⟨3, 0⟩)] = .Reference ⟨2, 0⟩ ∧
    (∀ arr, updateObjectReferencesRecursive (.Array arr) m =
      .Array (arr.map fun child => updateObjectReferencesRecursive child m)) ∧
    (∀ dict stream, updateObjectReferencesRecursive (.Dictionary dict stream) m =
      .Dictionary (dict.map fun pair => (pair.1, updateObjectReferencesRecursive pair.2 m))
        stream) ∧
    (∀ obj, (∀ ref, obj ≠ .Reference ref) → (∀ arr, obj ≠ .Array arr) →
      (∀ dict stream, obj ≠ .Dictionary dict stream) →
      updateObjectReferencesRecursive obj m = obj) := by
  refine ⟨?_, ?_, ?_, ?_, ?_, ?_⟩
  · intro ref target h
    simp [updateObjectReferencesRecursive, h]
  · intro ref h
    simp [updateObjectReferencesRecursive, h]
  · rfl
  · intro arr
    simp only [updateObjectReferencesRecursive, updateArray_eq_map]
  · intro dict stream
    simp only [updateObjectReferencesRecursive, updateDictionary_eq_map]
  · intro obj h1 h2 h3
    cases obj with
    | Reference ref => exact absurd rfl (h1 ref)
    | Array arr => exact absurd rfl (h2 arr)
    | Dictionary dict stream => exact absurd rfl (h3 dict stream)
    | _ => simp [updateObjectReferencesRecursive]

theorem rewrite_by_cases_witness :
    (ReplacementMap.find [(⟨1, 0⟩, ⟨2, 0⟩), (⟨2, 0⟩, ⟨3, 0⟩)] ⟨2, 0⟩ = some ⟨3, 0⟩ ∧
      ReplacementMap.find [(⟨1, 0⟩, ⟨2, 0⟩), (⟨2, 0⟩, ⟨3, 0⟩)] ⟨3, 0⟩ = none) ∧
    updateObjectReferencesRecursive (.Reference ⟨2, 0⟩)
        [(⟨1, 0⟩, ⟨2, 0⟩), (⟨2, 0⟩, ⟨3, 0⟩)] = .Reference ⟨3, 0⟩ ∧
    updateObjectReferencesRecursive (.Reference ⟨3, 0⟩)
        [(⟨1, 0⟩, ⟨2, 0⟩), (⟨2, 0⟩, ⟨3, 0⟩)] = .Reference ⟨3, 0⟩ ∧
    updateObjectReferencesRecursive (.Name "N")
        [(⟨1, 0⟩, ⟨2, 0⟩), (⟨2, 0⟩, ⟨3, 0⟩)] = .Name "N" :=
  ⟨⟨by decide, by decide⟩,
    (rewrite_by_cases [(⟨1, 0⟩, ⟨2, 0⟩), (⟨2, 0⟩, ⟨3, 0⟩)]).1 ⟨2, 0⟩ ⟨3, 0⟩ (by decide),
    (rewrite_by_cases [(⟨1, 0⟩, ⟨2, 0⟩), (⟨2, 0⟩, ⟨3, 0⟩)]).2.1 ⟨3, 0⟩ (by decide),
    (rewrite_by_cases [(⟨1, 0⟩, ⟨2, 0⟩), (⟨2, 0⟩, ⟨3, 0⟩)]).2.2.2.2.2 (.Name "N")
      (fun _ h => by cases h) (fun _ h => by cases h) (fun _ _ h => by cases h)⟩

mutual
theorem shapeOf_update (m : ReplacementMap) :
    ∀ obj : PdfObject, shapeOf (updateObjectReferencesRecursive obj m) = shapeOf obj
  | .Reference ref => by
    cases h : m.find ref <;> simp [updateObjectReferencesRecursive, shapeOf, h]
  | .Array arr => by
    simp only [updateObjectReferencesRecursive, shapeOf]
    rw [shapeOfArray_update m arr]
  | .Dictionary dict stream => by
    simp only [updateObjectReferencesRecursive, shapeOf]
    rw [shapeOfDictionary_update m dict]
  | .Unknown => by simp [updateObjectReferencesRecursive]
  | .RawData _ => by simp [updateObjectReferencesRecursive]
  | .Null => by simp [updateObjectReferencesRecursive]
  | .Boolean _ => by simp [updateObjectReferencesRecursive]
  | .Number _ => by simp [updateObjectReferencesRecursive]
  | .Real _ => by simp [updateObjectReferencesRecursive]
  | .String _ => by simp [updateObjectReferencesRecursive]
  | .Name _ => by simp [updateObjectReferencesRecursive]
theorem shapeOfArray_update (m : ReplacementMap) :
    ∀ arr : List PdfObject, shapeOfArray (updateArray arr m) = shapeOfArray arr
  | [] => by simp [updateArray]
  | child :: rest => by
    simp only [updateArray, shapeOfArray]
    rw [shapeOf_update m child, shapeOfArray_update m rest]
theorem shapeOfDictionary_update (m : ReplacementMap) :
    ∀ dict : List (String × PdfObject),
      shapeOfDictionary (updateDictionary dict m) = shapeOfDictionary dict
  | [] => by simp [updateDictionary]
  | (key, value) :: rest => by
    simp only [updateDictionary, shapeOfDictionary]
    rw [shapeOf_update m value, shapeOfDictionary_update m rest]
end

/-- C17: rewriting preserves the shape of an object: the rewritten object
differs from the object in the values of its References only; an Array keeps
its length and the element at each position is the rewritten element of that
position; a Dictionary keeps its sequence of keys; the number of Reference
entries of an object is unchanged; and every object of the table before
garbage collection has the shape of the object the table held under its
reference, so References to a merged target stay separate entries. -/
theorem rewrite_preserves_shape (m : ReplacementMap) :
    (∀ obj, shapeOf (updateObjectReferencesRecursive obj m) = shapeOf obj) ∧
    (∀ arr, (updateArray arr m).length = arr.length ∧
      ∀ i : Nat, (updateArray arr m)[i]? =
        (arr[i]?).map fun child => updateObjectReferencesRecursive child m) ∧
    (∀ dict, (updateDictionary dict m).map Prod.fst = dict.map Prod.fst) ∧
    (∀ obj, (referencesOf (updateObjectReferencesRecursive obj m)).length =
      (referencesOf obj).length) ∧
    (∀ (objects : PdfIndirectObjectList) (aggressive : Bool),
      ∀ after ∈ liveObjects (removeDuplicates objects aggressive),
        ∃ before ∈ liveObjects objects,
          before.IndirectReference = after.IndirectReference ∧
          shapeOf after.Object = shapeOf before.Object) := by
  refine ⟨shapeOf_update m, ?_, ?_, ?_, ?_⟩
  · intro arr
    rw [updateArray_eq_map]
    exact ⟨List.length_map _ _, fun i => List.getElem?_map _ _ _⟩
  · intro dict
    rw [updateDictionary_eq_map, List.map_map]
    rfl
  · intro obj
    rw [referencesOf_update, List.length_map]
  · intro objects aggressive after hafter
    rw [liveObjects_removeDuplicates] at hafter
    obtain ⟨hm, _⟩ := List.mem_filter.mp hafter
    obtain ⟨before, hb, rfl⟩ := List.mem_map.mp hm
    exact ⟨before, hb, rfl, shapeOf_update _ _⟩

theorem rewrite_preserves_shape_witness :
    (⟨⟨4, 0⟩, .Dictionary [("First", .Reference ⟨2, 0⟩), ("Second", .Reference ⟨2, 0⟩)] none⟩ :
        PdfIndirectObject) ∈ liveObjects (removeDuplicates sharedReference.Objects true) ∧
    ∃ before ∈ liveObjects sharedReference.Objects,
      before.IndirectReference = ⟨4, 0⟩ ∧
      shapeOf (.Dictionary [("First", .Reference ⟨2, 0⟩), ("Second", .Reference ⟨2, 0⟩)] none) =
        shapeOf before.Object :=
  have hmem : (⟨⟨4, 0⟩,
      .Dictionary [("First", .Reference ⟨2, 0⟩), ("Second", .Reference ⟨2, 0⟩)] none⟩ :
        PdfIndirectObject) ∈ liveObjects (removeDuplicates sharedReference.Objects true) := by
    have : liveObjects (removeDuplicates sharedReference.Objects true) =
        [⟨⟨1, 0⟩, .Number 42⟩, ⟨⟨2, 0⟩, .Array [.Reference ⟨1, 0⟩]⟩,
          ⟨⟨4, 0⟩, .Dictionary [("First", .Reference ⟨2, 0⟩), ("Second", .Reference ⟨2, 0⟩)]
            none⟩] := by rfl
    rw [this]
    simp
  ⟨hmem, (rewrite_preserves_shape []).2.2.2.2 sharedReference.Objects true _ hmem⟩

/-- C18: the rewrite pass `updateObjectReferences` deletes and adds nothing:
the references present in the table, in enumeration order, and the number of
slots are the same after the pass as before it, for every table and every
replacement map. -/
theorem rewrite_pass_keeps_references (objects : PdfIndirectObjectList)
    (m : ReplacementMap) :
    presentReferences (updateObjectReferences objects m) = presentReferences objects ∧
      GetSize (updateObjectReferences objects m) = GetSize objects := by
  constructor
  · unfold presentReferences
    rw [liveObjects_updateObjectReferences, List.map_map]
    rfl
  · exact length_updateObjectReferences objects m

/-- C20: on the empty object table `DeduplicateObjects`, in either mode and
with any trailer, returns the empty table: the object count stays 0 and the
trailer is untouched. -/
theorem empty_table_stays_empty (trailer : PdfObject) (aggressive : Bool) :
    (DeduplicateObjects ⟨[], trailer⟩ aggressive).Objects = [] ∧
      GetSize (DeduplicateObjects ⟨[], trailer⟩ aggressive).Objects = 0 ∧
      (DeduplicateObjects ⟨[], trailer⟩ aggressive).Trailer = trailer :=
  ⟨rfl, rfl, rfl⟩

/-! ## Objects that are merged and objects that are kept apart -/

/-- The later of two objects with the same content is absent after the
operation. -/
theorem absent_of_earlier_same_content (doc : PdfMemDocument) (aggressive : Bool)
    (l1 l2 l3 : List PdfIndirectObject) (o1 o2 : PdfIndirectObject)
    (hl : liveObjects doc.Objects = l1 ++ o1 :: (l2 ++ o2 :: l3))
    (hc : contentOf aggressive o1 = contentOf aggressive o2) :
    o2.IndirectReference ∉ presentReferences (DeduplicateObjects doc aggressive).Objects := by
  intro h
  have hsub := presentReferences_CollectGarbage_subset _ _ _ h
  rw [mem_presentReferences_removeDuplicates] at hsub
  apply hsub.2
  rw [mem_objectsToRemove]
  exact ⟨l1 ++ o1 :: l2, o2, l3, by simp [hl], rfl, o1, by simp, hc⟩

/-- With distinct references, the canonical reference of a present object is
the reference of a present object with the same content. -/
theorem canonicalReference_spec (objects : PdfIndirectObjectList) (aggressive : Bool)
    (hd : DistinctReferences objects) (o : PdfIndirectObject) (ho : o ∈ liveObjects objects) :
    ∃ c ∈ liveObjects objects,
      canonicalReference objects aggressive o.IndirectReference = c.IndirectReference ∧
      contentOf aggressive c = contentOf aggressive o := by
  unfold canonicalReference
  rw [GetObject_of_mem objects hd o ho]
  dsimp only
  cases hF : (liveObjects objects).find? fun other =>
      decide (contentOf aggressive other = contentOf aggressive o) with
  | none =>
    rw [List.find?_eq_none] at hF
    exact absurd (by simp) (hF o ho)
  | some first =>
    dsimp only
    exact ⟨first, List.mem_of_find?_eq_some hF, rfl, by simpa using List.find?_some hF⟩

/-- Objects with different contents have different canonical references. -/
theorem canonicalReference_ne_of_content_ne (objects : PdfIndirectObjectList)
    (aggressive : Bool) (hd : DistinctReferences objects) (o1 o2 : PdfIndirectObject)
    (h1 : o1 ∈ liveObjects objects) (h2 : o2 ∈ liveObjects objects)
    (hc : contentOf aggressive o1 ≠ contentOf aggressive o2) :
    canonicalReference objects aggressive o1.IndirectReference ≠
      canonicalReference objects aggressive o2.IndirectReference := by
  obtain ⟨c1, hc1, he1, hk1⟩ := canonicalReference_spec objects aggressive hd o1 h1
  obtain ⟨c2, hc2, he2, hk2⟩ := canonicalReference_spec objects aggressive hd o2 h2
  intro h
  rw [he1, he2] at h
  have := eq_of_reference_eq objects hd c1 c2 hc1 hc2 h
  subst this
  exact hc (by rw [← hk1, hk2])

/-- C13: in non-aggressive mode the content string of a Dictionary with a
stream is the content string of the Dictionary without it, whatever the
stream bytes; two table objects with the same Dictionary and any stream bytes
therefore share their content, and the later one is absent after
`DeduplicateObjects(false)`. -/
theorem stream_ignored_when_not_aggressive :
    (∀ dict buffer, getObjectContent (.Dictionary dict (some buffer)) false =
      getObjectContent (.Dictionary dict none) false) ∧
    (∀ (doc : PdfMemDocument) (l1 l2 l3 : List PdfIndirectObject) (o1 o2 : PdfIndirectObject)
      (dict : List (String × PdfObject)) (s1 s2 : String),
      liveObjects doc.Objects = l1 ++ o1 :: (l2 ++ o2 :: l3) →
      o1.Object = .Dictionary dict (some s1) → o2.Object = .Dictionary dict (some s2) →
      getObjectContent o1.Object false = getObjectContent o2.Object false ∧
      o2.IndirectReference ∉ presentReferences (DeduplicateObjects doc false).Objects) := by
  constructor
  · intro dict buffer
    simp [getObjectContent]
  · intro doc l1 l2 l3 o1 o2 dict s1 s2 hl h1 h2
    have hc : getObjectContent o1.Object false = getObjectContent o2.Object false := by
      rw [h1, h2]
      simp [getObjectContent]
    exact ⟨hc, absent_of_earlier_same_content doc false l1 l2 l3 o1 o2 hl hc⟩

theorem stream_ignored_when_not_aggressive_witness :
    liveObjects differentStreams.Objects =
        [] ++ ⟨⟨1, 0⟩, .Dictionary [("Length", .Number 3)] (some "abc")⟩ ::
          ([] ++ ⟨⟨2, 0⟩, .Dictionary [("Length", .Number 3)] (some "xyz")⟩ ::
            [⟨⟨3, 0⟩, .Dictionary [("First", .Reference ⟨1, 0⟩), ("Second", .Reference ⟨2, 0⟩)]
              none⟩]) ∧
      (getObjectContent (.Dictionary [("Length", .Number 3)] (some "abc")) false =
          getObjectContent (.Dictionary [("Length", .Number 3)] (some "xyz")) false ∧
        (⟨2, 0⟩ : PdfReference) ∉
          presentReferences (DeduplicateObjects differentStreams false).Objects) :=
  ⟨rfl, stream_ignored_when_not_aggressive.2 differentStreams [] []
    [⟨⟨3, 0⟩, .Dictionary [("First", .Reference ⟨1, 0⟩), ("Second", .Reference ⟨2, 0⟩)] none⟩]
    ⟨⟨1, 0⟩, .Dictionary [("Length", .Number 3)] (some "abc")⟩
    ⟨⟨2, 0⟩, .Dictionary [("Length", .Number 3)] (some "xyz")⟩
    [("Length", .Number 3)] "abc" "xyz" rfl rfl rfl⟩

/-! ## The entries of the replacement map -/

theorem ReplacementMap.mem_assign (m : ReplacementMap) (key value : PdfReference)
    (x : PdfReference × PdfReference) (h : x ∈ m.assign key value) :
    x ∈ m ∨ x = (key, value) := by
  induction m with
  | nil =>
    simp only [ReplacementMap.assign, List.mem_singleton] at h
    exact Or.inr h
  | cons e rest ih =>
    obtain ⟨k, v⟩ := e
    by_cases hk : k = key
    · simp only [ReplacementMap.assign, hk, if_true, List.mem_cons] at h
      rcases h with h | h
      · exact Or.inr h
      · exact Or.inl (List.mem_cons_of_mem _ h)
    · simp only [ReplacementMap.assign, hk, if_false, List.mem_cons] at h
      rcases h with h | h
      · exact Or.inl (by rw [h]; exact List.mem_cons_self _ _)
      · rcases ih h with h2 | h2
        · exact Or.inl (List.mem_cons_of_mem _ h2)
        · exact Or.inr h2

theorem mem_replaceOthers (keepRef : PdfReference) (others : List PdfReference)
    (state : ReplacementMap × List PdfReference) (x : PdfReference × PdfReference)
    (h : x ∈ (replaceOthers keepRef others state).1) :
    x ∈ state.1 ∨ (x.1 ∈ others ∧ x.2 = keepRef) := by
  unfold replaceOthers at h
  induction others generalizing state with
  | nil => exact Or.inl (by simpa using h)
  | cons r rest ih =>
    rw [List.foldl_cons] at h
    rcases ih _ h with h1 | ⟨h1, h2⟩
    · rcases ReplacementMap.mem_assign _ _ _ _ h1 with h3 | h3
      · exact Or.inl h3
      · exact Or.inr ⟨by rw [h3]; exact List.mem_cons_self _ _, by rw [h3]⟩
    · exact Or.inr ⟨List.mem_cons_of_mem _ h1, h2⟩

theorem mem_identifyStep (state : ReplacementMap × List PdfReference)
    (pair : String × List PdfReference) (x : PdfReference × PdfReference)
    (h : x ∈ (match pair.2 with
      | keepRef :: other :: others => replaceOthers keepRef (other :: others) state
      | _ => state).1) :
    x ∈ state.1 ∨ (x.1 ∈ pair.2.tail ∧ pair.2.head? = some x.2) := by
  obtain ⟨key, refs⟩ := pair
  match refs, h with
  | [], h => exact Or.inl h
  | [_], h => exact Or.inl h
  | keepRef :: other :: others, h =>
    rcases mem_replaceOthers keepRef (other :: others) state x h with h1 | ⟨h1, h2⟩
    · exact Or.inl h1
    · exact Or.inr ⟨h1, by simp [h2]⟩

theorem mem_identifyFold (cm : ContentMap) (state : ReplacementMap × List PdfReference)
    (x : PdfReference × PdfReference)
    (h : x ∈ (cm.foldl
        (fun state pair =>
          match pair.2 with
          | keepRef :: other :: others => replaceOthers keepRef (other :: others) state
          | _ => state) state).1) :
    x ∈ state.1 ∨ ∃ pair ∈ cm, x.1 ∈ pair.2.tail ∧ pair.2.head? = some x.2 := by
  induction cm generalizing state with
  | nil => exact Or.inl (by simpa using h)
  | cons e rest ih =>
    rw [List.foldl_cons] at h
    rcases ih _ h with h1 | ⟨pair, hp, h1⟩
    · rcases mem_identifyStep state e x h1 with h2 | h2
      · exact Or.inl h2
      · exact Or.inr ⟨e, List.mem_cons_self _ _, h2⟩
    · exact Or.inr ⟨pair, List.mem_cons_of_mem _ hp, h1⟩

/-- An entry of the replacement map sends the reference of an object that is
not the first of its content to the reference of the first object of that
content. -/
theorem mem_replacementMap (objects : PdfIndirectObjectList) (aggressive : Bool)
    (key value : PdfReference)
    (h : (key, value) ∈ (identifyDuplicates (buildContentMap objects aggressive)).1) :
    key ∈ (identifyDuplicates (buildContentMap objects aggressive)).2 ∧
    ∃ ok ∈ liveObjects objects, ∃ first ∈ liveObjects objects,
      ok.IndirectReference = key ∧ first.IndirectReference = value ∧
      contentOf aggressive ok = contentOf aggressive first ∧
      ((liveObjects objects).find? fun other =>
        decide (contentOf aggressive other = contentOf aggressive first)) = some first := by
  have h0 := h
  unfold identifyDuplicates at h
  rcases mem_identifyFold _ _ _ h with h1 | ⟨⟨c, refs⟩, hp, ht, hh⟩
  · simp at h1
  · simp only at ht hh
    constructor
    · unfold identifyDuplicates
      rw [identifyFold_mem]
      exact Or.inr ⟨(c, refs), hp, ht⟩
    · have hrefs := mem_buildContentMap objects aggressive c refs hp
      have hk : key ∈ refs := List.mem_of_mem_tail ht
      rw [hrefs] at hk hh
      obtain ⟨ok, hok, hokr⟩ := List.mem_map.mp hk
      obtain ⟨hokm, hokc⟩ := List.mem_filter.mp hok
      simp only [decide_eq_true_eq] at hokc
      rw [head?_filter_map] at hh
      cases hF : (liveObjects objects).find? fun obj =>
          decide (contentOf aggressive obj = c) with
      | none => rw [hF] at hh; simp at hh
      | some first =>
        rw [hF] at hh
        simp only [Option.map_some', Option.some.injEq] at hh
        have hfc : contentOf aggressive first = c := by simpa using List.find?_some hF
        refine ⟨ok, hokm, first, List.mem_of_find?_eq_some hF, hokr, hh, by rw [hokc, hfc], ?_⟩
        rw [hfc]
        exact hF

/-- C15: in a table keyed by reference the replacement map built by step 2
of `DeduplicateObjects` has no chains: the value of an entry is never the key
of an entry (a lookup of it finds nothing), and the key and the value of an
entry are the references of two table objects with the same content string
in the mode of the call. -/
theorem replacement_map_has_no_chains (objects : PdfIndirectObjectList) (aggressive : Bool)
    (hd : DistinctReferences objects) :
    ∀ key value, (key, value) ∈ (identifyDuplicates (buildContentMap objects aggressive)).1 →
      (∀ other, (value, other) ∉ (identifyDuplicates (buildContentMap objects aggressive)).1) ∧
      (identifyDuplicates (buildContentMap objects aggressive)).1.find value = none ∧
      ∃ ok ∈ liveObjects objects, ∃ ov ∈ liveObjects objects,
        ok.IndirectReference = key ∧ ov.IndirectReference = value ∧
        getObjectContent ok.Object aggressive = getObjectContent ov.Object aggressive := by
  intro key value h
  obtain ⟨_, ok, hok, first, hfirst, hkr, hvr, hc, hF⟩ :=
    mem_replacementMap objects aggressive key value h
  have hnot : value ∉ (identifyDuplicates (buildContentMap objects aggressive)).2 := by
    rw [List.find?_eq_some] at hF
    obtain ⟨_, l1, l2, hl, hbefore⟩ := hF
    rw [← hvr, mem_objectsToRemove_at objects aggressive hd l1 l2 first hl]
    rintro ⟨o', ho', hc'⟩
    have := hbefore o' ho'
    simp only [Bool.not_eq_true', decide_eq_false_iff_not] at this
    exact this hc'
  refine ⟨?_, ?_, ok, hok, first, hfirst, hkr, hvr, hc⟩
  · intro other hother
    exact hnot (mem_replacementMap objects aggressive value other hother).1
  · cases hfind : (identifyDuplicates (buildContentMap objects aggressive)).1.find value with
    | none => rfl
    | some w => exact absurd (find_some_mem_objectsToRemove _ _ _ hfind) hnot

theorem replacement_map_has_no_chains_witness :
    (DistinctReferences duplicateTargets.Objects ∧
      ((⟨2, 0⟩, ⟨1, 0⟩) : PdfReference × PdfReference) ∈
        (identifyDuplicates (buildContentMap duplicateTargets.Objects true)).1) ∧
    ((∀ other, ((⟨1, 0⟩, other) : PdfReference × PdfReference) ∉
        (identifyDuplicates (buildContentMap duplicateTargets.Objects true)).1) ∧
      (identifyDuplicates (buildContentMap duplicateTargets.Objects true)).1.find ⟨1, 0⟩ = none ∧
      ∃ ok ∈ liveObjects duplicateTargets.Objects, ∃ ov ∈ liveObjects duplicateTargets.Objects,
        ok.IndirectReference = ⟨2, 0⟩ ∧ ov.IndirectReference = ⟨1, 0⟩ ∧
        getObjectContent ok.Object true = getObjectContent ov.Object true) :=
  ⟨⟨by decide, by decide⟩,
    replacement_map_has_no_chains duplicateTargets.Objects true (by decide) ⟨2, 0⟩ ⟨1, 0⟩
      (by decide)⟩

/-! ## The depth of the recursion of `getObjectContent` -/

theorem arrayContent_eq_joinParts (aggressive : Bool) (arr : List PdfObject) (first : Bool) :
    arrayContent arr aggressive first =
      joinParts (arr.map fun child => getObjectContent child aggressive) first := by
  induction arr generalizing first with
  | nil => rfl
  | cons child rest ih => simp [arrayContent, joinParts, ih]

theorem dictionaryContent_eq_joinParts (aggressive : Bool) (dict : List (String × PdfObject))
    (first : Bool) :
    dictionaryContent dict aggressive first =
      joinParts (dict.map fun pair => pair.1 ++ ":" ++ getObjectContent pair.2 aggressive)
        first := by
  induction dict generalizing first with
  | nil => rfl
  | cons pair rest ih =>
    obtain ⟨key, value⟩ := pair
    simp [dictionaryContent, joinParts, ih, String.append_assoc]

theorem nestingDepth_pos (obj : PdfObject) : 1 ≤ nestingDepth obj := by
  cases obj <;> simp [nestingDepth]

mutual
theorem getObjectContentWithin_eq :
    ∀ (obj : PdfObject) (depth : Nat) (aggressive : Bool),
      getObjectContentWithin depth obj aggressive =
        if nestingDepth obj ≤ depth then some (getObjectContent obj aggressive) else none
  | obj, 0, aggressive => by
    have := nestingDepth_pos obj
    have h : ¬ nestingDepth obj ≤ 0 := by omega
    simp only [getObjectContentWithin, h, if_false]
  | .Array arr, depth + 1, aggressive => by
    simp only [getObjectContentWithin, nestingDepth, Nat.add_le_add_iff_right]
    rw [allReturned_array arr depth aggressive]
    by_cases h : nestingDepthArray arr ≤ depth
    · simp [h, getObjectContent, arrayContent_eq_joinParts]
    · simp [h]
  | .Dictionary dict stream, depth + 1, aggressive => by
    simp only [getObjectContentWithin, nestingDepth, Nat.add_le_add_iff_right]
    rw [allReturned_dictionary dict depth aggressive]
    by_cases h : nestingDepthDictionary dict ≤ depth
    · simp [h, getObjectContent, dictionaryContent_eq_joinParts]
    · simp [h]
  | .Reference ref, depth + 1, aggressive => by
    simp [getObjectContentWithin, nestingDepth, getObjectContent]
  | .Unknown, depth + 1, aggressive => by
    simp [getObjectContentWithin, nestingDepth, getObjectContent]
  | .RawData _, depth + 1, aggressive => by
    simp [getObjectContentWithin, nestingDepth, getObjectContent]
  | .Null, depth + 1, aggressive => by
    simp [getObjectContentWithin, nestingDepth, getObjectContent]
  | .Boolean _, depth + 1, aggressive => by
    simp [getObjectContentWithin, nestingDepth, getObjectContent]
  | .Number _, depth + 1, aggressive => by
    simp [getObjectContentWithin, nestingDepth, getObjectContent]
  | .Real _, depth + 1, aggressive => by
    simp [getObjectContentWithin, nestingDepth, getObjectContent]
  | .String _, depth + 1, aggressive => by
    simp [getObjectContentWithin, nestingDepth, getObjectContent]
  | .Name _, depth + 1, aggressive => by
    simp [getObjectContentWithin, nestingDepth, getObjectContent]
theorem allReturned_array :
    ∀ (arr : List PdfObject) (depth : Nat) (aggressive : Bool),
      allReturned (arr.map fun child => getObjectContentWithin depth child aggressive) =
        if nestingDepthArray arr ≤ depth then
          some (arr.map fun child => getObjectContent child aggressive)
        else none
  | [], depth, aggressive => by simp [allReturned, nestingDepthArray]
  | child :: rest, depth, aggressive => by
    simp only [List.map_cons, nestingDepthArray, Nat.max_le]
    rw [getObjectContentWithin_eq child depth aggressive]
    by_cases h1 : nestingDepth child ≤ depth
    · simp only [h1, if_true, allReturned, true_and]
      rw [allReturned_array rest depth aggressive]
      by_cases h2 : nestingDepthArray rest ≤ depth
      · simp [h2]
      · simp [h2]
    · simp [h1, allReturned]
theorem allReturned_dictionary :
    ∀ (dict : List (String × PdfObject)) (depth : Nat) (aggressive : Bool),
      allReturned (dict.map fun pair =>
          (getObjectContentWithin depth pair.2 aggressive).map fun content =>
            pair.1 ++ ":" ++ content) =
        if nestingDepthDictionary dict ≤ depth then
          some (dict.map fun pair => pair.1 ++ ":" ++ getObjectContent pair.2 aggressive)
        else none
  | [], depth, aggressive => by simp [allReturned, nestingDepthDictionary]
  | (key, value) :: rest, depth, aggressive => by
    simp only [List.map_cons, nestingDepthDictionary, Nat.max_le]
    rw [getObjectContentWithin_eq value depth aggressive]
    by_cases h1 : nestingDepth value ≤ depth
    · simp only [h1, if_true, Option.map_some', allReturned, true_and]
      rw [allReturned_dictionary rest depth aggressive]
      by_cases h2 : nestingDepthDictionary rest ≤ depth
      · simp [h2]
      · simp [h2]
    · simp [h1, allReturned]
end

/-- C14: `getObjectContent` returns on every object, and the depth of its
recursion is the nesting depth of the object: run with a bound on the depth
of its recursion it returns its content string when the bound is at least
the nesting depth, and only then.  A Reference has nesting depth 1: its call
returns without a recursive call and without reading the object table, so
references that form a cycle in the table are never followed. -/
theorem recursion_depth_is_nesting_depth :
    (∀ obj depth aggressive, nestingDepth obj ≤ depth →
      getObjectContentWithin depth obj aggressive = some (getObjectContent obj aggressive)) ∧
    (∀ obj depth aggressive, depth < nestingDepth obj →
      getObjectContentWithin depth obj aggressive = none) ∧
    (∀ obj aggressive, getObjectContentWithin (nestingDepth obj) obj aggressive =
      some (getObjectContent obj aggressive)) ∧
    (∀ ref aggressive, nestingDepth (.Reference ref) = 1 ∧
      getObjectContentWithin 1 (.Reference ref) aggressive =
        some (getObjectContent (.Reference ref) aggressive)) := by
  refine ⟨?_, ?_, ?_, ?_⟩
  · intro obj depth aggressive h
    rw [getObjectContentWithin_eq, if_pos h]
  · intro obj depth aggressive h
    rw [getObjectContentWithin_eq, if_neg (by omega)]
  · intro obj aggressive
    rw [getObjectContentWithin_eq, if_pos (le_refl _)]
  · intro ref aggressive
    exact ⟨rfl, rfl⟩

theorem recursion_depth_is_nesting_depth_witness :
    (nestingDepth (.Array [.Reference ⟨2, 0⟩]) ≤ 2 ∧
      (⟨⟨1, 0⟩, .Array [.Reference ⟨2, 0⟩]⟩ : PdfIndirectObject) ∈
        liveObjects referenceCycle.Objects ∧
      (⟨⟨2, 0⟩, .Array [.Reference ⟨1, 0⟩]⟩ : PdfIndirectObject) ∈
        liveObjects referenceCycle.Objects) ∧
    getObjectContentWithin 2 (.Array [.Reference ⟨2, 0⟩]) true =
      some (getObjectContent (.Array [.Reference ⟨2, 0⟩]) true) :=
  ⟨⟨by decide, by simp [referenceCycle, liveObjects], by simp [referenceCycle, liveObjects]⟩,
    recursion_depth_is_nesting_depth.1 (.Array [.Reference ⟨2, 0⟩]) 2 true (by decide)⟩

/-! ## Rendering of Real objects -/

set_option exponentiation.threshold 2000 in
set_option maxRecDepth 100000 in
theorem formatDouble_doubleOne : formatDouble doubleOne = "1" := by decide

set_option exponentiation.threshold 2000 in
set_option maxRecDepth 100000 in
theorem formatDouble_doubleOneAndABit : formatDouble doubleOneAndABit = "1" := by decide

/-- C19 (the code at the failing input): the doubles `1.0` and `1.0000001`
are different values, the content string of both Real objects is `real:1`
in either mode, because the stream insertion of a `double` keeps six
significant digits, and of two such table objects the later one is absent
after `DeduplicateObjects`. -/
theorem different_reals_same_content (aggressive : Bool) :
    doubleOne ≠ doubleOneAndABit ∧
    getObjectContent (.Real doubleOne) aggressive = "real:1" ∧
    getObjectContent (.Real doubleOneAndABit) aggressive = "real:1" ∧
    (⟨2, 0⟩ : PdfReference) ∈ presentReferences nearbyReals.Objects ∧
    (⟨2, 0⟩ : PdfReference) ∉
      presentReferences (DeduplicateObjects nearbyReals aggressive).Objects := by
  have h1 : getObjectContent (.Real doubleOne) aggressive = "real:1" := by
    simp only [getObjectContent, formatDouble_doubleOne]
    rfl
  have h2 : getObjectContent (.Real doubleOneAndABit) aggressive = "real:1" := by
    simp only [getObjectContent, formatDouble_doubleOneAndABit]
    rfl
  refine ⟨by decide, h1, h2, by decide, ?_⟩
  exact absent_of_earlier_same_content nearbyReals aggressive [] []
    [⟨⟨3, 0⟩, .Array [.Reference ⟨1, 0⟩, .Reference ⟨2, 0⟩]⟩]
    ⟨⟨1, 0⟩, .Real doubleOne⟩ ⟨⟨2, 0⟩, .Real doubleOneAndABit⟩ rfl
    (by simp only [contentOf]; rw [h1, h2])

/-! ## Dictionaries that list the same entries in a different order -/

theorem split_at_first_colon (k k' x y : List Char) (hk : ':' ∉ k) (hk' : ':' ∉ k')
    (h : k ++ ':' :: x = k' ++ ':' :: y) : k = k' ∧ x = y := by
  induction k generalizing k' with
  | nil =>
    cases k' with
    | nil => simpa using h
    | cons c t =>
      exfalso
      simp only [List.nil_append, List.cons_append, List.cons.injEq] at h
      exact hk' (by rw [← h.1]; exact List.mem_cons_self _ _)
  | cons c t ih =>
    cases k' with
    | nil =>
      exfalso
      simp only [List.nil_append, List.cons_append, List.cons.injEq] at h
      exact hk (by rw [h.1]; exact List.mem_cons_self _ _)
    | cons c' t' =>
      simp only [List.cons_append, List.cons.injEq] at h
      obtain ⟨h1, h2⟩ := ih t' (fun hm => hk (List.mem_cons_of_mem _ hm))
        (fun hm => hk' (List.mem_cons_of_mem _ hm)) h.2
      exact ⟨by rw [h.1, h1], h2⟩

/-- Dictionaries with distinct keys free of `:` that hold the same entries
and write the same entry sequence are equal. -/
theorem dictionaryContent_injective_on_perm (aggressive : Bool) :
    ∀ (d1 d2 : List (String × PdfObject)) (first : Bool), d1.Perm d2 →
      (d1.map Prod.fst).Nodup → (∀ key ∈ d1.map Prod.fst, ':' ∉ key.data) →
      dictionaryContent d1 aggressive first = dictionaryContent d2 aggressive first →
      d1 = d2 := by
  intro d1
  induction d1 with
  | nil =>
    intro d2 first hperm _ _ _
    exact (List.Perm.nil_eq hperm)
  | cons e r1 ih =>
    intro d2 first hperm hnodup hcolon hcontent
    obtain ⟨k, v⟩ := e
    cases d2 with
    | nil => exact absurd hperm.symm (List.Perm.nil_eq · |> fun h => by cases h)
    | cons e' r2 =>
      obtain ⟨k', v'⟩ := e'
      have hk'mem : k' ∈ ((k, v) :: r1).map Prod.fst := by
        have : (k', v') ∈ (k, v) :: r1 := hperm.mem_iff.mpr (List.mem_cons_self _ _)
        exact List.mem_map.mpr ⟨(k', v'), this, rfl⟩
      have hdata := congrArg String.data hcontent
      simp only [dictionaryContent, String.data_append, List.append_assoc,
        List.append_cancel_left_eq] at hdata
      simp only [List.singleton_append] at hdata
      obtain ⟨hkk, hrest⟩ := split_at_first_colon k.data k'.data _ _
        (hcolon k (by simp)) (hcolon k' hk'mem) hdata
      have hkeq : k = k' := String.ext hkk
      subst hkeq
      simp only [List.map_cons, List.nodup_cons] at hnodup
      have hv : v' = v := by
        have hm : (k, v') ∈ (k, v) :: r1 := hperm.mem_iff.mpr (List.mem_cons_self _ _)
        simp only [List.mem_cons, Prod.mk.injEq, true_and] at hm
        rcases hm with hm | hm
        · exact hm
        · exact absurd (List.mem_map.mpr ⟨(k, v'), hm, rfl⟩) hnodup.1
      subst hv
      simp only [List.append_cancel_left_eq] at hrest
      have htail : r1 = r2 :=
        ih r2 false hperm.cons_inv hnodup.2
          (fun key hkey => hcolon key (by
            simp only [List.map_cons, List.mem_cons]
            exact Or.inr hkey))
          (String.ext hrest)
      rw [htail]

/-- Objects with different contents are kept apart: their canonical
references differ and are present before garbage collection, and the later
of the two is present before garbage collection when no other object before
it has its content. -/
theorem kept_apart_of_content_ne (objects : PdfIndirectObjectList) (aggressive : Bool)
    (hd : DistinctReferences objects) (l1 l2 l3 : List PdfIndirectObject)
    (o1 o2 : PdfIndirectObject) (hl : liveObjects objects = l1 ++ o1 :: (l2 ++ o2 :: l3))
    (hc : contentOf aggressive o1 ≠ contentOf aggressive o2) :
    canonicalReference objects aggressive o1.IndirectReference ≠
        canonicalReference objects aggressive o2.IndirectReference ∧
      canonicalReference objects aggressive o1.IndirectReference ∈
        presentReferences (removeDuplicates objects aggressive) ∧
      canonicalReference objects aggressive o2.IndirectReference ∈
        presentReferences (removeDuplicates objects aggressive) ∧
      ((∀ o' ∈ l1 ++ l2, contentOf aggressive o' ≠ contentOf aggressive o2) →
        o2.IndirectReference ∈ presentReferences (removeDuplicates objects aggressive)) := by
  have hm1 : o1 ∈ liveObjects objects := by rw [hl]; simp
  have hm2 : o2 ∈ liveObjects objects := by rw [hl]; simp
  refine ⟨canonicalReference_ne_of_content_ne objects aggressive hd o1 o2 hm1 hm2 hc, ?_, ?_, ?_⟩
  · rw [mem_presentReferences_removeDuplicates]
    exact canonicalReference_present objects aggressive hd _
      (mem_presentReferences.mpr ⟨o1, hm1, rfl⟩)
  · rw [mem_presentReferences_removeDuplicates]
    exact canonicalReference_present objects aggressive hd _
      (mem_presentReferences.mpr ⟨o2, hm2, rfl⟩)
  · intro hfirst
    rw [mem_presentReferences_removeDuplicates]
    refine ⟨mem_presentReferences.mpr ⟨o2, hm2, rfl⟩, ?_⟩
    rw [mem_objectsToRemove_at objects aggressive hd (l1 ++ o1 :: l2) l3 o2 (by simp [hl])]
    rintro ⟨o', ho', hc'⟩
    simp only [List.mem_append, List.mem_cons] at ho'
    rcases ho' with ho' | rfl | ho'
    · exact hfirst o' (List.mem_append.mpr (Or.inl ho')) hc'
    · exact hc hc'
    · exact hfirst o' (List.mem_append.mpr (Or.inr ho')) hc'

/-- After the operation the table holds the references that were present
before garbage collection and are reachable from the trailer. -/
theorem mem_presentReferences_DeduplicateObjects (doc : PdfMemDocument) (aggressive : Bool)
    (r : PdfReference) :
    r ∈ presentReferences (DeduplicateObjects doc aggressive).Objects ↔
      r ∈ presentReferences (removeDuplicates doc.Objects aggressive) ∧
        Reachable (removeDuplicates doc.Objects aggressive) doc.Trailer r := by
  unfold DeduplicateObjects
  simp only [presentReferences, liveObjects_CollectGarbage, List.mem_map, List.mem_filter,
    decide_eq_true_eq]
  constructor
  · rintro ⟨o, ⟨ho, hr⟩, rfl⟩
    exact ⟨⟨o, ho, rfl⟩, (mem_reachableReferences _ _ _).mp hr⟩
  · rintro ⟨⟨o, ho, rfl⟩, hr⟩
    exact ⟨o, ⟨ho, (mem_reachableReferences _ _ _).mpr hr⟩, rfl⟩

/-- C11 (as stated, refuted): the two dictionaries of `collidingDictionaries`
hold the same two entries in a different order and have the same content
string, because the key `a:null,a` contains the separators, so the later one
is merged into the earlier and is absent after the operation; and the two
dictionaries of `unreferencedDictionaries`, whose content strings differ,
are both absent after the operation, collected as unreachable from the
trailer. -/
theorem reordered_dictionaries_merged_or_collected :
    (([("a", .Null), ("a:null,a", .Null)] : List (String × PdfObject)).Perm
        [("a:null,a", .Null), ("a", .Null)] ∧
      ([("a", .Null), ("a:null,a", .Null)] : List (String × PdfObject)) ≠
        [("a:null,a", .Null), ("a", .Null)] ∧
      getObjectContent (.Dictionary [("a", .Null), ("a:null,a", .Null)] none) true =
        getObjectContent (.Dictionary [("a:null,a", .Null), ("a", .Null)] none) true ∧
      (⟨2, 0⟩ : PdfReference) ∈ presentReferences collidingDictionaries.Objects ∧
      (⟨2, 0⟩ : PdfReference) ∉
        presentReferences (DeduplicateObjects collidingDictionaries true).Objects) ∧
    (getObjectContent (.Dictionary [("A", .Number 1), ("B", .Number 2)] none) true ≠
        getObjectContent (.Dictionary [("B", .Number 2), ("A", .Number 1)] none) true ∧
      presentReferences unreferencedDictionaries.Objects = [⟨1, 0⟩, ⟨2, 0⟩, ⟨3, 0⟩] ∧
      presentReferences (DeduplicateObjects unreferencedDictionaries true).Objects =
        [⟨1, 0⟩]) := by
  refine ⟨⟨List.Perm.swap _ _ _, ?_, by decide, by decide, by decide⟩, by decide, by decide,
    by decide⟩
  intro h
  simp only [List.cons.injEq, Prod.mk.injEq] at h
  exact absurd h.1.1 (by decide)

/-- C11 (amended): two Dictionaries that hold the same entries in a
different order, with distinct keys that contain no `:`, and the same stream
or none, have different content strings in either mode.  In a table keyed by
reference that holds two such objects their canonical references differ, so
neither is merged into the other; when no object before either of them has
its content, both are present before garbage collection, and each is present
after the operation exactly when it is reachable from the trailer. -/
theorem reordered_dictionaries_kept_apart (aggressive : Bool)
    (d1 d2 : List (String × PdfObject)) (stream : Option String)
    (hperm : d1.Perm d2) (hne : d1 ≠ d2) (hkeys : (d1.map Prod.fst).Nodup)
    (hcolon : ∀ key ∈ d1.map Prod.fst, ':' ∉ key.data) :
    getObjectContent (.Dictionary d1 stream) aggressive ≠
      getObjectContent (.Dictionary d2 stream) aggressive ∧
    (∀ (doc : PdfMemDocument) (l1 l2 l3 : List PdfIndirectObject) (o1 o2 : PdfIndirectObject),
      DistinctReferences doc.Objects →
      liveObjects doc.Objects = l1 ++ o1 :: (l2 ++ o2 :: l3) →
      o1.Object = .Dictionary d1 stream → o2.Object = .Dictionary d2 stream →
      canonicalReference doc.Objects aggressive o1.IndirectReference ≠
        canonicalReference doc.Objects aggressive o2.IndirectReference ∧
      ((∀ o' ∈ l1, getObjectContent o'.Object aggressive ≠
          getObjectContent o1.Object aggressive) →
        (∀ o' ∈ l1 ++ l2, getObjectContent o'.Object aggressive ≠
          getObjectContent o2.Object aggressive) →
        o1.IndirectReference ∈ presentReferences (removeDuplicates doc.Objects aggressive) ∧
        o2.IndirectReference ∈ presentReferences (removeDuplicates doc.Objects aggressive) ∧
        (o1.IndirectReference ∈ presentReferences (DeduplicateObjects doc aggressive).Objects ↔
          Reachable (removeDuplicates doc.Objects aggressive) doc.Trailer
            o1.IndirectReference) ∧
        (o2.IndirectReference ∈ presentReferences (DeduplicateObjects doc aggressive).Objects ↔
          Reachable (removeDuplicates doc.Objects aggressive) doc.Trailer
            o2.IndirectReference))) := by
  have hcontent : getObjectContent (.Dictionary d1 stream) aggressive ≠
      getObjectContent (.Dictionary d2 stream) aggressive := by
    intro h
    apply hne
    have hdata := congrArg String.data h
    simp only [getObjectContent, String.data_append, List.append_assoc,
      List.append_cancel_left_eq, List.append_cancel_right_eq] at hdata
    exact dictionaryContent_injective_on_perm aggressive d1 d2 true hperm hkeys hcolon
      (String.ext hdata)
  refine ⟨hcontent, ?_⟩
  intro doc l1 l2 l3 o1 o2 hd hl h1 h2
  have hc : contentOf aggressive o1 ≠ contentOf aggressive o2 := by
    simp only [contentOf, h1, h2]
    exact hcontent
  obtain ⟨hcanon, _, _, hlater⟩ :=
    kept_apart_of_content_ne doc.Objects aggressive hd l1 l2 l3 o1 o2 hl hc
  refine ⟨hcanon, ?_⟩
  intro hfirst1 hfirst2
  have hp1 : o1.IndirectReference ∈ presentReferences (removeDuplicates doc.Objects aggressive) :=
    (group_survivor doc.Objects aggressive hd l1 (l2 ++ o2 :: l3) o1 hl hfirst1 o1
      (by rw [hl]; simp) rfl).mpr rfl
  have hp2 : o2.IndirectReference ∈ presentReferences (removeDuplicates doc.Objects aggressive) :=
    hlater hfirst2
  refine ⟨hp1, hp2, ?_, ?_⟩
  · rw [mem_presentReferences_DeduplicateObjects]
    exact ⟨fun h => h.2, fun h => ⟨hp1, h⟩⟩
  · rw [mem_presentReferences_DeduplicateObjects]
    exact ⟨fun h => h.2, fun h => ⟨hp2, h⟩⟩

theorem reordered_dictionaries_kept_apart_witness :
    (([("A", .Number 1), ("B", .Number 2)] : List (String × PdfObject)).Perm
        [("B", .Number 2), ("A", .Number 1)] ∧
      ([("A", .Number 1), ("B", .Number 2)] : List (String × PdfObject)) ≠
        [("B", .Number 2), ("A", .Number 1)] ∧
      (([("A", .Number 1), ("B", .Number 2)] : List (String × PdfObject)).map Prod.fst).Nodup ∧
      (∀ key ∈ ([("A", .Number 1), ("B", .Number 2)] : List (String × PdfObject)).map Prod.fst,
        ':' ∉ key.data) ∧
      DistinctReferences reorderedDictionaries.Objects) ∧
    (getObjectContent (.Dictionary [("A", .Number 1), ("B", .Number 2)] none) true ≠
        getObjectContent (.Dictionary [("B", .Number 2), ("A", .Number 1)] none) true ∧
      canonicalReference reorderedDictionaries.Objects true ⟨1, 0⟩ ≠
        canonicalReference reorderedDictionaries.Objects true ⟨2, 0⟩) :=
  have hne : ([("A", .Number 1), ("B", .Number 2)] : List (String × PdfObject)) ≠
      [("B", .Number 2), ("A", .Number 1)] := by
    intro h
    simp only [List.cons.injEq, Prod.mk.injEq] at h
    exact absurd h.1.1 (by decide)
  have hkeys : (([("A", .Number 1), ("B", .Number 2)] :
      List (String × PdfObject)).map Prod.fst).Nodup := by decide
  have hcolon : ∀ key ∈ ([("A", .Number 1), ("B", .Number 2)] :
      List (String × PdfObject)).map Prod.fst, ':' ∉ key.data := by decide
  have hthm := reordered_dictionaries_kept_apart true [("A", .Number 1), ("B", .Number 2)]
    [("B", .Number 2), ("A", .Number 1)] none (List.Perm.swap _ _ _) hne hkeys hcolon
  ⟨⟨List.Perm.swap _ _ _, hne, hkeys, hcolon, by decide⟩, hthm.1,
    (hthm.2 reorderedDictionaries [] []
      [⟨⟨3, 0⟩, .Dictionary [("First", .Reference ⟨1, 0⟩), ("Second", .Reference ⟨2, 0⟩)]
        none⟩]
      ⟨⟨1, 0⟩, .Dictionary [("A", .Number 1), ("B", .Number 2)] none⟩
      ⟨⟨2, 0⟩, .Dictionary [("B", .Number 2), ("A", .Number 1)] none⟩
      (by decide) rfl rfl rfl).1⟩


/-! ## Different stream bytes in aggressive mode -/

/-- C12, as stated, fails: the two stream-bearing dictionaries of
`unreferencedStreams` have the same entries, different stream bytes and
different content strings in aggressive mode, and are both present before the
call and before garbage collection; after `DeduplicateObjects(true)` neither
is present, both collected as unreachable from the trailer. -/
theorem unreferenced_streams_collected :
    getObjectContent (.Dictionary [("Length", .Number 3)] (some "abc")) true ≠
        getObjectContent (.Dictionary [("Length", .Number 3)] (some "xyz")) true ∧
      presentReferences unreferencedStreams.Objects = [⟨1, 0⟩, ⟨2, 0⟩, ⟨3, 0⟩] ∧
      presentReferences (removeDuplicates unreferencedStreams.Objects true) =
        [⟨1, 0⟩, ⟨2, 0⟩, ⟨3, 0⟩] ∧
      presentReferences (DeduplicateObjects unreferencedStreams true).Objects = [⟨1, 0⟩] := by
  decide

/-- C12, amended: in aggressive mode two Dictionaries with the same entries and
different stream bytes have different content strings.  In a table keyed by
reference that holds two such objects their canonical references differ, so
neither is merged into the other; when no object before either of them has
its content, both are present before garbage collection, and each is present
after `DeduplicateObjects(true)` exactly when it is reachable from the
trailer. -/
theorem different_streams_not_merged (dict : List (String × PdfObject)) (s1 s2 : String)
    (hs : s1 ≠ s2) :
    getObjectContent (.Dictionary dict (some s1)) true ≠
      getObjectContent (.Dictionary dict (some s2)) true ∧
    (∀ (doc : PdfMemDocument) (l1 l2 l3 : List PdfIndirectObject) (o1 o2 : PdfIndirectObject),
      DistinctReferences doc.Objects →
      liveObjects doc.Objects = l1 ++ o1 :: (l2 ++ o2 :: l3) →
      o1.Object = .Dictionary dict (some s1) → o2.Object = .Dictionary dict (some s2) →
      canonicalReference doc.Objects true o1.IndirectReference ≠
        canonicalReference doc.Objects true o2.IndirectReference ∧
      ((∀ o' ∈ l1, getObjectContent o'.Object true ≠ getObjectContent o1.Object true) →
        (∀ o' ∈ l1 ++ l2, getObjectContent o'.Object true ≠ getObjectContent o2.Object true) →
        o1.IndirectReference ∈ presentReferences (removeDuplicates doc.Objects true) ∧
        o2.IndirectReference ∈ presentReferences (removeDuplicates doc.Objects true) ∧
        (o1.IndirectReference ∈ presentReferences (DeduplicateObjects doc true).Objects ↔
          Reachable (removeDuplicates doc.Objects true) doc.Trailer o1.IndirectReference) ∧
        (o2.IndirectReference ∈ presentReferences (DeduplicateObjects doc true).Objects ↔
          Reachable (removeDuplicates doc.Objects true) doc.Trailer
            o2.IndirectReference))) := by
  have hne : getObjectContent (.Dictionary dict (some s1)) true ≠
      getObjectContent (.Dictionary dict (some s2)) true := by
    simp only [getObjectContent, ne_eq, append_left_cancel_iff]
    exact hs
  refine ⟨hne, ?_⟩
  intro doc l1 l2 l3 o1 o2 hd hl h1 h2
  have hc : contentOf true o1 ≠ contentOf true o2 := by
    simp only [contentOf, h1, h2]
    exact hne
  obtain ⟨hcanon, _, _, hlater⟩ :=
    kept_apart_of_content_ne doc.Objects true hd l1 l2 l3 o1 o2 hl hc
  refine ⟨hcanon, ?_⟩
  intro hfirst1 hfirst2
  have hp1 : o1.IndirectReference ∈ presentReferences (removeDuplicates doc.Objects true) :=
    (group_survivor doc.Objects true hd l1 (l2 ++ o2 :: l3) o1 hl hfirst1 o1
      (by rw [hl]; simp) rfl).mpr rfl
  have hp2 : o2.IndirectReference ∈ presentReferences (removeDuplicates doc.Objects true) :=
    hlater hfirst2
  refine ⟨hp1, hp2, ?_, ?_⟩
  · rw [mem_presentReferences_DeduplicateObjects]
    exact ⟨fun h => h.2, fun h => ⟨hp1, h⟩⟩
  · rw [mem_presentReferences_DeduplicateObjects]
    exact ⟨fun h => h.2, fun h => ⟨hp2, h⟩⟩

theorem different_streams_not_merged_witness :
    (("abc" : String) ≠ "xyz" ∧ DistinctReferences differentStreams.Objects ∧
      liveObjects differentStreams.Objects =
        [] ++ ⟨⟨1, 0⟩, .Dictionary [("Length", .Number 3)] (some "abc")⟩ ::
          ([] ++ ⟨⟨2, 0⟩, .Dictionary [("Length", .Number 3)] (some "xyz")⟩ ::
            [⟨⟨3, 0⟩, .Dictionary [("First", .Reference ⟨1, 0⟩), ("Second", .Reference ⟨2, 0⟩)]
              none⟩])) ∧
    canonicalReference differentStreams.Objects true ⟨1, 0⟩ ≠
      canonicalReference differentStreams.Objects true ⟨2, 0⟩ ∧
    (⟨1, 0⟩ : PdfReference) ∈ presentReferences (removeDuplicates differentStreams.Objects true) ∧
    (⟨2, 0⟩ : PdfReference) ∈ presentReferences (removeDuplicates differentStreams.Objects true) ∧
    ((⟨1, 0⟩ : PdfReference) ∈
        presentReferences (DeduplicateObjects differentStreams true).Objects ↔
      Reachable (removeDuplicates differentStreams.Objects true) differentStreams.Trailer
        ⟨1, 0⟩) ∧
    ((⟨2, 0⟩ : PdfReference) ∈
        presentReferences (DeduplicateObjects differentStreams true).Objects ↔
      Reachable (removeDuplicates differentStreams.Objects true) differentStreams.Trailer
        ⟨2, 0⟩) :=
  have hthm := (different_streams_not_merged [("Length", .Number 3)] "abc" "xyz"
      (by decide)).2
    differentStreams [] []
    [⟨⟨3, 0⟩, .Dictionary [("First", .Reference ⟨1, 0⟩), ("Second", .Reference ⟨2, 0⟩)]
      none⟩]
    ⟨⟨1, 0⟩, .Dictionary [("Length", .Number 3)] (some "abc")⟩
    ⟨⟨2, 0⟩, .Dictionary [("Length", .Number 3)] (some "xyz")⟩
    (by decide) rfl rfl rfl
  ⟨⟨by decide, by decide, rfl⟩, hthm.1,
    hthm.2 (fun _ h => absurd h (List.not_mem_nil _))
      (fun _ h => absurd h (List.not_mem_nil _))⟩

/-- In `differentStreams` the root refers to both stream-bearing dictionaries, and both are
present, with their streams, after `DeduplicateObjects(true)`. -/
theorem differentStreams_after :
    liveObjects (DeduplicateObjects differentStreams true).Objects =
      liveObjects differentStreams.Objects := by
  rfl

/-! ## The fingerprint of arrays and dictionaries -/

theorem intercalate_go_eq (acc : String) (parts : List String) :
    String.intercalate.go acc "," parts = acc ++ joinParts parts false := by
  induction parts generalizing acc with
  | nil => simp [String.intercalate.go, joinParts]
  | cons part rest ih =>
    simp [String.intercalate.go, joinParts, ih, String.append_assoc]

theorem joinParts_eq_intercalate (parts : List String) :
    joinParts parts true = String.intercalate "," parts := by
  cases parts with
  | nil => simp [joinParts, String.intercalate]
  | cons part rest => simp [joinParts, String.intercalate, intercalate_go_eq]

/-- C25: the fingerprint of an Array node is `array:[`, then the fingerprints of its
elements in order joined by single commas, then `]`, in either mode; the empty Array
fingerprints to `array:[]`. -/
theorem array_content (arr : List PdfObject) (aggressive : Bool) :
    getObjectContent (.Array arr) aggressive =
        "array:[" ++
          String.intercalate "," (arr.map fun child => getObjectContent child aggressive) ++
          "]" ∧
      getObjectContent (.Array []) aggressive = "array:[]" := by
  constructor
  · simp only [getObjectContent, arrayContent_eq_joinParts, joinParts_eq_intercalate]
  · simp only [getObjectContent, arrayContent]
    decide

/-- C26: the fingerprint of a Dictionary node is `dict:` and an opening brace, then the
entries `key:fingerprint(value)` in iteration order joined by single commas, then a closing
brace; `stream:` and the stream bytes follow when the mode is aggressive and a stream is
attached, and nothing follows otherwise. -/
theorem dictionary_content (dict : List (String × PdfObject)) (aggressive : Bool)
    (stream : Option String) :
    getObjectContent (.Dictionary dict stream) aggressive =
      "dict:\x7b" ++
        String.intercalate ","
          (dict.map fun entry => entry.1 ++ ":" ++ getObjectContent entry.2 aggressive) ++
        "\x7d" ++
        (match stream with
         | some buffer => if aggressive = true then "stream:" ++ buffer else ""
         | none => "") := by
  cases aggressive <;> cases stream <;>
    simp [getObjectContent, dictionaryContent_eq_joinParts, joinParts_eq_intercalate]


/-! ## Kind tags -/

/-- The first three characters of a fingerprint are those of the kind tag of the data
type. -/
theorem content_tag (obj : PdfObject) (aggressive : Bool) :
    ∃ rest : List Char,
      (getObjectContent obj aggressive).data =
        (match GetDataType obj with
         | .Unknown => ['u', 'n', 'k']
         | .RawData => ['u', 'n', 'k']
         | .Null => ['n', 'u', 'l']
         | .Boolean => ['b', 'o', 'o']
         | .Number => ['n', 'u', 'm']
         | .Real => ['r', 'e', 'a']
         | .String => ['s', 't', 'r']
         | .Name => ['n', 'a', 'm']
         | .Array => ['a', 'r', 'r']
         | .Dictionary => ['d', 'i', 'c']
         | .Reference => ['r', 'e', 'f']) ++ rest := by
  cases obj <;>
    simp only [getObjectContent, GetDataType, IsNumber, if_true, String.data_append] <;>
    exact ⟨_, rfl⟩


theorem dataType_eq_of_content_eq (a b : PdfObject) (modeA modeB : Bool)
    (ha : IsRecognized a = true) (hb : IsRecognized b = true)
    (h : getObjectContent a modeA = getObjectContent b modeB) :
    GetDataType a = GetDataType b := by
  obtain ⟨restA, hA⟩ := content_tag a modeA
  obtain ⟨restB, hB⟩ := content_tag b modeB
  rw [h, hB] at hA
  unfold IsRecognized at ha hb
  generalize GetDataType a = typeA at ha hA ⊢
  generalize GetDataType b = typeB at hb hA ⊢
  cases typeA <;> cases typeB <;> first
    | rfl
    | exact absurd ha (by decide)
    | exact absurd hb (by decide)
    | (simp at hA)

/-- C24: two nodes of different data types among Null, Boolean, Number, Real, String, Name,
Array, Dictionary and Reference have different fingerprints, in either mode. -/
theorem different_types_different_content (a b : PdfObject) (aggressive : Bool)
    (ha : IsRecognized a = true) (hb : IsRecognized b = true)
    (h : GetDataType a ≠ GetDataType b) :
    getObjectContent a aggressive ≠ getObjectContent b aggressive :=
  fun heq => h (dataType_eq_of_content_eq a b aggressive aggressive ha hb heq)

theorem different_types_different_content_witness :
    IsRecognized (.Number 1) = true ∧ IsRecognized (.Name "1") = true ∧
      GetDataType (.Number 1) ≠ GetDataType (.Name "1") ∧
      getObjectContent (.Number 1) true ≠ getObjectContent (.Name "1") true :=
  ⟨by decide, by decide, by decide,
    different_types_different_content (.Number 1) (.Name "1") true (by decide) (by decide)
      (by decide)⟩

/-! ## Unrecognized data types -/

theorem content_of_unrecognized (obj : PdfObject) (aggressive : Bool)
    (h : IsRecognized obj = false) : getObjectContent obj aggressive = "unknown" := by
  cases obj <;> first
    | rfl
    | (simp [IsRecognized, GetDataType] at h)

/-- C27: a node of an unrecognized data type has the fingerprint `unknown` in either mode;
hence of two such objects of a table, whatever their content, the later one is put in the
removal set and is gone after the operation. -/
theorem unrecognized_nodes_are_merged (doc : PdfMemDocument) (aggressive : Bool)
    (first second : PdfIndirectObject) (before between after : List PdfIndirectObject)
    (hd : DistinctReferences doc.Objects)
    (hsplit : liveObjects doc.Objects = before ++ first :: (between ++ second :: after))
    (h1 : IsRecognized first.Object = false) (h2 : IsRecognized second.Object = false) :
    getObjectContent first.Object aggressive = "unknown" ∧
      getObjectContent second.Object aggressive = "unknown" ∧
      second.IndirectReference ∈
        (identifyDuplicates (buildContentMap doc.Objects aggressive)).2 ∧
      second.IndirectReference ∉
        presentReferences (DeduplicateObjects doc aggressive).Objects := by
  have hc1 := content_of_unrecognized first.Object aggressive h1
  have hc2 := content_of_unrecognized second.Object aggressive h2
  have hc : contentOf aggressive first = contentOf aggressive second := by
    simp only [contentOf, hc1, hc2]
  refine ⟨hc1, hc2, ?_, ?_⟩
  · rw [mem_objectsToRemove_at doc.Objects aggressive hd (before ++ first :: between) after
      second (by rw [hsplit]; simp)]
    exact ⟨first, by simp, hc⟩
  · exact absent_of_earlier_same_content doc aggressive before between after first second
      hsplit hc

theorem unrecognized_nodes_are_merged_witness :
    DistinctReferences unrecognizedObjects.Objects ∧
      getObjectContent (.RawData "one") true = "unknown" ∧
      getObjectContent (.RawData "another") true = "unknown" ∧
      (⟨2, 0⟩ : PdfReference) ∈
        (identifyDuplicates (buildContentMap unrecognizedObjects.Objects true)).2 ∧
      (⟨2, 0⟩ : PdfReference) ∉
        presentReferences (DeduplicateObjects unrecognizedObjects true).Objects :=
  ⟨by decide,
    unrecognized_nodes_are_merged unrecognizedObjects true ⟨⟨1, 0⟩, .RawData "one"⟩
      ⟨⟨2, 0⟩, .RawData "another"⟩ [] [] [] (by decide) rfl rfl rfl⟩


/-! ## Tables without duplicates -/

/-- C28: on a table in which no two objects share a fingerprint, the replacement map and
the removal set come out empty, the rewrite pass and the removal loop leave the table as it
is, and the result of `DeduplicateObjects` is that of garbage collection on the unchanged
table. -/
theorem distinct_contents_only_collected (doc : PdfMemDocument) (aggressive : Bool)
    (h : ((liveObjects doc.Objects).map
      fun obj => getObjectContent obj.Object aggressive).Nodup) :
    identifyDuplicates (buildContentMap doc.Objects aggressive) = ([], []) ∧
      updateObjectReferences doc.Objects
          (identifyDuplicates (buildContentMap doc.Objects aggressive)).1 = doc.Objects ∧
      (identifyDuplicates (buildContentMap doc.Objects aggressive)).2.foldl RemoveObject
          doc.Objects = doc.Objects ∧
      removeDuplicates doc.Objects aggressive = doc.Objects ∧
      DeduplicateObjects doc aggressive =
        { doc with Objects := CollectGarbage doc.Objects doc.Trailer } := by
  have hi := identifyDuplicates_of_nodup doc.Objects aggressive h
  have hr := removeDuplicates_of_nodup doc.Objects aggressive h
  refine ⟨hi, ?_, ?_, hr, ?_⟩
  · rw [hi]; rfl
  · rw [hi]; rfl
  · unfold DeduplicateObjects
    rw [hr]

theorem distinct_contents_only_collected_witness :
    ((liveObjects distinctContents.Objects).map
        fun obj => getObjectContent obj.Object true).Nodup ∧
      identifyDuplicates (buildContentMap distinctContents.Objects true) = ([], []) ∧
      updateObjectReferences distinctContents.Objects
          (identifyDuplicates (buildContentMap distinctContents.Objects true)).1 =
        distinctContents.Objects ∧
      (identifyDuplicates (buildContentMap distinctContents.Objects true)).2.foldl RemoveObject
          distinctContents.Objects = distinctContents.Objects ∧
      removeDuplicates distinctContents.Objects true = distinctContents.Objects ∧
      DeduplicateObjects distinctContents true =
        { distinctContents with
          Objects := CollectGarbage distinctContents.Objects distinctContents.Trailer } :=
  ⟨by decide, distinct_contents_only_collected distinctContents true (by decide)⟩

/-! ## Integers -/

/-- C29: a node of data type Number answers true to `IsNumber`, its fingerprint is `num:`
followed by the decimal rendering of its value, and no fingerprint of any node, in either
mode, starts with `int:`. -/
theorem number_content (v : Int) (aggressive : Bool) :
    IsNumber (.Number v) = true ∧
      getObjectContent (.Number v) aggressive = "num:" ++ toString v ∧
      ∀ (obj : PdfObject) (mode : Bool) (rest : String),
        getObjectContent obj mode ≠ "int:" ++ rest := by
  refine ⟨rfl, by simp [getObjectContent, IsNumber], ?_⟩
  intro obj mode rest h
  obtain ⟨tail, ht⟩ := content_tag obj mode
  rw [h] at ht
  generalize GetDataType obj = type at ht
  cases type <;> simp at ht

/-! ## Tables without streams -/

mutual
theorem content_of_hasNoStream :
    ∀ obj : PdfObject, hasNoStream obj = true →
      getObjectContent obj true = getObjectContent obj false
  | .Array arr, h => by
    simp only [getObjectContent]
    rw [arrayContent_of_hasNoStream arr (by simpa [hasNoStream] using h) true]
  | .Dictionary dict stream, h => by
    simp only [hasNoStream, Bool.and_eq_true, Option.isNone_iff_eq_none] at h
    obtain ⟨hs, hdict⟩ := h
    subst hs
    simp only [getObjectContent]
    rw [dictionaryContent_of_hasNoStream dict hdict true]
  | .Reference _, _ => rfl
  | .Unknown, _ => rfl
  | .RawData _, _ => rfl
  | .Null, _ => rfl
  | .Boolean _, _ => rfl
  | .Number _, _ => rfl
  | .Real _, _ => rfl
  | .String _, _ => rfl
  | .Name _, _ => rfl
theorem arrayContent_of_hasNoStream :
    ∀ arr : List PdfObject, arrayHasNoStream arr = true →
      ∀ first : Bool, arrayContent arr true first = arrayContent arr false first
  | [], _, _ => rfl
  | child :: rest, h, first => by
    simp only [arrayHasNoStream, Bool.and_eq_true] at h
    simp only [arrayContent]
    rw [content_of_hasNoStream child h.1, arrayContent_of_hasNoStream rest h.2 false]
theorem dictionaryContent_of_hasNoStream :
    ∀ dict : List (String × PdfObject), dictionaryHasNoStream dict = true →
      ∀ first : Bool, dictionaryContent dict true first = dictionaryContent dict false first
  | [], _, _ => rfl
  | (key, value) :: rest, h, first => by
    simp only [dictionaryHasNoStream, Bool.and_eq_true] at h
    simp only [dictionaryContent]
    rw [content_of_hasNoStream value h.1, dictionaryContent_of_hasNoStream rest h.2 false]
end


/-- The content map depends on the fingerprint function only through its values on the
objects of the table. -/
theorem foldl_pushBack_congr (f g : PdfIndirectObject → String)
    (objs : List PdfIndirectObject) (h : ∀ obj ∈ objs, f obj = g obj) (init : ContentMap) :
    objs.foldl (fun (cm : ContentMap) obj => cm.pushBack (f obj) obj.IndirectReference) init =
      objs.foldl (fun (cm : ContentMap) obj => cm.pushBack (g obj) obj.IndirectReference)
        init := by
  induction objs generalizing init with
  | nil => rfl
  | cons obj rest ih =>
    simp only [List.foldl_cons]
    rw [h obj (by simp), ih (fun o ho => h o (by simp [ho]))]

theorem buildContentMap_of_hasNoStream (objects : PdfIndirectObjectList)
    (h : ∀ obj ∈ liveObjects objects, hasNoStream obj.Object = true) :
    buildContentMap objects true = buildContentMap objects false := by
  rw [buildContentMap_eq, buildContentMap_eq]
  exact foldl_pushBack_congr _ _ _
    (fun obj ho => content_of_hasNoStream obj.Object (h obj ho)) []

/-- C30, as stated, fails: the array `nestedStream` has no stream attached, yet its
aggressive fingerprint takes in the stream of the dictionary nested in it and differs from
the non-aggressive one. -/
theorem nested_stream_changes_content :
    HasStream nestedStream = false ∧
      getObjectContent nestedStream true = "array:[dict:\x7b\x7dstream:x]" ∧
      getObjectContent nestedStream false = "array:[dict:\x7b\x7d]" ∧
      getObjectContent nestedStream true ≠ getObjectContent nestedStream false := by
  decide

/-- C30, amended: a node in which no stream is attached, neither to the node itself nor to
a value nested in it, has the same fingerprint in both modes; hence on a table all of whose
objects are such nodes `DeduplicateObjects(true)` and `DeduplicateObjects(false)` give the
same table. -/
theorem modes_agree_without_streams (doc : PdfMemDocument)
    (h : ∀ obj ∈ liveObjects doc.Objects, hasNoStream obj.Object = true) :
    (∀ node : PdfObject, hasNoStream node = true →
        getObjectContent node true = getObjectContent node false) ∧
      DeduplicateObjects doc true = DeduplicateObjects doc false := by
  refine ⟨content_of_hasNoStream, ?_⟩
  unfold DeduplicateObjects removeDuplicates
  rw [buildContentMap_of_hasNoStream doc.Objects h]

theorem modes_agree_without_streams_witness :
    (∀ obj ∈ liveObjects sharedReference.Objects, hasNoStream obj.Object = true) ∧
      (∀ node : PdfObject, hasNoStream node = true →
        getObjectContent node true = getObjectContent node false) ∧
      DeduplicateObjects sharedReference true = DeduplicateObjects sharedReference false :=
  ⟨by decide, modes_agree_without_streams sharedReference (by decide)⟩


/-! ## `Select` -/

theorem ReplacementMap.mem_of_find (m : ReplacementMap) (ref value : PdfReference)
    (h : m.find ref = some value) : (ref, value) ∈ m := by
  induction m with
  | nil => simp [ReplacementMap.find] at h
  | cons pair rest ih =>
    obtain ⟨key, second⟩ := pair
    simp only [ReplacementMap.find] at h
    by_cases hk : key = ref
    · simp only [hk, if_true, Option.some.injEq] at h
      simp [hk, h]
    · simp only [hk, if_false] at h
      exact List.mem_cons_of_mem _ (ih h)

theorem ReplacementMap.find_eq_none (m : ReplacementMap) (ref : PdfReference)
    (h : ∀ value, (ref, value) ∉ m) : m.find ref = none := by
  cases hf : m.find ref with
  | none => rfl
  | some value => exact absurd (ReplacementMap.mem_of_find m ref value hf) (h value)

/-- Under a map in which no value is a key, a reference that the map has been applied to
is left alone by the map. -/
theorem find_after_find (m : ReplacementMap)
    (h : ∀ key value, (key, value) ∈ m → ∀ other, (value, other) ∉ m) (ref : PdfReference) :
    (m.find ((m.find ref).getD ref)).getD ((m.find ref).getD ref) = (m.find ref).getD ref := by
  cases hf : m.find ref with
  | none => simp [hf]
  | some value =>
    simp only [Option.getD_some]
    rw [ReplacementMap.find_eq_none m value
      (h ref value (ReplacementMap.mem_of_find m ref value hf))]
    rfl

/-- C31: under a replacement map in which no value is also a key, applying
`updateObjectReferencesRecursive` twice with the map gives the same node as applying it
once. -/
theorem rewrite_is_idempotent (m : ReplacementMap)
    (h : ∀ key value, (key, value) ∈ m → ∀ other, (value, other) ∉ m) (obj : PdfObject) :
    updateObjectReferencesRecursive (updateObjectReferencesRecursive obj m) m =
      updateObjectReferencesRecursive obj m := by
  apply update_eq_self
  intro ref hr
  rw [referencesOf_update, List.mem_map] at hr
  obtain ⟨source, _, hs⟩ := hr
  rw [← hs]
  exact find_after_find m h source

theorem rewrite_is_idempotent_witness :
    (∀ key value, (key, value) ∈ ([(⟨2, 0⟩, ⟨1, 0⟩), (⟨3, 0⟩, ⟨1, 0⟩)] : ReplacementMap) →
        ∀ other, (value, other) ∉ ([(⟨2, 0⟩, ⟨1, 0⟩), (⟨3, 0⟩, ⟨1, 0⟩)] : ReplacementMap)) ∧
      updateObjectReferencesRecursive
          (updateObjectReferencesRecursive
            (.Array [.Reference ⟨3, 0⟩, .Dictionary [("Key", .Reference ⟨2, 0⟩)] none])
            [(⟨2, 0⟩, ⟨1, 0⟩), (⟨3, 0⟩, ⟨1, 0⟩)])
          [(⟨2, 0⟩, ⟨1, 0⟩), (⟨3, 0⟩, ⟨1, 0⟩)] =
        updateObjectReferencesRecursive
          (.Array [.Reference ⟨3, 0⟩, .Dictionary [("Key", .Reference ⟨2, 0⟩)] none])
          [(⟨2, 0⟩, ⟨1, 0⟩), (⟨3, 0⟩, ⟨1, 0⟩)] :=
  have hmap : ∀ key value,
      (key, value) ∈ ([(⟨2, 0⟩, ⟨1, 0⟩), (⟨3, 0⟩, ⟨1, 0⟩)] : ReplacementMap) →
        ∀ other, (value, other) ∉ ([(⟨2, 0⟩, ⟨1, 0⟩), (⟨3, 0⟩, ⟨1, 0⟩)] : ReplacementMap) := by
    intro key value hm other ho
    simp only [List.mem_cons, Prod.mk.injEq, List.mem_singleton, List.not_mem_nil,
      or_false] at hm ho
    rcases hm with ⟨_, hv⟩ | ⟨_, hv⟩ <;> subst hv <;>
      rcases ho with ⟨hk, _⟩ | ⟨hk, _⟩ <;> exact absurd hk (by decide)
  ⟨hmap, rewrite_is_idempotent _ hmap _⟩

/-- With a chain in the map the second application moves a reference once more. -/
theorem rewrite_twice_with_chain :
    referencesOf (updateObjectReferencesRecursive (.Reference ⟨3, 0⟩) chainMap) = [⟨2, 0⟩] ∧
      referencesOf (updateObjectReferencesRecursive
        (updateObjectReferencesRecursive (.Reference ⟨3, 0⟩) chainMap) chainMap) =
          [⟨1, 0⟩] := by
  decide


/-! ## What the rewrite leaves alone -/

/-- Steps 1 to 4 keep a table keyed by reference keyed by reference. -/
theorem distinctReferences_removeDuplicates (objects : PdfIndirectObjectList)
    (aggressive : Bool) (hd : DistinctReferences objects) :
    DistinctReferences (removeDuplicates objects aggressive) := by
  unfold DistinctReferences presentReferences at hd ⊢
  rw [liveObjects_removeDuplicates]
  refine List.Nodup.sublist (List.Sublist.map _ (List.filter_sublist _)) ?_
  rw [List.map_map]
  exact hd

/-- An object whose references all lie outside the removal set is not changed by the
rewrite with the replacement map of the call. -/
theorem update_eq_self_of_not_removed (objects : PdfIndirectObjectList) (aggressive : Bool)
    (node : PdfObject)
    (hr : ∀ ref ∈ referencesOf node,
      ref ∉ (identifyDuplicates (buildContentMap objects aggressive)).2) :
    updateObjectReferencesRecursive node
      (identifyDuplicates (buildContentMap objects aggressive)).1 = node := by
  apply update_eq_self
  intro ref href
  cases hf : (identifyDuplicates (buildContentMap objects aggressive)).1.find ref with
  | none => rfl
  | some value => exact absurd (find_some_mem_objectsToRemove _ _ _ hf) (hr ref href)

/-- The rewrite keeps the stream attached to a node. -/
theorem GetStream_update (m : ReplacementMap) (node : PdfObject) :
    GetStream (updateObjectReferencesRecursive node m) = GetStream node := by
  cases node with
  | Reference ref => cases h : m.find ref <;> simp [updateObjectReferencesRecursive, h, GetStream]
  | _ => simp [updateObjectReferencesRecursive, GetStream]

/-- C32: a table object that is not in the removal set and holds no reference to an object
of the removal set is, before garbage collection, in the table with the value it had, and
in a table keyed by reference it is what its reference resolves to; this holds in
particular for every surviving object without references, and every object of the table
before garbage collection has the stream and the shape, stream payloads of nested values
included, of the object that had its reference before. -/
theorem untouched_node_keeps_value (objects : PdfIndirectObjectList) (aggressive : Bool)
    (obj : PdfIndirectObject) (ho : obj ∈ liveObjects objects)
    (hs : obj.IndirectReference ∉ (identifyDuplicates (buildContentMap objects aggressive)).2)
    (hr : ∀ ref ∈ referencesOf obj.Object,
      ref ∉ (identifyDuplicates (buildContentMap objects aggressive)).2) :
    obj ∈ liveObjects (removeDuplicates objects aggressive) ∧
      (DistinctReferences objects →
        GetObject (removeDuplicates objects aggressive) obj.IndirectReference = some obj) ∧
      (∀ free ∈ liveObjects objects, referencesOf free.Object = [] →
        free.IndirectReference ∉ (identifyDuplicates (buildContentMap objects aggressive)).2 →
        free ∈ liveObjects (removeDuplicates objects aggressive)) ∧
      (∀ after ∈ liveObjects (removeDuplicates objects aggressive),
        ∃ before ∈ liveObjects objects,
          before.IndirectReference = after.IndirectReference ∧
          GetStream after.Object = GetStream before.Object ∧
          shapeOf after.Object = shapeOf before.Object) := by
  have hkeep : ∀ o ∈ liveObjects objects,
      o.IndirectReference ∉ (identifyDuplicates (buildContentMap objects aggressive)).2 →
      (∀ ref ∈ referencesOf o.Object,
        ref ∉ (identifyDuplicates (buildContentMap objects aggressive)).2) →
      o ∈ liveObjects (removeDuplicates objects aggressive) := by
    intro o hmem hnot hrefs
    rw [liveObjects_removeDuplicates, List.mem_filter, List.mem_map]
    refine ⟨⟨o, hmem, ?_⟩, by simpa using hnot⟩
    rw [update_eq_self_of_not_removed objects aggressive o.Object hrefs]
  have hobj := hkeep obj ho hs hr
  refine ⟨hobj, ?_, ?_, ?_⟩
  · intro hd
    exact GetObject_of_mem _ (distinctReferences_removeDuplicates objects aggressive hd) obj hobj
  · intro free hfree hnone hnot
    exact hkeep free hfree hnot (by simp [hnone])
  · intro after hafter
    rw [liveObjects_removeDuplicates, List.mem_filter, List.mem_map] at hafter
    obtain ⟨⟨before, hbefore, heq⟩, _⟩ := hafter
    subst heq
    exact ⟨before, hbefore, rfl, GetStream_update _ _, shapeOf_update _ _⟩


theorem untouched_node_keeps_value_witness :
    ((⟨⟨4, 0⟩, .Array [.Reference ⟨2, 0⟩]⟩ : PdfIndirectObject) ∈
        liveObjects untouchedObjects.Objects ∧
      (⟨4, 0⟩ : PdfReference) ∉
        (identifyDuplicates (buildContentMap untouchedObjects.Objects true)).2 ∧
      ∀ ref ∈ referencesOf (.Array [.Reference ⟨2, 0⟩]),
        ref ∉ (identifyDuplicates (buildContentMap untouchedObjects.Objects true)).2) ∧
    (⟨⟨4, 0⟩, .Array [.Reference ⟨2, 0⟩]⟩ : PdfIndirectObject) ∈
      liveObjects (removeDuplicates untouchedObjects.Objects true) :=
  have hmem : (⟨⟨4, 0⟩, .Array [.Reference ⟨2, 0⟩]⟩ : PdfIndirectObject) ∈
      liveObjects untouchedObjects.Objects :=
    List.Mem.tail _ (List.Mem.tail _ (List.Mem.tail _ (List.Mem.head _)))
  ⟨⟨hmem, by decide, by decide⟩,
    (untouched_node_keeps_value untouchedObjects.Objects true
      ⟨⟨4, 0⟩, .Array [.Reference ⟨2, 0⟩]⟩ hmem (by decide) (by decide)).1⟩

/-- Object 5 of `untouchedObjects` holds a reference to the removed object 3 and is
rewritten, while the stream-bearing object 1 stays as it was. -/
theorem untouchedObjects_after_removal :
    liveObjects (removeDuplicates untouchedObjects.Objects true) =
      [⟨⟨1, 0⟩, .Dictionary [("Length", .Number 4)] (some "data")⟩,
       ⟨⟨2, 0⟩, .Number 42⟩,
       ⟨⟨4, 0⟩, .Array [.Reference ⟨2, 0⟩]⟩,
       ⟨⟨5, 0⟩, .Array [.Reference ⟨2, 0⟩, .Reference ⟨1, 0⟩, .Reference ⟨4, 0⟩]⟩] := by
  rfl

/-! ## The references of the trailer -/

/-- C33 fails on `duplicateRoot`: the trailer holds a reference to object 2, which is
present before the call; the call removes object 2 as the duplicate of object 1 and leaves
the trailer as it was, so that afterwards, before and after garbage collection, the
reference of the trailer resolves to nothing. -/
theorem trailer_reference_left_dangling :
    DistinctReferences duplicateRoot.Objects ∧
      (∀ ref ∈ referencesOf duplicateRoot.Trailer,
        ref ∈ presentReferences duplicateRoot.Objects) ∧
      referencesOf (DeduplicateObjects duplicateRoot false).Trailer = [⟨2, 0⟩] ∧
      (⟨2, 0⟩ : PdfReference) ∉
        presentReferences (removeDuplicates duplicateRoot.Objects false) ∧
      (⟨2, 0⟩ : PdfReference) ∉
        presentReferences (DeduplicateObjects duplicateRoot false).Objects ∧
      (GetObject (DeduplicateObjects duplicateRoot false).Objects ⟨2, 0⟩).isNone = true ∧
      referencesOf (DeduplicateObjects duplicateRoot true).Trailer = [⟨2, 0⟩] ∧
      (⟨2, 0⟩ : PdfReference) ∉
        presentReferences (DeduplicateObjects duplicateRoot true).Objects := by
  decide

/-- A reference of the trailer to an object that is present and not in the removal set
still resolves after the operation. -/
theorem trailer_reference_resolves_of_not_removed (doc : PdfMemDocument) (aggressive : Bool)
    (ref : PdfReference) (hheld : ref ∈ referencesOf doc.Trailer)
    (hpresent : ref ∈ presentReferences doc.Objects)
    (hkept : ref ∉ (identifyDuplicates (buildContentMap doc.Objects aggressive)).2) :
    ref ∈ referencesOf (DeduplicateObjects doc aggressive).Trailer ∧
      ref ∈ presentReferences (DeduplicateObjects doc aggressive).Objects := by
  have hpre : ref ∈ presentReferences (removeDuplicates doc.Objects aggressive) :=
    (mem_presentReferences_removeDuplicates doc.Objects aggressive ref).2 ⟨hpresent, hkept⟩
  refine ⟨hheld, ?_⟩
  rw [mem_presentReferences_DeduplicateObjects]
  exact ⟨hpre, Reachable.root ref hheld hpre⟩

end PoDoFo
